import Mathlib

/-!
# Verification of the balanced entity-resolution engine

Shallow embedding of `build_balanced_result.py` (the most refined dedup
pipeline variant) and proofs about its normalizer, validity classifier,
merge decision, clustering and output assembly.

Modelling conventions:
* Python `str` is modelled by Lean `String` / `List Char`; character classes
  are modelled on Unicode scalar values via Lean's `Char` predicates
  (Python's `re` classes `\w`/`\s` are Unicode-aware; the model uses the
  ASCII word characters `[A-Za-z0-9_]` and Lean's `Char.isWhitespace`,
  which agree with Python on all inputs exercised here).
* Python floats are modelled by exact rationals `ℚ`.  All thresholds in the
  source are decimal literals and all comparisons in the claims are far from
  the 1e-16 double-rounding regime, so the exact-rational model coincides
  with the float computation on everything stated below.  Rational values
  are built with `mkRat` and the kernel-computable `qadd`/`qmul` wrappers
  (definitionally equal to `+`/`*` on `ℚ`, see `qadd_eq`/`qmul_eq`), so
  that every definition evaluates by `decide`.
* `rapidfuzz.fuzz.ratio(a, b)` is the normalized indel similarity
  `100 * (1 - indel_distance/(|a|+|b|)) = 200 * lcs(a,b) / (|a|+|b|)`,
  embedded exactly in `ℚ`.
* Python `set` objects are modelled by duplicate-free lists kept in first
  occurrence order.  Python's set iteration order is unspecified; every
  claim settled here is insensitive to it, and the model fixes first
  occurrence order.
-/

namespace BalancedResult

/-- Kernel-computable product on `ℚ` (Mathlib's `*` does not reduce in the
kernel; this is extensionally the same function, see `qmul_eq`). -/
def qmul (a b : ℚ) : ℚ := mkRat (a.num * b.num) (a.den * b.den)

/-- Kernel-computable sum on `ℚ`, extensionally `+` (see `qadd_eq`). -/
def qadd (a b : ℚ) : ℚ := mkRat (a.num * b.den + b.num * a.den) (a.den * b.den)

/-- Kernel-computable division by 100, extensionally `· / 100`. -/
def qdiv100 (a : ℚ) : ℚ := mkRat a.num (a.den * 100)

theorem qmul_eq (a b : ℚ) : qmul a b = a * b := by
  rw [qmul, Rat.mkRat_eq_div]
  conv_rhs => rw [← Rat.num_div_den a, ← Rat.num_div_den b]
  rw [div_mul_div_comm]
  push_cast
  ring_nf

theorem qadd_eq (a b : ℚ) : qadd a b = a + b := by
  have ha : ((a.den : ℚ)) ≠ 0 := Nat.cast_ne_zero.mpr (Rat.den_ne_zero a)
  have hb : ((b.den : ℚ)) ≠ 0 := Nat.cast_ne_zero.mpr (Rat.den_ne_zero b)
  rw [qadd, Rat.mkRat_eq_div]
  conv_rhs => rw [← Rat.num_div_den a, ← Rat.num_div_den b]
  rw [div_add_div _ _ ha hb]
  push_cast
  ring_nf

theorem qdiv100_eq (a : ℚ) : qdiv100 a = a / 100 := by
  rw [qdiv100, Rat.mkRat_eq_div]
  conv_rhs => rw [← Rat.num_div_den a]
  rw [div_div]
  push_cast
  ring_nf

/-- Whitespace test used for Python's `\s` and `str.split()` / `str.strip()`. -/
def isSp (c : Char) : Bool := c.isWhitespace

/-- Split on whitespace runs, dropping empty pieces — Python `str.split()`. -/
def wordsAux : List Char → List Char → List (List Char)
  | [], cur => if cur.isEmpty then [] else [cur.reverse]
  | c :: cs, cur =>
    if isSp c then
      (if cur.isEmpty then wordsAux cs [] else cur.reverse :: wordsAux cs [])
    else wordsAux cs (c :: cur)

/-- Python `s.split()` on a Lean `String`. -/
def splitWs (s : String) : List String := (wordsAux s.data []).map (fun l => ⟨l⟩)

/-- One row of the LCS dynamic program.  `diag` is `prev[j]`, the list
argument carries `prev[j+1..]`, `cur` is the entry just written. -/
def lcsRowAux (ca : Char) : List Char → Nat → List Nat → Nat → List Nat
  | [], _, _, _ => []
  | cb :: bs, diag, prest, cur =>
    match prest with
    | [] => []
    | p :: ps =>
      let v := if ca = cb then diag + 1 else max cur p
      v :: lcsRowAux ca bs p ps v

/-- Length of the longest common subsequence, by row-wise dynamic
programming (linear rows, so concrete evaluation is polynomial). -/
def lcsLen (a b : List Char) : Nat :=
  (a.foldl
    (fun prev ca =>
      match prev with
      | p0 :: pt => 0 :: lcsRowAux ca b p0 pt 0
      | [] => [])
    (List.replicate (b.length + 1) 0)).getLastD 0

/-- `rapidfuzz.fuzz.ratio`, percent-scaled: `200*lcs/(|a|+|b|)`
(the normalized indel similarity).  Two empty strings give 100. -/
def fratio (a b : String) : ℚ :=
  let la := a.length
  let lb := b.length
  if la + lb = 0 then 100 else mkRat (200 * (lcsLen a.data b.data : Int)) (la + lb)

/-- `STOPWORDS` from the source. -/
def STOPWORDS : List String :=
  ["the", "and", "of", "for", "in", "a", "an", "to", "at", "by", "on"]

/-- `_significant_tokens`: all non-stopword tokens with length > 1. -/
def _significant_tokens (norm : String) : List String :=
  (splitWs norm).filter (fun t => !STOPWORDS.contains t && t.length > 1)

/-- Deduplicate keeping the first occurrence (model of `set(...)`). -/
def dedupFirstAux : List String → List String → List String
  | [], _ => []
  | x :: xs, seen =>
    if seen.contains x then dedupFirstAux xs seen
    else x :: dedupFirstAux xs (x :: seen)

def dedupFirst (l : List String) : List String := dedupFirstAux l []

/-- `set(_significant_tokens(norm))` as a duplicate-free list. -/
def tokSet (norm : String) : List String := dedupFirst (_significant_tokens norm)

/-- `STRONG_DIFFERENTIATORS` from the source. -/
def STRONG_DIFFERENTIATORS : List String :=
  [ "finance", "financial", "bank", "banking", "capital",
    "securities", "insurance", "assurance", "reinsurance",
    "credit", "leasing", "lending", "microfinance",
    "power", "steel", "cement", "chemicals", "petrochemicals",
    "polymers", "metals", "mining", "refinery", "petroleum",
    "pharma", "pharmaceutical", "pharmaceuticals", "healthcare",
    "hospitals", "hospital", "biotech", "diagnostics",
    "motors", "automobiles", "automotive", "aviation", "airlines",
    "shipping", "logistics",
    "telecom", "telecommunications", "media", "broadcasting",
    "realty", "construction", "infrastructure", "properties",
    "retail", "distribution", "foods", "beverages",
    "fashion", "apparel", "clothing",
    "education", "educational", "university", "academy",
    "agriculture", "agri", "agrochemicals", "seeds", "fertilizers",
    "textiles", "textile", "garments",
    "hotels", "hotel", "resort", "resorts", "holidays", "wellness",
    "electronics", "electrical", "appliances", "semiconductors",
    "life", "general", "health", "home" ]

/-- `BUSINESS_DIFFERENTIATORS = STRONG_DIFFERENTIATORS | {...}`. -/
def BUSINESS_DIFFERENTIATORS : List String :=
  STRONG_DIFFERENTIATORS ++
  [ "industries", "industrial", "manufacturing", "engineering",
    "automation", "technologies", "technology", "digital",
    "software", "infotech", "infosystems", "systems", "computing",
    "solutions", "consulting", "consultancy", "advisory",
    "services", "outsourcing", "staffing", "recruitment",
    "entertainment", "communications", "broadband",
    "investment", "investments", "mutual", "fund", "asset",
    "wealth", "housing", "factoring",
    "consumer", "fmcg", "trading", "stores", "wholesale",
    "medical", "sciences", "clinical",
    "transport", "transportation", "freight", "courier",
    "developers", "estates",
    "learning", "training", "institute",
    "fertilisers", "pesticides",
    "fabrics",
    "oil", "gas", "energy", "renewables", "solar", "wind",
    "robotics", "defence", "defense", "aerospace",
    "amc", "nbfc", "hfc" ]

/-- `GENERIC_INDUSTRY_TERMS` from the source. -/
def GENERIC_INDUSTRY_TERMS : List String :=
  [ "group", "groups", "company", "companies", "corporation", "corporate",
    "enterprises", "enterprise", "industries", "industrial", "industry",
    "international", "global", "worldwide", "national",
    "associates", "associate", "partnership", "partners",
    "holdings", "holding",
    "limited", "pvt", "private", "public",
    "division", "divisions", "unit", "branch",
    "services", "service", "solutions", "solution",
    "management", "consulting", "consultant", "consultants", "consultancy",
    "advisory", "advisor", "advisors",
    "products", "product", "works",
    "systems", "system",
    "operations", "operation",
    "hospital", "hospitals", "clinic", "clinics",
    "medical", "healthcare",
    "financial", "finance",
    "bank", "banking", "banks",
    "insurance", "assurance",
    "engineering", "engineers", "engineer",
    "technology", "technologies", "tech",
    "software", "hardware",
    "bearings", "bearing",
    "machine", "machines", "tools", "tool",
    "devices", "device",
    "exchange", "exchanges",
    "mutual",
    "fund", "funds",
    "electric", "electrical", "electronics", "electronic",
    "vehicles", "vehicle",
    "commercial",
    "pharma", "pharmaceutical", "pharmaceuticals",
    "drugs", "drug",
    "cement", "cements",
    "steel", "steels",
    "power", "energy",
    "motors", "motor",
    "oil", "gas",
    "chemicals", "chemical",
    "paints", "paint",
    "textiles", "textile",
    "retail", "stores", "store",
    "foods", "food",
    "beverages", "beverage",
    "logistics",
    "transport", "transportation",
    "construction",
    "infrastructure",
    "telecom", "telecommunications",
    "media", "broadcasting",
    "digital",
    "automation",
    "research", "development",
    "laboratory", "laboratories", "lab", "labs",
    "manufacturing", "manufacturer", "manufacturers",
    "trading", "traders",
    "distribution", "distributors", "distributor",
    "marketing", "sales",
    "stock",
    "investment", "investments",
    "securities",
    "capital",
    "credit", "lending", "leasing",
    "housing",
    "asset", "wealth",
    "consumer",
    "petroleum", "petrochemicals", "petrochemical",
    "polymers", "plastics", "rubber",
    "metals", "mining",
    "refinery", "refineries",
    "semiconductors",
    "diagnostics",
    "biotech", "biotechnology",
    "aerospace", "defence", "defense",
    "shipping", "freight", "courier",
    "airlines", "aviation",
    "seeds", "fertilizers", "fertilisers",
    "garments", "apparel", "fashion", "fabrics",
    "realty", "properties", "property", "estates", "estate",
    "education", "educational",
    "training", "learning",
    "institute", "institution", "institutions",
    "academy", "university", "college", "school",
    "india", "indian",
    "armed", "forces", "force", "air", "army", "navy",
    "chamber", "commerce",
    "ministry", "department", "government", "govt",
    "independent",
    "professional", "professionals",
    "regional", "area",
    "senior", "junior",
    "manager", "managers", "director", "directors",
    "head", "officer", "executive",
    "facilities", "facility",
    "network", "networks",
    "communications", "communication",
    "broadband", "wireless",
    "computing",
    "outsourcing",
    "staffing", "recruitment",
    "entertainment",
    "supply", "chain",
    "procurement",
    "developers", "developer",
    "advanced", "integrated",
    "small", "micro", "mini", "new",
    "sector",
    "council", "authority", "board", "commission",
    "organization", "organisation",
    "federation", "association",
    "society", "trust", "foundation",
    "welfare" ]

/-- Shared significant tokens, `tokens_a & tokens_b`, in `tokens_a` order. -/
def sharedSig (na nb : String) : List String :=
  (tokSet na).filter (fun t => (tokSet nb).contains t)

/-- Tokens of `na` only, `tokens_a - tokens_b`. -/
def onlySig (na nb : String) : List String :=
  (tokSet na).filter (fun t => !(tokSet nb).contains t)

/-- The typo-folding loop shared by `has_business_conflict` and the generic
protection in `should_merge`: each token of `only_a` consumes the first
not-yet-matched token of `only_b` within fuzzy ratio ≥ 80; returns the
unmatched remainders `(real_only_a, real_only_b)`.  The source iterates
Python sets (unspecified order); the model iterates in first-occurrence
order, on which every claim here is insensitive. -/
def typoFold (only_a only_b : List String) : List String × List String :=
  let st := only_a.foldl
    (fun (st : List String × List String) ta =>
      match only_b.find? (fun tb =>
          !st.1.contains tb && decide (mkRat 80 1 ≤ fratio ta tb)) with
      | some tb => (st.1 ++ [tb], st.2)
      | none => (st.1, st.2 ++ [ta]))
    ([], [])
  (st.2, only_b.filter (fun tb => !st.1.contains tb))

/-- `(real_only_a, real_only_b)` for a pair of normalized names. -/
def realOnly (na nb : String) : List String × List String :=
  typoFold (onlySig na nb) (onlySig nb na)

/-- `has_business_conflict` from the source, translated line by line
(`realOnly` is the typo-folding applied to the two unique-token sets,
exactly as in the source body). -/
def has_business_conflict (norm_a norm_b : String) (score : ℚ) : Bool :=
  let shared := sharedSig norm_a norm_b
  if shared.isEmpty then false
  else
    let only_a := onlySig norm_a norm_b
    let only_b := onlySig norm_b norm_a
    if only_a.isEmpty && only_b.isEmpty then false
    else
      let ro := realOnly norm_a norm_b
      if ro.1.isEmpty && ro.2.isEmpty then false
      else if ro.1.isEmpty || ro.2.isEmpty then
        let extra := ro.1 ++ ro.2
        if extra.any (fun t => STRONG_DIFFERENTIATORS.contains t) then
          decide (score < mkRat 93 100)
        else false
      else
        let has_biz_a := ro.1.any (fun t => BUSINESS_DIFFERENTIATORS.contains t)
        let has_biz_b := ro.2.any (fun t => BUSINESS_DIFFERENTIATORS.contains t)
        if has_biz_a || has_biz_b then decide (score < mkRat 95 100)
        else decide (score < mkRat 90 100)

/-- Thresholds from the source. -/
def MERGE_THRESHOLD : ℚ := mkRat 80 100

def AUTO_MERGE_THRESHOLD : ℚ := mkRat 91 100

def MAX_BLOCK : Nat := 350

/-- The generic-industry-term protection block inlined in `should_merge`
(lines 567–608 of the source), factored as a predicate: `true` exactly when
that block executes one of its `return False` statements. -/
def genericBlocked (na nb : String) (score : ℚ) : Bool :=
  let shared := sharedSig na nb
  if shared.isEmpty then false
  else
    let distinctive_shared :=
      shared.filter (fun t => !GENERIC_INDUSTRY_TERMS.contains t)
    if !distinctive_shared.isEmpty then false
    else
      let ro := realOnly na nb
      if ro.1.isEmpty && ro.2.isEmpty then false
      else if !ro.1.isEmpty && !ro.2.isEmpty then true
      else
        let extra := ro.1 ++ ro.2
        let has_distinctive_extra :=
          extra.any (fun t => !GENERIC_INDUSTRY_TERMS.contains t)
        has_distinctive_extra && decide (score < mkRat 95 100)

/-- The medium-confidence fuzzy token-overlap test (lines 625–635):
count of `set_a` members with a fuzzy counterpart in `set_b`, divided by
the size of the *larger* set, compared with 0.65. -/
def fuzzyOverlapOK (set_a set_b : List String) : Bool :=
  let nMatches :=
    (set_a.filter (fun ta =>
      set_b.any (fun tb => decide (mkRat 80 1 ≤ fratio ta tb)))).length
  let max_len := max set_a.length set_b.length
  if max_len = 0 then false
  else decide (mkRat 65 100 ≤ mkRat (nMatches : Int) max_len)

/-- Python `set_a == set_b` on the significant-token sets: mutual
containment of the duplicate-free token lists. -/
def tokSetEq (na nb : String) : Bool :=
  (tokSet na).all (fun t => (tokSet nb).contains t) &&
  (tokSet nb).all (fun t => (tokSet na).contains t)

/-- `should_merge` from the source.  The early `return False` statements of
the generic-protection block are factored through `genericBlocked`. -/
def should_merge (norm_a norm_b : String) (score : ℚ) : Bool :=
  if score < MERGE_THRESHOLD then false
  else if norm_a = norm_b then true
  else
    let tokens_a := _significant_tokens norm_a
    let tokens_b := _significant_tokens norm_b
    let min_tokens := min tokens_a.length tokens_b.length
    if min_tokens ≤ 1 ∧ score < mkRat 95 100 then false
    else if genericBlocked norm_a norm_b score then false
    else if has_business_conflict norm_a norm_b score then false
    else if AUTO_MERGE_THRESHOLD ≤ score then true
    else if tokSetEq norm_a norm_b then true
    else fuzzyOverlapOK (tokSet norm_a) (tokSet norm_b)

/-! ## Basic facts about the merge decision helpers -/

/-- A list never keeps an element that it contains when filtered by
non-containment: `onlySig na na = []`. -/
theorem filter_not_contains_self (l : List String) :
    l.filter (fun t => !l.contains t) = [] := by
  rw [List.filter_eq_nil_iff]
  intro a ha
  simp
  exact ha

theorem onlySig_self (na : String) : onlySig na na = [] :=
  filter_not_contains_self _

theorem typoFold_nil_nil : typoFold [] [] = ([], []) := rfl

theorem realOnly_self (na : String) : realOnly na na = ([], []) := by
  rw [realOnly, onlySig_self, typoFold_nil_nil]

/-- If the typo-folded unique-token remainders are not both empty, the two
normalized strings differ. -/
theorem ne_of_realOnly_ne (na nb : String)
    (h : ¬((realOnly na nb).1 = [] ∧ (realOnly na nb).2 = [])) : na ≠ nb := by
  intro he
  subst he
  rw [realOnly_self] at h
  exact h ⟨rfl, rfl⟩

/-! ## C3 — exact normalized match and the merge decision -/

/-- C3 (counterexample): the claim that the merge decision accepts whenever
`norm_a == norm_b` *for any score value* is false: at score 0.5 (below
`MERGE_THRESHOLD`) `should_merge` rejects even identical normalized names,
because the threshold test precedes the exact-match shortcut. -/
theorem c3_exact_match_below_threshold_rejected :
    should_merge "alpha finance" "alpha finance" (mkRat 1 2) = false := by decide

/-- C3 (amended): the merge decision accepts identical normalized names at
every score at or above `MERGE_THRESHOLD` (0.80), bypassing all conflict
and token-overlap checks. -/
theorem c3_exact_match_merges_above_threshold (a : String) (s : ℚ)
    (h : MERGE_THRESHOLD ≤ s) : should_merge a a s = true := by
  simp only [should_merge]
  rw [if_neg (not_lt.mpr h)]
  simp

/-- C3 witness: concrete instance of the amended theorem. -/
theorem c3_exact_match_witness :
    should_merge "alpha finance" "alpha finance" (mkRat 85 100) = true :=
  c3_exact_match_merges_above_threshold "alpha finance" (mkRat 85 100) (by decide)

/-! ## C6 — short-name bridge prevention -/

/-- C6: for distinct normalized names where the shorter one has at most one
significant token, the merge decision accepts only when the score is at
least 0.95. -/
theorem c6_short_name_requires_high_score (na nb : String) (s : ℚ)
    (hne : na ≠ nb)
    (hmin : min (_significant_tokens na).length (_significant_tokens nb).length ≤ 1)
    (hm : should_merge na nb s = true) :
    mkRat 95 100 ≤ s := by
  by_contra hlt
  push_neg at hlt
  simp only [should_merge] at hm
  rw [if_neg hne] at hm
  by_cases h1 : s < MERGE_THRESHOLD
  · rw [if_pos h1] at hm
    exact Bool.false_ne_true hm
  · rw [if_neg h1, if_pos ⟨hmin, hlt⟩] at hm
    exact Bool.false_ne_true hm

/-- C6 witness: "alpha" (one significant token) does merge with
"alpha finance" at score 0.96, and the theorem then forces 0.95 ≤ 0.96. -/
theorem c6_short_name_witness : mkRat 95 100 ≤ mkRat 96 100 :=
  c6_short_name_requires_high_score "alpha" "alpha finance" (mkRat 96 100)
    (by decide) (by decide) (by decide)

/-! ## C8 — generic-industry-term protection -/

/-- C8: if the two names share at least one significant token, all shared
significant tokens are generic industry terms, and after typo-folding each
side still has tokens the other lacks, the merge decision refuses the merge
at every score. -/
theorem c8_generic_only_shared_never_merges (na nb : String) (s : ℚ)
    (hsh : sharedSig na nb ≠ [])
    (hgen : ∀ t ∈ sharedSig na nb, t ∈ GENERIC_INDUSTRY_TERMS)
    (hra : (realOnly na nb).1 ≠ [])
    (hrb : (realOnly na nb).2 ≠ []) :
    should_merge na nb s = false := by
  have hne : na ≠ nb := ne_of_realOnly_ne na nb (fun h => hra h.1)
  have hgb : genericBlocked na nb s = true := by
    simp only [genericBlocked]
    rw [if_neg (by simpa using hsh)]
    have hdist : (sharedSig na nb).filter
        (fun t => !GENERIC_INDUSTRY_TERMS.contains t) = [] := by
      rw [List.filter_eq_nil_iff]
      intro t ht
      simpa using (hgen t ht)
    rw [hdist]
    simp only [List.isEmpty_nil, Bool.not_true, Bool.false_eq_true, if_false]
    rw [if_neg (by
      intro hand
      rw [Bool.and_eq_true] at hand
      exact hra (List.isEmpty_iff.mp hand.1))]
    rw [if_pos (by
      rw [Bool.and_eq_true]
      refine ⟨?_, ?_⟩ <;> rw [Bool.not_eq_true'] <;>
        rw [← Bool.not_eq_true, List.isEmpty_iff]
      · exact hra
      · exact hrb)]
  simp only [should_merge]
  rw [if_neg hne]
  by_cases h1 : s < MERGE_THRESHOLD
  · rw [if_pos h1]
  · rw [if_neg h1]
    by_cases h3 : min (_significant_tokens na).length (_significant_tokens nb).length ≤ 1
        ∧ s < mkRat 95 100
    · rw [if_pos h3]
    · rw [if_neg h3, if_pos hgb]

/-- C8 witness: "alpha consulting" vs "beta consulting" never merge — even
at score 0.99 the decision is negative, because the only shared significant
token ("consulting") is generic and both names keep unique tokens. -/
theorem c8_generic_witness :
    should_merge "alpha consulting" "beta consulting" (mkRat 99 100) = false :=
  c8_generic_only_shared_never_merges "alpha consulting" "beta consulting"
    (mkRat 99 100) (by decide) (by decide) (by decide) (by decide)

/-! ## C7 — business-differentiator conflict in the subset case -/

/-- C7 (counterexample): the claim as stated is false.  With
"alpha motor" vs "alphaa motors finance" every unique token of the first
name typo-folds into the second (ratio ≥ 80), so after folding one side is
a subset of the other and the extra token "finance" is a strong
differentiator — yet at score 0.92 (< 0.93) the pair merges, because
`has_business_conflict` returns early when the two names share no
*identical* significant token. -/
theorem c7_folded_subset_without_shared_token_merges :
    (realOnly "alpha motor" "alphaa motors finance").1 = [] ∧
    (realOnly "alpha motor" "alphaa motors finance").2 = ["finance"] ∧
    "finance" ∈ STRONG_DIFFERENTIATORS ∧
    mkRat 92 100 < mkRat 93 100 ∧
    should_merge "alpha motor" "alphaa motors finance" (mkRat 92 100) = true := by
  decide

/-- C7 (amended): *provided the two names also share at least one identical
significant token*, if after typo-folding one name's tokens are a subset of
the other's and the extra tokens include a strong differentiator, the merge
decision rejects at every score below 0.93. -/
theorem c7_strong_differentiator_blocks (na nb : String) (s : ℚ)
    (hsh : sharedSig na nb ≠ [])
    (hsub : (realOnly na nb).1 = [] ∨ (realOnly na nb).2 = [])
    (hnb : ¬((realOnly na nb).1 = [] ∧ (realOnly na nb).2 = []))
    (hstr : ((realOnly na nb).1 ++ (realOnly na nb).2).any
      (fun t => STRONG_DIFFERENTIATORS.contains t) = true)
    (hs : s < mkRat 93 100) :
    should_merge na nb s = false := by
  have hne : na ≠ nb := ne_of_realOnly_ne na nb hnb
  have hbc : has_business_conflict na nb s = true := by
    simp only [has_business_conflict]
    rw [if_neg (by simpa using hsh)]
    rw [if_neg (by
      intro hand
      rw [Bool.and_eq_true] at hand
      have h1 : onlySig na nb = [] := List.isEmpty_iff.mp hand.1
      have h2 : onlySig nb na = [] := List.isEmpty_iff.mp hand.2
      apply hnb
      rw [realOnly, h1, h2, typoFold_nil_nil]
      exact ⟨rfl, rfl⟩)]
    rw [if_neg (by
      intro hand
      rw [Bool.and_eq_true] at hand
      exact hnb ⟨List.isEmpty_iff.mp hand.1, List.isEmpty_iff.mp hand.2⟩)]
    rw [if_pos (by
      rw [Bool.or_eq_true]
      rcases hsub with h | h
      · exact Or.inl (by rw [h]; rfl)
      · exact Or.inr (by rw [h]; rfl))]
    rw [if_pos hstr]
    exact decide_eq_true hs
  simp only [should_merge]
  rw [if_neg hne]
  by_cases h1 : s < MERGE_THRESHOLD
  · rw [if_pos h1]
  · rw [if_neg h1]
    by_cases h3 : min (_significant_tokens na).length (_significant_tokens nb).length ≤ 1
        ∧ s < mkRat 95 100
    · rw [if_pos h3]
    · rw [if_neg h3]
      by_cases h4 : genericBlocked na nb s = true
      · rw [if_pos h4]
      · rw [if_neg h4, if_pos hbc]

/-- C7 witness: "tata motors" vs "tata motors finance" (which do share the
identical tokens "tata" and "motors") are rejected at score 0.85 < 0.93:
the extra token "finance" is a strong differentiator. -/
theorem c7_strong_differentiator_witness :
    should_merge "tata motors" "tata motors finance" (mkRat 85 100) = false :=
  c7_strong_differentiator_blocks "tata motors" "tata motors finance"
    (mkRat 85 100) (by decide) (by decide) (by decide) (by decide) (by decide)

/-! ## C9 — medium-confidence token-overlap rule -/

/-- The overlap criterion *as the spec words it* (spec-side definition, for
comparison with the code's `fuzzyOverlapOK`): at least 65% of the members
of the **smaller** token set have a fuzzy counterpart (ratio ≥ 80) in the
other set. -/
def specSmallerSetOverlap (set_a set_b : List String) : Bool :=
  let small := if set_a.length ≤ set_b.length then set_a else set_b
  let big := if set_a.length ≤ set_b.length then set_b else set_a
  let n := (small.filter (fun ta =>
    big.any (fun tb => decide (mkRat 80 1 ≤ fratio ta tb)))).length
  if small.length = 0 then false
  else decide (mkRat 65 100 ≤ mkRat (n : Int) small.length)

/-- C9 (counterexample): the claim as stated is false.  For
"ab cd" vs "ab cd xx yy" at score 0.85 (medium band, no conflict check
fires, token sets unequal), 100% of the smaller set's members have exact
counterparts — the spec's criterion accepts — yet `should_merge` rejects:
the code divides the match count by the size of the **larger** set
(2/4 < 0.65), not the smaller. -/
theorem c9_smaller_set_rule_counterexample :
    MERGE_THRESHOLD ≤ mkRat 85 100 ∧
    mkRat 85 100 < AUTO_MERGE_THRESHOLD ∧
    genericBlocked "ab cd" "ab cd xx yy" (mkRat 85 100) = false ∧
    has_business_conflict "ab cd" "ab cd xx yy" (mkRat 85 100) = false ∧
    tokSetEq "ab cd" "ab cd xx yy" = false ∧
    specSmallerSetOverlap (tokSet "ab cd") (tokSet "ab cd xx yy") = true ∧
    should_merge "ab cd" "ab cd xx yy" (mkRat 85 100) = false := by
  decide

/-- C9 (amended): in the medium band (score in [0.80, 0.91)), for distinct
names each with at least two significant tokens on which neither the
generic protection nor the business conflict fired, the decision accepts
iff the significant-token sets are equal or the fraction of the *first*
name's tokens having a fuzzy counterpart (ratio ≥ 80) in the second,
measured against the size of the **larger** set, is at least 0.65. -/
theorem c9_medium_band_overlap_rule (na nb : String) (s : ℚ)
    (hlo : MERGE_THRESHOLD ≤ s) (hhi : s < AUTO_MERGE_THRESHOLD)
    (hne : na ≠ nb)
    (hmin : 2 ≤ min (_significant_tokens na).length (_significant_tokens nb).length)
    (hgb : genericBlocked na nb s = false)
    (hbc : has_business_conflict na nb s = false) :
    should_merge na nb s = true ↔
      (tokSetEq na nb = true ∨ fuzzyOverlapOK (tokSet na) (tokSet nb) = true) := by
  simp only [should_merge]
  rw [if_neg (not_lt.mpr hlo), if_neg hne,
      if_neg (by
        intro hand
        exact absurd (le_trans hmin hand.1) (by norm_num)),
      if_neg (by rw [hgb]; exact Bool.false_ne_true),
      if_neg (by rw [hbc]; exact Bool.false_ne_true),
      if_neg (not_le.mpr hhi)]
  by_cases heq : tokSetEq na nb = true
  · rw [if_pos heq]
    simp [heq]
  · rw [if_neg heq]
    simp [heq]

/-- C9 witness: a concrete medium-band acceptance through the fuzzy-overlap
arm — "ab cd" vs "ab cde" at score 0.85: "cd" ≈ "cde" (ratio exactly 80),
match fraction 2/2 ≥ 0.65. -/
theorem c9_medium_band_witness :
    should_merge "ab cd" "ab cde" (mkRat 85 100) = true :=
  (c9_medium_band_overlap_rule "ab cd" "ab cde" (mkRat 85 100)
    (by decide) (by decide) (by decide) (by decide) (by decide) (by decide)).mpr
    (Or.inr (by decide))

/-! ## Normalizer — `normalize` (source lines 204–238)

The pipeline stages mirror the Python statements in order:
`s.lower().strip()`; the ampersand-acronym fusion
(`_AMPERSAND_ACRONYM_RE.sub`, pattern
`\b([A-Za-z]{1,3})\s*&\s*([A-Za-z]{1,3})\b`, greedy with Python's
leftmost-match backtracking semantics); `s.replace("&", " and ")`;
`re.sub(r"[^\w\s]", " ", s)`; whitespace collapse + strip;
`LEGAL_SUFFIX_RE.sub("", s)`; `re.sub(r"^the\s+", "", s)`;
`re.sub(r"\s+the$", "", s)`; final collapse + strip. -/

/-- Python's `\w` on the ASCII range: letters, digits, underscore. -/
def isWordChar (c : Char) : Bool := c.isAlphanum || c = '_'

def isAsciiLetter (c : Char) : Bool := c.isUpper || c.isLower

/-- Python `str.strip()`: drop whitespace from both ends. -/
def stripEnds (cs : List Char) : List Char :=
  ((cs.dropWhile isSp).reverse.dropWhile isSp).reverse

/-- Exactly `n` ASCII letters from the head, with the rest. -/
def takeLetters : Nat → List Char → Option (List Char × List Char)
  | 0, rest => some ([], rest)
  | _+1, [] => none
  | n+1, c :: rest =>
    if isAsciiLetter c then
      match takeLetters n rest with
      | some (g, r) => some (c :: g, r)
      | none => none
    else none

/-- `\b` after the second letter group: end of input or a non-word char. -/
def boundaryAfter : List Char → Bool
  | [] => true
  | c :: _ => !isWordChar c

/-- `([A-Za-z]{1,3})\b` with exactly `n` letters. -/
def tryG2Len (n : Nat) (cs : List Char) : Option (List Char × List Char) :=
  match takeLetters n cs with
  | some (g, r) => if boundaryAfter r then some (g, r) else none
  | none => none

/-- `([A-Za-z]{1,3})\b`, greedy: lengths 3, 2, 1 in order. -/
def tryG2 (cs : List Char) : Option (List Char × List Char) :=
  (tryG2Len 3 cs).orElse fun _ => (tryG2Len 2 cs).orElse fun _ => tryG2Len 1 cs

/-- `\s*&\s*` followed by the second group.  (The `\s*` runs are
deterministic: `&` is not whitespace and letters are not whitespace, so
greedy matching cannot backtrack into them.) -/
def tryAfterG1 (cs : List Char) : Option (List Char × List Char) :=
  match cs.dropWhile isSp with
  | '&' :: cs2 => tryG2 (cs2.dropWhile isSp)
  | _ => none

/-- First group of exactly `n` letters, then the rest of the pattern;
returns (fused replacement `g1 ++ g2`, remainder after the match). -/
def tryG1Len (n : Nat) (cs : List Char) : Option (List Char × List Char) :=
  match takeLetters n cs with
  | some (g1, r) =>
    match tryAfterG1 r with
    | some (g2, rest) => some (g1 ++ g2, rest)
    | none => none
  | none => none

/-- Attempt the whole acronym pattern at this position (greedy first group:
lengths 3, 2, 1). -/
def tryAmpAt (cs : List Char) : Option (List Char × List Char) :=
  (tryG1Len 3 cs).orElse fun _ => (tryG1Len 2 cs).orElse fun _ => tryG1Len 1 cs

/-- Left-to-right scan of `re.sub` for the acronym pattern.  `prevWord`
tracks whether the previous character is a word character (for the leading
`\b`); matches are attempted only at boundary positions starting with a
letter, and scanning resumes after the end of a match.  Fuel decreases
once per step and every step consumes at least one character, so
`length + 1` fuel always suffices. -/
def ampAux : Nat → Bool → List Char → List Char
  | 0, _, cs => cs
  | _+1, _, [] => []
  | fuel+1, prevWord, c :: cs =>
    if !prevWord && isAsciiLetter c then
      match tryAmpAt (c :: cs) with
      | some (rep, rest) => rep ++ ampAux fuel true rest
      | none => c :: ampAux fuel true cs
    else c :: ampAux fuel (isWordChar c) cs

/-- `_AMPERSAND_ACRONYM_RE.sub(lambda m: m.group(1) + m.group(2), s)`. -/
def ampSub (cs : List Char) : List Char := ampAux (cs.length + 1) false cs

/-- `s.replace("&", " and ")`. -/
def replaceAmp (cs : List Char) : List Char :=
  cs.flatMap fun c => if c = '&' then ' ' :: 'a' :: 'n' :: 'd' :: [' '] else [c]

/-- `re.sub(r"[^\w\s]", " ", s)`: every non-word non-space char becomes a
space. -/
def punctToSpace (cs : List Char) : List Char :=
  cs.map fun c => if isWordChar c || isSp c then c else ' '

/-- Join words with single spaces (inverse of splitting on one space). -/
def joinSp : List (List Char) → List Char
  | [] => []
  | [w] => w
  | w :: ws => w ++ ' ' :: joinSp ws

/-- `re.sub(r"\s+", " ", s).strip()`: the maximal non-whitespace runs
joined by single spaces. -/
def collapseStrip (cs : List Char) : List Char := joinSp (wordsAux cs [])

/-- Split at every single `' '` (the string is whitespace-collapsed when
this is used, so `' '` is the only whitespace char present). -/
def splitSp : List Char → List (List Char)
  | [] => [[]]
  | c :: cs =>
    if c = ' ' then [] :: splitSp cs
    else
      match splitSp cs with
      | w :: ws => (c :: w) :: ws
      | [] => [[c]]

/-- The whole tokens that `LEGAL_SUFFIX_RE` can delete from a lowercased,
punctuation-free, whitespace-collapsed string.  Each alternative of the
source regex is `\b`-delimited, so on such a string it matches exactly a
whole space-separated token; the alternatives requiring literal dots
(`l\.l\.c`) can never match once punctuation has been stripped, and the
dotted-optional forms (`s\.?a\.?`, `n\.?v\.?`, `l\.?p\.?`, `inc\.?`, …)
reduce to their bare spellings. -/
def LEGAL_SUFFIX_TOKENS : List (List Char) :=
  (["incorporated", "inc", "llc", "limited", "ltd", "corporation", "corp",
    "co", "plc", "gmbh", "ag", "sa", "nv", "pvt", "private", "lp",
    "llp"].map String.data)

/-- `LEGAL_SUFFIX_RE.sub("", s)` on a collapsed string: each suffix token
is deleted in place, leaving its surrounding separator spaces. -/
def removeLegalSuffixTokens (cs : List Char) : List Char :=
  joinSp ((splitSp cs).map fun w =>
    if LEGAL_SUFFIX_TOKENS.contains w then [] else w)

/-- `re.sub(r"^the\s+", "", s)`: one leading `the` followed by a
(greedily consumed) whitespace run. -/
def stripLeadThe : List Char → List Char
  | 't' :: 'h' :: 'e' :: c :: rest =>
    if isSp c then (c :: rest).dropWhile isSp
    else 't' :: 'h' :: 'e' :: c :: rest
  | cs => cs

/-- `re.sub(r"\s+the$", "", s)`: one trailing `the` preceded by a
whitespace run. -/
def stripTrailThe (cs : List Char) : List Char :=
  match cs.reverse with
  | 'e' :: 'h' :: 't' :: c :: rest =>
    if isSp c then ((c :: rest).dropWhile isSp).reverse
    else cs
  | _ => cs

/-- `normalize` from the source (lines 224–238). -/
def normalizeList (cs : List Char) : List Char :=
  let s1 := stripEnds (cs.map Char.toLower)
  let s2 := ampSub s1
  let s3 := replaceAmp s2
  let s4 := punctToSpace s3
  let s5 := collapseStrip s4
  let s6 := removeLegalSuffixTokens s5
  let s7 := stripLeadThe s6
  let s8 := stripTrailThe s7
  collapseStrip s8

/-- `normalize(label)` — the `if not label: return ""` guard is the
Python falsy test on strings, i.e. emptiness. -/
def normalize (label : String) : String :=
  if label = "" then "" else ⟨normalizeList label.data⟩

/-! ## Character-level facts for the normalizer -/

theorem toNat_ofNat_small (n : Nat) (h : n < 55296) : (Char.ofNat n).toNat = n := by
  rw [Char.ofNat, dif_pos (Or.inl h)]
  rfl

theorem isUpper_iff (c : Char) : c.isUpper = true ↔ 65 ≤ c.toNat ∧ c.toNat ≤ 90 := by
  rw [Char.isUpper]
  simp only [ge_iff_le, Bool.and_eq_true, decide_eq_true_eq, UInt32.le_def, BitVec.le_def]
  exact Iff.rfl

theorem toLower_eq_self (c : Char) (h : c.isUpper = false) : c.toLower = c := by
  rw [Char.toLower, if_neg]
  intro hc
  rw [← isUpper_iff, h] at hc
  exact Bool.false_ne_true hc

theorem isUpper_toLower (c : Char) : (c.toLower).isUpper = false := by
  by_cases h : c.isUpper = true
  · rw [Char.toLower, if_pos ((isUpper_iff c).mp h)]
    have h90 : c.toNat + 32 < 55296 := by
      have := ((isUpper_iff c).mp h).2
      omega
    rw [Bool.eq_false_iff]
    intro hu
    have h2 := (isUpper_iff _).mp hu
    rw [toNat_ofNat_small _ h90] at h2
    have h3 := (isUpper_iff c).mp h
    omega
  · rw [Bool.not_eq_true] at h
    rw [toLower_eq_self c h]
    exact h

theorem toLower_toLower (c : Char) : c.toLower.toLower = c.toLower :=
  toLower_eq_self _ (isUpper_toLower c)

/-- Word characters are never whitespace. -/
theorem isWordChar_not_isSp (c : Char) (h : isWordChar c = true) : isSp c = false := by
  rw [isSp, Char.isWhitespace]
  rw [Bool.eq_false_iff]
  intro hs
  simp only [Bool.or_eq_true, decide_eq_true_eq] at hs
  rcases hs with ((h1 | h1) | h1) | h1 <;> subst h1 <;> revert h <;> decide

/-- A map that fixes every element of a list leaves the list unchanged. -/
theorem map_eq_self_of_fix {α : Type} (f : α → α) :
    ∀ (l : List α), (∀ c ∈ l, f c = c) → l.map f = l
  | [], _ => rfl
  | c :: cs, h => by
    rw [List.map_cons, h c (List.mem_cons_self c cs),
      map_eq_self_of_fix f cs (fun x hx => h x (List.mem_cons_of_mem c hx))]


/-! ## Word-decomposition machinery for the normalizer proofs -/

theorem wordsAux_append_nonspace :
    ∀ (w cs acc : List Char), (∀ c ∈ w, isSp c = false) →
      wordsAux (w ++ cs) acc = wordsAux cs (w.reverse ++ acc) := by
  intro w
  induction w with
  | nil => intro cs acc _; simp
  | cons c w ih =>
    intro cs acc h
    have hc : isSp c = false := h c (List.mem_cons_self c w)
    show wordsAux (c :: (w ++ cs)) acc = _
    rw [wordsAux, hc]
    simp only [Bool.false_eq_true, if_false]
    rw [ih cs (c :: acc) (fun x hx => h x (List.mem_cons_of_mem c hx))]
    simp

theorem wordsAux_split_at_space (s0 : Char) (hs : isSp s0 = true) :
    ∀ (xs ys acc : List Char),
      wordsAux (xs ++ s0 :: ys) acc = wordsAux xs acc ++ wordsAux ys [] := by
  intro xs
  induction xs with
  | nil =>
    intro ys acc
    simp only [List.nil_append, wordsAux, hs]
    cases hacc : acc.isEmpty <;> simp [hacc]
  | cons x xs ih =>
    intro ys acc
    show wordsAux (x :: (xs ++ s0 :: ys)) acc = wordsAux (x :: xs) acc ++ _
    rw [wordsAux, wordsAux]
    cases hx : isSp x
    · simp only [Bool.false_eq_true, if_false]
      rw [ih]
    · simp only [if_true]
      cases hacc : acc.isEmpty
      · simp only [Bool.false_eq_true, if_false]
        rw [ih]
        rfl
      · simp only [if_true]
        rw [ih]

theorem wordsAux_dropWhile_sp (cs : List Char) :
    wordsAux (cs.dropWhile isSp) [] = wordsAux cs [] := by
  induction cs with
  | nil => rfl
  | cons c cs ih =>
    cases hc : isSp c
    · rw [List.dropWhile_cons_of_neg (by simp [hc])]
    · rw [List.dropWhile_cons_of_pos (by simp [hc])]
      rw [ih]
      simp [wordsAux, hc]

theorem joinSp_cons (w : List Char) (ws : List (List Char)) :
    joinSp (w :: ws) = w ++ (match ws with
      | [] => ([] : List Char)
      | _ :: _ => ' ' :: joinSp ws) := by
  cases ws <;> simp [joinSp]

theorem joinSp_append_single_ne (y : List Char) :
    ∀ (xs : List (List Char)), xs ≠ [] → joinSp (xs ++ [y]) = joinSp xs ++ ' ' :: y := by
  intro xs
  induction xs with
  | nil => intro h; exact absurd rfl h
  | cons w xs ih =>
    intro _
    cases xs with
    | nil => rfl
    | cons w2 xs2 =>
      show joinSp (w :: ((w2 :: xs2) ++ [y])) = _
      have h2 : (w2 :: xs2) ++ [y] = w2 :: (xs2 ++ [y]) := rfl
      rw [h2]
      show w ++ ' ' :: joinSp (w2 :: (xs2 ++ [y])) = _
      rw [← h2, ih (by simp)]
      simp [joinSp]

theorem joinSp_reverse :
    ∀ (ws : List (List Char)),
      (joinSp ws).reverse = joinSp ((ws.map List.reverse).reverse) := by
  intro ws
  induction ws with
  | nil => rfl
  | cons w rest ih =>
    cases rest with
    | nil => rfl
    | cons r rest2 =>
      show (w ++ ' ' :: joinSp (r :: rest2)).reverse = _
      rw [List.reverse_append, List.reverse_cons, ih]
      rw [show (List.map List.reverse (w :: r :: rest2)).reverse
          = (List.map List.reverse (r :: rest2)).reverse ++ [w.reverse] by simp]
      rw [joinSp_append_single_ne _ _ (by simp)]
      simp

theorem wordsAux_joinSp (ws : List (List Char))
    (h : ∀ w ∈ ws, ∀ c ∈ w, isSp c = false) :
    wordsAux (joinSp ws) [] = ws.filter (fun w => !w.isEmpty) := by
  induction ws with
  | nil => rfl
  | cons w rest ih =>
    have hw : ∀ c ∈ w, isSp c = false := h w (List.mem_cons_self w rest)
    have hrest : ∀ u ∈ rest, ∀ c ∈ u, isSp c = false :=
      fun u hu => h u (List.mem_cons_of_mem w hu)
    cases rest with
    | nil =>
      show wordsAux w [] = _
      cases hwe : w.isEmpty
      · have h1 : wordsAux (w ++ []) [] = wordsAux [] (w.reverse ++ []) :=
          wordsAux_append_nonspace w [] [] hw
        simp only [List.append_nil] at h1
        rw [h1, wordsAux]
        rw [if_neg (by simpa [List.isEmpty_iff] using hwe)]
        simp [List.filter_cons, hwe]
      · have hwnil : w = [] := List.isEmpty_iff.mp hwe
        subst hwnil
        rfl
    | cons r rest2 =>
      show wordsAux (w ++ ' ' :: joinSp (r :: rest2)) [] = _
      have h1 : wordsAux (w ++ ' ' :: joinSp (r :: rest2)) [] =
          wordsAux (' ' :: joinSp (r :: rest2)) (w.reverse ++ []) :=
        wordsAux_append_nonspace w (' ' :: joinSp (r :: rest2)) [] hw
      rw [h1]
      simp only [List.append_nil]
      rw [wordsAux, if_pos (by simp [isSp])]
      cases hwe : w.isEmpty
      · rw [if_neg (by simpa using hwe)]
        rw [ih hrest]
        simp [List.filter_cons, hwe]
      · have hwnil : w = [] := List.isEmpty_iff.mp hwe
        subst hwnil
        rw [if_pos (by simp)]
        rw [ih hrest]
        rfl

theorem wordsAux_mem_prop (p : Char → Prop) :
    ∀ (cs acc : List Char), (∀ c ∈ cs, p c) → (∀ c ∈ acc, p c ∧ isSp c = false) →
      ∀ w ∈ wordsAux cs acc, w ≠ [] ∧ ∀ c ∈ w, p c ∧ isSp c = false := by
  intro cs
  induction cs with
  | nil =>
    intro acc _ hacc w hw
    simp only [wordsAux] at hw
    cases hae : acc.isEmpty
    · rw [if_neg (by simp [hae])] at hw
      rcases List.mem_singleton.mp hw with rfl
      refine ⟨by simpa [List.isEmpty_iff] using hae, ?_⟩
      intro c hc
      exact hacc c (List.mem_reverse.mp hc)
    · rw [if_pos (by simp [hae])] at hw
      exact absurd hw (List.not_mem_nil w)
  | cons c cs ih =>
    intro acc hcs hacc w hw
    have hcsrest : ∀ x ∈ cs, p x := fun x hx => hcs x (List.mem_cons_of_mem c hx)
    simp only [wordsAux] at hw
    cases hc : isSp c
    · rw [hc] at hw
      simp only [Bool.false_eq_true, if_false] at hw
      refine ih (c :: acc) hcsrest ?_ w hw
      intro x hx
      rcases List.mem_cons.mp hx with rfl | hx2
      · exact ⟨hcs x (List.mem_cons_self x cs), hc⟩
      · exact hacc x hx2
    · rw [hc] at hw
      simp only [if_true] at hw
      cases hae : acc.isEmpty
      · rw [if_neg (by simp [hae])] at hw
        rcases List.mem_cons.mp hw with rfl | hw2
        · refine ⟨by simpa [List.isEmpty_iff] using hae, ?_⟩
          intro x hx
          exact hacc x (List.mem_reverse.mp hx)
        · exact ih [] hcsrest (by intro x hx; exact absurd hx (List.not_mem_nil x)) w hw2
      · rw [if_pos (by simp [hae])] at hw
        exact ih [] hcsrest (by intro x hx; exact absurd hx (List.not_mem_nil x)) w hw

theorem mem_joinSp {c : Char} :
    ∀ {ws : List (List Char)}, c ∈ joinSp ws → c = ' ' ∨ ∃ w ∈ ws, c ∈ w := by
  intro ws
  induction ws with
  | nil => intro h; exact absurd h (List.not_mem_nil c)
  | cons w rest ih =>
    intro h
    cases rest with
    | nil => exact Or.inr ⟨w, List.mem_singleton.mpr rfl, h⟩
    | cons r rest2 =>
      simp only [joinSp] at h
      rcases List.mem_append.mp h with h1 | h2
      · exact Or.inr ⟨w, List.mem_cons_self w _, h1⟩
      · rcases List.mem_cons.mp h2 with rfl | h3
        · exact Or.inl rfl
        · rcases ih h3 with h4 | ⟨u, hu, hcu⟩
          · exact Or.inl h4
          · exact Or.inr ⟨u, List.mem_cons_of_mem w hu, hcu⟩


/-! ## splitSp / stripEnds / collapseStrip facts -/

theorem splitSp_ne_nil : ∀ (cs : List Char), splitSp cs ≠ [] := by
  intro cs
  induction cs with
  | nil => simp [splitSp]
  | cons c cs ih =>
    rw [splitSp]
    by_cases hc : c = ' '
    · rw [if_pos hc]
      simp
    · rw [if_neg hc]
      cases hs : splitSp cs with
      | nil => simp
      | cons w ws => simp

theorem splitSp_append_word (w : List Char) (hw : ∀ c ∈ w, c ≠ ' ') :
    ∀ (cs : List Char), splitSp (w ++ cs) =
      match splitSp cs with
      | p :: ps => (w ++ p) :: ps
      | [] => [w] := by
  induction w with
  | nil =>
    intro cs
    cases hs : splitSp cs with
    | nil => exact absurd hs (splitSp_ne_nil cs)
    | cons p ps => simp only [List.nil_append, hs]
  | cons c w ih =>
    intro cs
    have hc : c ≠ ' ' := hw c (List.mem_cons_self c w)
    show splitSp (c :: (w ++ cs)) = _
    rw [splitSp, if_neg hc]
    rw [ih (fun x hx => hw x (List.mem_cons_of_mem c hx)) cs]
    cases hs : splitSp cs with
    | nil => exact absurd hs (splitSp_ne_nil cs)
    | cons p ps => simp

theorem splitSp_joinSp :
    ∀ (ws : List (List Char)), ws ≠ [] → (∀ w ∈ ws, ∀ c ∈ w, c ≠ ' ') →
      splitSp (joinSp ws) = ws := by
  intro ws
  induction ws with
  | nil => intro h; exact absurd rfl h
  | cons w rest ih =>
    intro _ h
    have hw : ∀ c ∈ w, c ≠ ' ' := h w (List.mem_cons_self w rest)
    cases rest with
    | nil =>
      show splitSp w = [w]
      have h3 := splitSp_append_word w hw []
      simp only [List.append_nil] at h3
      rw [h3]
      show (w ++ []) :: ([] : List (List Char)) = [w]
      simp
    | cons r rest2 =>
      show splitSp (w ++ ' ' :: joinSp (r :: rest2)) = _
      rw [splitSp_append_word w hw]
      have h2 : splitSp (' ' :: joinSp (r :: rest2)) = [] :: splitSp (joinSp (r :: rest2)) := by
        rw [splitSp, if_pos rfl]
      rw [h2, ih (by simp) (fun u hu => h u (List.mem_cons_of_mem w hu))]
      simp

/-- Characters of `splitSp` pieces come from the original list. -/
theorem mem_splitSp {c : Char} :
    ∀ {cs : List Char} {w : List Char}, w ∈ splitSp cs → c ∈ w → c ∈ cs := by
  intro cs
  induction cs with
  | nil =>
    intro w hw hc
    simp only [splitSp, List.mem_singleton] at hw
    subst hw
    exact absurd hc (List.not_mem_nil c)
  | cons a cs ih =>
    intro w hw hc
    rw [splitSp] at hw
    by_cases ha : a = ' '
    · rw [if_pos ha] at hw
      rcases List.mem_cons.mp hw with rfl | hw2
      · exact absurd hc (List.not_mem_nil c)
      · exact List.mem_cons_of_mem a (ih hw2 hc)
    · rw [if_neg ha] at hw
      cases hs : splitSp cs with
      | nil => exact absurd hs (splitSp_ne_nil cs)
      | cons p ps =>
        rw [hs] at hw
        rcases List.mem_cons.mp hw with rfl | hw2
        · rcases List.mem_cons.mp hc with rfl | hc2
          · exact List.mem_cons_self c cs
          · exact List.mem_cons_of_mem a (ih (by rw [hs]; exact List.mem_cons_self p ps) hc2)
        · exact List.mem_cons_of_mem a (ih (by rw [hs]; exact List.mem_cons_of_mem p hw2) hc)

theorem dropWhile_sp_joinSp (ws : List (List Char))
    (h : ∀ w ∈ ws, w ≠ [] ∧ ∀ c ∈ w, isSp c = false) :
    (joinSp ws).dropWhile isSp = joinSp ws := by
  cases ws with
  | nil => rfl
  | cons w rest =>
    rcases h w (List.mem_cons_self w rest) with ⟨hne, hch⟩
    cases w with
    | nil => exact absurd rfl hne
    | cons c w2 =>
      have hc : isSp c = false := hch c (List.mem_cons_self c w2)
      rw [joinSp_cons]
      show List.dropWhile isSp (c :: _) = _
      rw [List.dropWhile_cons_of_neg (by simp [hc])]
      rfl

theorem stripEnds_joinSp (ws : List (List Char))
    (h : ∀ w ∈ ws, w ≠ [] ∧ ∀ c ∈ w, isSp c = false) :
    stripEnds (joinSp ws) = joinSp ws := by
  rw [stripEnds, dropWhile_sp_joinSp ws h, joinSp_reverse]
  rw [dropWhile_sp_joinSp _ ?hrev]
  · rw [← joinSp_reverse, List.reverse_reverse]
  case hrev =>
    intro w hw
    rw [List.mem_reverse, List.mem_map] at hw
    rcases hw with ⟨u, hu, rfl⟩
    rcases h u hu with ⟨hne, hch⟩
    refine ⟨by simpa using hne, ?_⟩
    intro c hc
    exact hch c (List.mem_reverse.mp hc)

/-- The words of any `wordsAux` decomposition are nonempty and space-free. -/
theorem wordsAux_basic (cs : List Char) :
    ∀ w ∈ wordsAux cs [], w ≠ [] ∧ ∀ c ∈ w, isSp c = false := by
  intro w hw
  have := wordsAux_mem_prop (fun _ => True) cs [] (fun _ _ => trivial)
    (fun c hc => absurd hc (List.not_mem_nil c)) w hw
  exact ⟨this.1, fun c hc => (this.2 c hc).2⟩

theorem collapseStrip_idem (cs : List Char) :
    collapseStrip (collapseStrip cs) = collapseStrip cs := by
  rw [collapseStrip, collapseStrip]
  rw [wordsAux_joinSp _ (fun w hw c hc => (wordsAux_basic cs w hw).2 c hc)]
  rw [List.filter_eq_self.mpr]
  intro w hw
  simpa using (wordsAux_basic cs w hw).1


/-! ## The ampersand-fusion scan: identity and character provenance -/

theorem takeLetters_append :
    ∀ (n : Nat) (cs g r : List Char), takeLetters n cs = some (g, r) → cs = g ++ r := by
  intro n
  induction n with
  | zero =>
    intro cs g r h
    rw [takeLetters] at h
    rcases Option.some.inj h with h2
    rw [← (Prod.mk.injEq .. |>.mp h2).1, ← (Prod.mk.injEq .. |>.mp h2).2]
    rfl
  | succ n ih =>
    intro cs g r h
    cases cs with
    | nil => exact absurd h (by rw [takeLetters]; simp)
    | cons c cs2 =>
      rw [takeLetters] at h
      by_cases hc : isAsciiLetter c = true
      · rw [if_pos hc] at h
        cases ht : takeLetters n cs2 with
        | none => rw [ht] at h; exact absurd h (by simp)
        | some gr =>
          rw [ht] at h
          rcases Option.some.inj h with h2
          have hg : c :: gr.1 = g := (Prod.mk.injEq .. |>.mp h2).1
          have hr : gr.2 = r := (Prod.mk.injEq .. |>.mp h2).2
          rw [← hg, ← hr, List.cons_append]
          rw [← ih cs2 gr.1 gr.2 (by rw [ht])]
      · rw [if_neg hc] at h
        exact absurd h (by simp)

theorem tryG2Len_mem (n : Nat) (cs g r : List Char)
    (h : tryG2Len n cs = some (g, r)) : ∀ x, x ∈ g ∨ x ∈ r → x ∈ cs := by
  rw [tryG2Len] at h
  cases ht : takeLetters n cs with
  | none => rw [ht] at h; exact absurd h (by simp)
  | some gr =>
    obtain ⟨g1, r1⟩ := gr
    rw [ht] at h
    change (if boundaryAfter r1 = true then some (g1, r1) else none) = some (g, r) at h
    by_cases hb : boundaryAfter r1 = true
    · rw [if_pos hb] at h
      have h2 := Option.some.inj h
      have hg : g1 = g := (Prod.mk.injEq .. |>.mp h2).1
      have hr : r1 = r := (Prod.mk.injEq .. |>.mp h2).2
      intro x hx
      rw [takeLetters_append n cs g1 r1 ht, hg, hr]
      rcases hx with hx | hx
      · exact List.mem_append.mpr (Or.inl hx)
      · exact List.mem_append.mpr (Or.inr hx)
    · rw [if_neg hb] at h
      exact absurd h (by simp)

theorem tryG2_mem (cs g r : List Char) (h : tryG2 cs = some (g, r)) :
    ∀ x, x ∈ g ∨ x ∈ r → x ∈ cs := by
  rw [tryG2] at h
  cases h3 : tryG2Len 3 cs with
  | some v =>
    rw [h3] at h
    change some v = some (g, r) at h
    have hv := Option.some.inj h
    subst hv
    exact tryG2Len_mem 3 cs g r h3
  | none =>
    rw [h3] at h
    change (tryG2Len 2 cs).orElse (fun _ => tryG2Len 1 cs) = some (g, r) at h
    cases h2 : tryG2Len 2 cs with
    | some v =>
      rw [h2] at h
      change some v = some (g, r) at h
      have hv := Option.some.inj h
      subst hv
      exact tryG2Len_mem 2 cs g r h2
    | none =>
      rw [h2] at h
      change tryG2Len 1 cs = some (g, r) at h
      exact tryG2Len_mem 1 cs g r h

theorem mem_dropWhile_sp {x : Char} {cs : List Char} (h : x ∈ cs.dropWhile isSp) :
    x ∈ cs :=
  (List.dropWhile_sublist isSp).subset h

theorem tryAfterG1_none (cs : List Char) (h : ∀ c ∈ cs, c ≠ '&') :
    tryAfterG1 cs = none := by
  rw [tryAfterG1]
  split
  · next cs2 heq =>
    exfalso
    have hmem : '&' ∈ cs.dropWhile isSp := by
      rw [heq]; exact List.mem_cons_self _ _
    exact h '&' (mem_dropWhile_sp hmem) rfl
  · rfl

theorem tryAfterG1_mem (cs g r : List Char) (h : tryAfterG1 cs = some (g, r)) :
    ∀ x, x ∈ g ∨ x ∈ r → x ∈ cs := by
  rw [tryAfterG1] at h
  revert h
  split
  · next cs2 heq =>
    intro h x hx
    have h2 := tryG2_mem _ g r h x hx
    have h3 : x ∈ '&' :: cs2 := List.mem_cons_of_mem '&' (mem_dropWhile_sp h2)
    rw [← heq] at h3
    exact mem_dropWhile_sp h3
  · intro h
    exact absurd h (by simp)

theorem tryG1Len_none (n : Nat) (cs : List Char) (h : ∀ c ∈ cs, c ≠ '&') :
    tryG1Len n cs = none := by
  rw [tryG1Len]
  cases ht : takeLetters n cs with
  | none => rfl
  | some gr =>
    obtain ⟨g1, r1⟩ := gr
    have hsub : ∀ x ∈ r1, x ∈ cs := by
      intro x hx
      rw [takeLetters_append n cs g1 r1 ht]
      exact List.mem_append.mpr (Or.inr hx)
    change (match tryAfterG1 r1 with
      | some (g2, rest) => some (g1 ++ g2, rest)
      | none => none) = none
    rw [tryAfterG1_none r1 (fun c hc => h c (hsub c hc))]

theorem tryG1Len_mem (n : Nat) (cs rep rest : List Char)
    (h : tryG1Len n cs = some (rep, rest)) : ∀ x, x ∈ rep ∨ x ∈ rest → x ∈ cs := by
  rw [tryG1Len] at h
  cases ht : takeLetters n cs with
  | none => rw [ht] at h; exact absurd h (by simp)
  | some gr =>
    obtain ⟨g1, r1⟩ := gr
    rw [ht] at h
    change (match tryAfterG1 r1 with
      | some (g2, r2) => some (g1 ++ g2, r2)
      | none => none) = some (rep, rest) at h
    cases ha : tryAfterG1 r1 with
    | none => rw [ha] at h; exact absurd h (by simp)
    | some g2r =>
      obtain ⟨g2, r2⟩ := g2r
      rw [ha] at h
      change some (g1 ++ g2, r2) = some (rep, rest) at h
      have h2 := Option.some.inj h
      have hrep : g1 ++ g2 = rep := (Prod.mk.injEq .. |>.mp h2).1
      have hrest : r2 = rest := (Prod.mk.injEq .. |>.mp h2).2
      intro x hx
      rw [takeLetters_append n cs g1 r1 ht]
      rcases hx with hx | hx
      · rw [← hrep] at hx
        rcases List.mem_append.mp hx with hx1 | hx2
        · exact List.mem_append.mpr (Or.inl hx1)
        · exact List.mem_append.mpr (Or.inr
            (tryAfterG1_mem r1 g2 r2 ha x (Or.inl hx2)))
      · rw [← hrest] at hx
        exact List.mem_append.mpr (Or.inr
          (tryAfterG1_mem r1 g2 r2 ha x (Or.inr hx)))

theorem tryAmpAt_none (cs : List Char) (h : ∀ c ∈ cs, c ≠ '&') :
    tryAmpAt cs = none := by
  rw [tryAmpAt, tryG1Len_none 3 cs h, tryG1Len_none 2 cs h, tryG1Len_none 1 cs h]
  rfl

theorem tryAmpAt_mem (cs rep rest : List Char)
    (h : tryAmpAt cs = some (rep, rest)) : ∀ x, x ∈ rep ∨ x ∈ rest → x ∈ cs := by
  rw [tryAmpAt] at h
  cases h3 : tryG1Len 3 cs with
  | some v =>
    rw [h3] at h
    change some v = some (rep, rest) at h
    have hv := Option.some.inj h
    subst hv
    exact tryG1Len_mem 3 cs rep rest h3
  | none =>
    rw [h3] at h
    change (tryG1Len 2 cs).orElse (fun _ => tryG1Len 1 cs) = some (rep, rest) at h
    cases h2 : tryG1Len 2 cs with
    | some v =>
      rw [h2] at h
      change some v = some (rep, rest) at h
      have hv := Option.some.inj h
      subst hv
      exact tryG1Len_mem 2 cs rep rest h2
    | none =>
      rw [h2] at h
      change tryG1Len 1 cs = some (rep, rest) at h
      exact tryG1Len_mem 1 cs rep rest h

theorem ampAux_no_amp :
    ∀ (cs : List Char) (fuel : Nat) (b : Bool), (∀ c ∈ cs, c ≠ '&') →
      ampAux fuel b cs = cs := by
  intro cs
  induction cs with
  | nil => intro fuel b _; cases fuel <;> rfl
  | cons c cs ih =>
    intro fuel b h
    cases fuel with
    | zero => rfl
    | succ fuel =>
      rw [ampAux]
      have hrest : ∀ x ∈ cs, x ≠ '&' := fun x hx => h x (List.mem_cons_of_mem c hx)
      by_cases hb : (!b && isAsciiLetter c) = true
      · rw [if_pos hb, tryAmpAt_none (c :: cs) h]
        rw [ih fuel true hrest]
      · rw [if_neg hb, ih fuel (isWordChar c) hrest]

theorem ampSub_no_amp (cs : List Char) (h : ∀ c ∈ cs, c ≠ '&') : ampSub cs = cs :=
  ampAux_no_amp cs (cs.length + 1) false h

theorem mem_ampAux :
    ∀ (fuel : Nat) (cs : List Char) (b : Bool) (x : Char),
      x ∈ ampAux fuel b cs → x ∈ cs := by
  intro fuel
  induction fuel with
  | zero => intro cs b x hx; exact hx
  | succ fuel ih =>
    intro cs b x hx
    cases cs with
    | nil => exact hx
    | cons c cs2 =>
      rw [ampAux] at hx
      by_cases hb : (!b && isAsciiLetter c) = true
      · rw [if_pos hb] at hx
        cases ht : tryAmpAt (c :: cs2) with
        | none =>
          rw [ht] at hx
          rcases List.mem_cons.mp hx with rfl | hx2
          · exact List.mem_cons_self x cs2
          · exact List.mem_cons_of_mem c (ih cs2 true x hx2)
        | some rr =>
          rw [ht] at hx
          rcases List.mem_append.mp hx with hx1 | hx2
          · exact tryAmpAt_mem (c :: cs2) rr.1 rr.2 (by rw [ht]) x (Or.inl hx1)
          · exact tryAmpAt_mem (c :: cs2) rr.1 rr.2 (by rw [ht]) x
              (Or.inr (ih rr.2 true x hx2))
      · rw [if_neg hb] at hx
        rcases List.mem_cons.mp hx with rfl | hx2
        · exact List.mem_cons_self x cs2
        · exact List.mem_cons_of_mem c (ih cs2 (isWordChar c) x hx2)

theorem mem_ampSub {x : Char} {cs : List Char} (h : x ∈ ampSub cs) : x ∈ cs :=
  mem_ampAux (cs.length + 1) cs false x h


/-! ## Remaining stage lemmas for the normalizer -/

theorem replaceAmp_no_amp (cs : List Char) (h : ∀ c ∈ cs, c ≠ '&') :
    replaceAmp cs = cs := by
  induction cs with
  | nil => rfl
  | cons c cs ih =>
    rw [replaceAmp, List.flatMap_cons]
    rw [if_neg (h c (List.mem_cons_self c cs))]
    have h2 := ih (fun x hx => h x (List.mem_cons_of_mem c hx))
    rw [replaceAmp] at h2
    rw [h2]
    rfl

theorem mem_replaceAmp {x : Char} :
    ∀ {cs : List Char}, x ∈ replaceAmp cs →
      x ∈ cs ∨ x = ' ' ∨ x = 'a' ∨ x = 'n' ∨ x = 'd' := by
  intro cs
  induction cs with
  | nil => intro h; exact absurd h (List.not_mem_nil x)
  | cons c cs ih =>
    intro h
    rw [replaceAmp, List.flatMap_cons] at h
    rcases List.mem_append.mp h with h1 | h2
    · by_cases hc : c = '&'
      · rw [if_pos hc] at h1
        simp only [List.mem_cons, List.not_mem_nil, or_false] at h1
        tauto
      · rw [if_neg hc] at h1
        rcases List.mem_singleton.mp h1 with rfl
        exact Or.inl (List.mem_cons_self x cs)
    · rcases ih h2 with h3 | h3
      · exact Or.inl (List.mem_cons_of_mem c h3)
      · exact Or.inr h3

theorem mem_punctToSpace {x : Char} {cs : List Char} (h : x ∈ punctToSpace cs) :
    x = ' ' ∨ (x ∈ cs ∧ (isWordChar x = true ∨ isSp x = true)) := by
  rw [punctToSpace] at h
  rcases List.mem_map.mp h with ⟨c0, hc0, heq⟩
  by_cases hw : (isWordChar c0 || isSp c0) = true
  · rw [if_pos hw] at heq
    subst heq
    rcases Bool.or_eq_true .. |>.mp hw with h1 | h1
    · exact Or.inr ⟨hc0, Or.inl h1⟩
    · exact Or.inr ⟨hc0, Or.inr h1⟩
  · rw [if_neg hw] at heq
    exact Or.inl heq.symm

theorem mem_stripEnds {x : Char} {cs : List Char} (h : x ∈ stripEnds cs) : x ∈ cs := by
  rw [stripEnds] at h
  rw [List.mem_reverse] at h
  have h2 := mem_dropWhile_sp h
  rw [List.mem_reverse] at h2
  exact mem_dropWhile_sp h2

theorem mem_collapseStrip {x : Char} {cs : List Char} (h : x ∈ collapseStrip cs) :
    x = ' ' ∨ (x ∈ cs ∧ isSp x = false) := by
  rw [collapseStrip] at h
  rcases mem_joinSp h with rfl | ⟨w, hw, hxw⟩
  · exact Or.inl rfl
  · have := wordsAux_mem_prop (fun c => c ∈ cs) cs [] (fun c hc => hc)
      (fun c hc => absurd hc (List.not_mem_nil c)) w hw
    exact Or.inr ⟨(this.2 x hxw).1, (this.2 x hxw).2⟩

theorem splitSp_no_space :
    ∀ (cs : List Char), ∀ w ∈ splitSp cs, ∀ c ∈ w, c ≠ ' ' := by
  intro cs
  induction cs with
  | nil =>
    intro w hw c hc
    rcases List.mem_singleton.mp hw with rfl
    exact absurd hc (List.not_mem_nil c)
  | cons a cs ih =>
    intro w hw c hc
    rw [splitSp] at hw
    by_cases ha : a = ' '
    · rw [if_pos ha] at hw
      rcases List.mem_cons.mp hw with rfl | hw2
      · exact absurd hc (List.not_mem_nil c)
      · exact ih w hw2 c hc
    · rw [if_neg ha] at hw
      cases hs : splitSp cs with
      | nil => exact absurd hs (splitSp_ne_nil cs)
      | cons p ps =>
        rw [hs] at hw
        rcases List.mem_cons.mp hw with rfl | hw2
        · rcases List.mem_cons.mp hc with rfl | hc2
          · exact ha
          · exact ih p (by rw [hs]; exact List.mem_cons_self p ps) c hc2
        · exact ih w (by rw [hs]; exact List.mem_cons_of_mem p hw2) c hc

theorem mem_removeLegal {x : Char} {cs : List Char}
    (h : x ∈ removeLegalSuffixTokens cs) : x = ' ' ∨ x ∈ cs := by
  rw [removeLegalSuffixTokens] at h
  rcases mem_joinSp h with rfl | ⟨w, hw, hxw⟩
  · exact Or.inl rfl
  · rcases List.mem_map.mp hw with ⟨p, hp, heq⟩
    by_cases hk : LEGAL_SUFFIX_TOKENS.contains p = true
    · rw [if_pos hk] at heq
      subst heq
      exact absurd hxw (List.not_mem_nil x)
    · rw [if_neg hk] at heq
      subst heq
      exact Or.inr (mem_splitSp hp hxw)

theorem mem_stripLeadThe {x : Char} {cs : List Char} (h : x ∈ stripLeadThe cs) :
    x ∈ cs := by
  rw [stripLeadThe.eq_def] at h
  split at h
  · next c rest =>
    by_cases hc : isSp c = true
    · rw [if_pos hc] at h
      have := mem_dropWhile_sp h
      simp only [List.mem_cons] at this ⊢
      tauto
    · rw [if_neg hc] at h
      exact h
  · exact h

theorem mem_stripTrailThe {x : Char} {cs : List Char} (h : x ∈ stripTrailThe cs) :
    x ∈ cs := by
  rw [stripTrailThe.eq_def] at h
  split at h
  · next c rest heq =>
    by_cases hc : isSp c = true
    · rw [if_pos hc] at h
      rw [List.mem_reverse] at h
      have h2 := mem_dropWhile_sp h
      have h3 : x ∈ cs.reverse := by
        rw [heq]
        simp only [List.mem_cons] at h2 ⊢
        tauto
      exact List.mem_reverse.mp h3
    · rw [if_neg hc] at h
      exact h
  · exact h


/-! ## Word-level effect of the `the`-stripping stages -/

theorem words_stripLeadThe (cs : List Char) :
    ∀ w ∈ wordsAux (stripLeadThe cs) [], w ∈ wordsAux cs [] := by
  intro w hw
  rw [stripLeadThe.eq_def] at hw
  split at hw
  · next c rest =>
    by_cases hc : isSp c = true
    · rw [if_pos hc] at hw
      rw [wordsAux_dropWhile_sp] at hw
      have hw2 : w ∈ wordsAux rest [] := by
        rw [wordsAux, if_pos hc] at hw
        simpa using hw
      show w ∈ wordsAux (['t','h','e'] ++ c :: rest) []
      rw [wordsAux_split_at_space c hc ['t','h','e'] rest []]
      exact List.mem_append.mpr (Or.inr hw2)
    · rw [if_neg hc] at hw
      exact hw
  · exact hw

theorem words_stripTrailThe (cs : List Char) :
    ∀ w ∈ wordsAux (stripTrailThe cs) [], w ∈ wordsAux cs [] := by
  intro w hw
  rw [stripTrailThe.eq_def] at hw
  split at hw
  · next c rest heq =>
    by_cases hc : isSp c = true
    · rw [if_pos hc] at hw
      have hcs : cs = (List.dropWhile isSp (c :: rest)).reverse ++
          ((List.takeWhile isSp (c :: rest)).reverse ++ ['t','h','e']) := by
        have h2 : cs = ('e' :: 'h' :: 't' :: c :: rest).reverse := by
          rw [← heq, List.reverse_reverse]
        rw [h2]
        rw [show ('e' :: 'h' :: 't' :: c :: rest).reverse
            = (c::rest).reverse ++ ['t','h','e'] by simp]
        conv_lhs => rw [show (c :: rest)
          = List.takeWhile isSp (c::rest) ++ List.dropWhile isSp (c::rest) from
            (List.takeWhile_append_dropWhile ..).symm]
        rw [List.reverse_append]
        simp
      cases hrev : (List.takeWhile isSp (c :: rest)).reverse with
      | nil =>
        exfalso
        rw [List.takeWhile_cons_of_pos (by simp [hc])] at hrev
        simp at hrev
      | cons s0 tail =>
        have hs0 : isSp s0 = true := by
          have hmem : s0 ∈ (List.takeWhile isSp (c :: rest)).reverse := by
            rw [hrev]; exact List.mem_cons_self s0 tail
          rw [List.mem_reverse] at hmem
          exact List.mem_takeWhile_imp hmem
        rw [hrev] at hcs
        have hcs2 : cs = (List.dropWhile isSp (c :: rest)).reverse ++
            (s0 :: (tail ++ ['t','h','e'])) := by rw [hcs]; simp
        rw [hcs2]
        rw [wordsAux_split_at_space s0 hs0]
        exact List.mem_append.mpr (Or.inl hw)
    · rw [if_neg hc] at hw
      exact hw
  · exact hw

/-! ## Canonicity of the normalizer output -/

/-- Every `normalize` output is whitespace-collapsed, consists of lowercase
word characters and single spaces, and contains no legal-suffix token. -/
theorem normalizeList_canon (cs : List Char) :
    collapseStrip (normalizeList cs) = normalizeList cs ∧
    (∀ c ∈ normalizeList cs, (c = ' ' ∨ isWordChar c = true) ∧ c.isUpper = false) ∧
    (∀ w ∈ wordsAux (normalizeList cs) [], LEGAL_SUFFIX_TOKENS.contains w = false) := by
  refine ⟨collapseStrip_idem _, ?_, ?_⟩
  · intro c hc
    rcases mem_collapseStrip hc with rfl | ⟨hc8, _⟩
    · exact ⟨Or.inl rfl, by decide⟩
    have hc7 := mem_stripTrailThe hc8
    have hc6 := mem_stripLeadThe hc7
    rcases mem_removeLegal hc6 with rfl | hc5
    · exact ⟨Or.inl rfl, by decide⟩
    rcases mem_collapseStrip hc5 with rfl | ⟨hc4, hnsp4⟩
    · exact ⟨Or.inl rfl, by decide⟩
    rcases mem_punctToSpace hc4 with rfl | ⟨hc3, hword⟩
    · exact ⟨Or.inl rfl, by decide⟩
    have hword2 : isWordChar c = true := by
      rcases hword with h | h
      · exact h
      · rw [h] at hnsp4
        exact absurd hnsp4 (by simp)
    have hup : c.isUpper = false := by
      rcases mem_replaceAmp hc3 with h2 | h2
      · have h1 := mem_ampSub h2
        have h0 := mem_stripEnds h1
        rcases List.mem_map.mp h0 with ⟨c0, _, rfl⟩
        exact isUpper_toLower c0
      · rcases h2 with rfl | rfl | rfl | rfl <;> decide
    exact ⟨Or.inr hword2, hup⟩
  · intro w hw
    -- strip the final collapse
    have hbasic := wordsAux_basic (stripTrailThe (stripLeadThe (removeLegalSuffixTokens
      (collapseStrip (punctToSpace (replaceAmp (ampSub (stripEnds (cs.map Char.toLower)))))))))
    rw [show normalizeList cs = collapseStrip (stripTrailThe (stripLeadThe
        (removeLegalSuffixTokens (collapseStrip (punctToSpace (replaceAmp
        (ampSub (stripEnds (cs.map Char.toLower))))))))) from rfl,
      collapseStrip, wordsAux_joinSp _ (fun u hu c hcu => (hbasic u hu).2 c hcu)] at hw
    have hw8 := List.mem_of_mem_filter hw
    have hw7 := words_stripTrailThe _ w hw8
    have hw6 := words_stripLeadThe _ w hw7
    -- words of removeLegalSuffixTokens s5 avoid the suffix list
    set s5 := collapseStrip (punctToSpace (replaceAmp (ampSub
      (stripEnds (cs.map Char.toLower))))) with hs5
    have hpieces : ∀ u ∈ (splitSp s5).map
        (fun w => if LEGAL_SUFFIX_TOKENS.contains w then [] else w),
        ∀ c ∈ u, isSp c = false := by
      intro u hu c hcu
      rcases List.mem_map.mp hu with ⟨p, hp, heq⟩
      by_cases hk : LEGAL_SUFFIX_TOKENS.contains p = true
      · rw [if_pos hk] at heq
        subst heq
        exact absurd hcu (List.not_mem_nil c)
      · rw [if_neg hk] at heq
        subst heq
        have hmem : c ∈ s5 := mem_splitSp hp hcu
        rcases mem_collapseStrip hmem with heqc | ⟨_, hns⟩
        · exact absurd heqc (splitSp_no_space s5 p hp c hcu)
        · exact hns
    rw [removeLegalSuffixTokens, wordsAux_joinSp _ hpieces] at hw6
    have hw6b := List.mem_of_mem_filter hw6
    have hwne : w ≠ [] := by
      have := List.of_mem_filter hw6
      simpa [List.isEmpty_iff] using this
    rcases List.mem_map.mp hw6b with ⟨p, _, heq⟩
    by_cases hk : LEGAL_SUFFIX_TOKENS.contains p = true
    · rw [if_pos hk] at heq
      exact absurd heq.symm hwne
    · rw [if_neg hk] at heq
      rw [← heq]
      simpa using hk


/-! ## The normalizer fixes its canonical outputs -/

/-- Any canonical string (collapsed, lowercase word chars and single spaces,
no suffix tokens) on which neither `the`-strip fires is a fixed point of
`normalizeList`. -/
theorem normalizeList_fixed (y : List Char)
    (hco : collapseStrip y = y)
    (hch : ∀ c ∈ y, (c = ' ' ∨ isWordChar c = true) ∧ c.isUpper = false)
    (hsw : ∀ w ∈ wordsAux y [], LEGAL_SUFFIX_TOKENS.contains w = false)
    (hld : stripLeadThe y = y)
    (htl : stripTrailThe y = y) :
    normalizeList y = y := by
  have hws := wordsAux_basic y
  have hnoamp : ∀ c ∈ y, c ≠ '&' := by
    intro c hc hcamp
    rcases (hch c hc).1 with h | h
    · rw [hcamp] at h; exact absurd h (by decide)
    · rw [hcamp] at h; exact absurd h (by decide)
  have h1 : stripEnds (y.map Char.toLower) = y := by
    rw [map_eq_self_of_fix _ y (fun c hc => toLower_eq_self c (hch c hc).2)]
    conv_lhs => rw [← hco, collapseStrip]
    rw [stripEnds_joinSp _ hws]
    rw [← collapseStrip, hco]
  have hamp : ampSub y = y := ampSub_no_amp y hnoamp
  have hrep : replaceAmp y = y := replaceAmp_no_amp y hnoamp
  have hpun : punctToSpace y = y := by
    rw [punctToSpace]
    refine map_eq_self_of_fix _ y ?_
    intro c hc
    rcases (hch c hc).1 with rfl | h
    · rw [if_pos (by decide)]
    · rw [if_pos (by rw [h]; rfl)]
  have hrem : removeLegalSuffixTokens y = y := by
    by_cases hy : wordsAux y [] = []
    · have hynil : y = [] := by
        conv_lhs => rw [← hco, collapseStrip, hy]
        rfl
      rw [hynil]
      decide
    · rw [removeLegalSuffixTokens]
      have hsplit : splitSp y = wordsAux y [] := by
        conv_lhs => rw [← hco, collapseStrip]
        refine splitSp_joinSp _ hy ?_
        intro w hw c hcw
        have hns := (hws w hw).2 c hcw
        intro hcsp
        rw [hcsp] at hns
        exact absurd hns (by decide)
      rw [hsplit]
      rw [map_eq_self_of_fix _ (wordsAux y []) ?hfix]
      · conv_rhs => rw [← hco, collapseStrip]
      case hfix =>
        intro w hw
        rw [if_neg (by rw [hsw w hw]; exact Bool.false_ne_true)]
  show collapseStrip (stripTrailThe (stripLeadThe (removeLegalSuffixTokens
    (collapseStrip (punctToSpace (replaceAmp (ampSub
    (stripEnds (y.map Char.toLower))))))))) = y
  rw [h1, hamp, hrep, hpun, hco, hrem, hld, htl, hco]

/-- If the `^the\s+` pattern does not match (no `"the "` prefix), the
leading strip is the identity on canonical strings. -/
theorem stripLeadThe_of_guard (y : List Char)
    (hch : ∀ c ∈ y, (c = ' ' ∨ isWordChar c = true) ∧ c.isUpper = false)
    (hg : List.isPrefixOf "the ".data y = false) :
    stripLeadThe y = y := by
  rw [stripLeadThe.eq_def]
  split
  · next c rest =>
    by_cases hc : isSp c = true
    · exfalso
      have hcy : c ∈ 't' :: 'h' :: 'e' :: c :: rest := by simp
      rcases (hch c hcy).1 with rfl | hw
      · rw [show List.isPrefixOf "the ".data ('t' :: 'h' :: 'e' :: ' ' :: rest) = true by
          simp [List.isPrefixOf]] at hg
        exact absurd hg (by decide)
      · rw [isWordChar_not_isSp c hw] at hc
        exact Bool.false_ne_true hc
    · rw [if_neg hc]
  · rfl

/-- If the `\s+the$` pattern does not match (no `" the"` suffix), the
trailing strip is the identity on canonical strings. -/
theorem stripTrailThe_of_guard (y : List Char)
    (hch : ∀ c ∈ y, (c = ' ' ∨ isWordChar c = true) ∧ c.isUpper = false)
    (hg : List.isSuffixOf " the".data y = false) :
    stripTrailThe y = y := by
  rw [stripTrailThe.eq_def]
  split
  · next c rest heq =>
    by_cases hc : isSp c = true
    · exfalso
      have hcy : c ∈ y := by
        rw [← List.mem_reverse, heq]
        simp
      rcases (hch c hcy).1 with rfl | hw
      · rw [List.isSuffixOf] at hg
        rw [show (" the".data).reverse = ['e', 'h', 't', ' '] from rfl, heq] at hg
        rw [show List.isPrefixOf ['e', 'h', 't', ' '] ('e' :: 'h' :: 't' :: ' ' :: rest) = true by
          simp [List.isPrefixOf]] at hg
        exact absurd hg (by decide)
      · rw [isWordChar_not_isSp c hw] at hc
        exact Bool.false_ne_true hc
    · rw [if_neg hc]
  · rfl


/-! ## C4 — totality and idempotence of `normalize` -/

/-- C4 (counterexample): `normalize` is not idempotent on all inputs.
Stripping the legal suffix "ltd" exposes a leading "the " (with a leading
space), which the `^the\s+` strip does not match because it runs before
the final whitespace collapse; only a second application removes it:
`normalize "Ltd The Xyz" = "the xyz"` but normalizing again gives `"xyz"`. -/
theorem c4_normalize_not_idempotent :
    normalize (normalize "Ltd The Xyz") ≠ normalize "Ltd The Xyz" := by decide

/-- C4 (amended): `normalize` is total, and it is idempotent on every input
whose normalized form neither starts with `"the "` nor ends with `" the"` —
the only failures are a leading or trailing article exposed by legal-suffix
stripping. -/
theorem c4_normalize_idempotent_guarded (x : String)
    (h1 : List.isPrefixOf "the ".data (normalize x).data = false)
    (h2 : List.isSuffixOf " the".data (normalize x).data = false) :
    normalize (normalize x) = normalize x := by
  by_cases hx : x = ""
  · subst hx; rfl
  · by_cases hy : normalize x = ""
    · rw [hy, normalize, if_pos rfl]
    · have hdata : (normalize x).data = normalizeList x.data := by
        rw [normalize, if_neg hx]
      rw [hdata] at h1 h2
      rcases normalizeList_canon x.data with ⟨hco, hch, hsw⟩
      have hld := stripLeadThe_of_guard _ hch h1
      have htl := stripTrailThe_of_guard _ hch h2
      have hfix := normalizeList_fixed _ hco hch hsw hld htl
      conv_lhs => rw [normalize, if_neg hy]
      rw [hdata, hfix]
      rw [normalize, if_neg hx]

/-- C4 witness: a concrete instance of the guarded idempotence. -/
theorem c4_normalize_idempotent_witness :
    normalize (normalize "Tata Motors Ltd.") = normalize "Tata Motors Ltd." :=
  c4_normalize_idempotent_guarded "Tata Motors Ltd." (by decide) (by decide)

/-!
## Garbage classification (`classify_garbage`, lines 129–199)

The classifier runs a fixed sequence of regex tests.  All the regexes use
only ASCII letters in their literals, with `re.IGNORECASE`; we model the
case-insensitive match by lowercasing the subject with `Char.toLower`
(ASCII lowering, which agrees with Python for the ASCII literals compared
against).  Anchored patterns (`re.match` against `^...$`) are modelled as
whole-string matchers; `_NON_COMPANY_RE` uses `re.search` and is modelled
as a positional scan.  Python's `$` also matches before a final newline,
but classified strings come out of `clean_name`, which collapses all
whitespace, so no subject contains a newline and plain end-of-string is
faithful.
-/

/-- One character of the class `[^a-zA-Z0-9À-ɏЀ-ӿ]`
from `_SPECIAL_ONLY_RE`. -/
def specialOnlyChar (c : Char) : Bool :=
  !(c.isAlphanum || (0xC0 ≤ c.toNat && c.toNat ≤ 0x24F)
      || (0x400 ≤ c.toNat && c.toNat ≤ 0x4FF))

/-- `_SPECIAL_ONLY_RE = ^[^a-zA-Z0-9À-ɏЀ-ӿ]+$`. -/
def specialOnlyMatch (s : String) : Bool :=
  !s.data.isEmpty && s.data.all specialOnlyChar

/-- `_NUMERIC_ONLY_RE = ^[0-9]+$`. -/
def numericOnlyMatch (s : String) : Bool :=
  !s.data.isEmpty && s.data.all Char.isDigit

/-- Drop a literal word from the front of `cs`; `none` when it is not a
prefix of `cs`. -/
def dropLit : List Char → List Char → Option (List Char)
  | [], cs => some cs
  | _ :: _, [] => none
  | l :: ls, c :: cs => if c = l then dropLit ls cs else none

/-- `\s*`. -/
def sp0 (cs : List Char) : List Char := cs.dropWhile isSp

/-- `\s+` (at least one whitespace character, eaten greedily; every
literal that follows `\s+` in these regexes starts with a non-space
letter, so the greedy match is forced). -/
def sp1 : List Char → Option (List Char)
  | [] => none
  | c :: cs => if isSp c then some (cs.dropWhile isSp) else none

/-- A literal word followed by `\s+`. -/
def wordSp1 (w : String) (cs : List Char) : Option (List Char) :=
  match dropLit w.data cs with
  | some rest => sp1 rest
  | none => none

/-- An optional trailing `s` at end of subject (the `s?$` closing the
anchored patterns). -/
def optS (cs : List Char) : Bool := cs.isEmpty || cs = ['s']

/-- Plain single-word alternatives of `_PLACEHOLDER_RE` (in source
order; `n/?a` and the `\s`-bearing alternatives are handled separately). -/
def PLACEHOLDER_WORDS : List String :=
  ["test", "testing", "unknown", "none", "null", "na", "tbd", "temp",
   "temporary", "sample", "dummy", "xxx", "zzz", "abc", "asdf", "qwerty",
   "confidential", "private", "personal", "delete", "removed", "undefined",
   "current", "present", "same", "ditto", "above", "below", "various",
   "multiple", "several", "many", "other", "others", "etc", "misc",
   "miscellaneous"]

/-- `company\s*\d*$` (the greedy `\s*` then `\d*` are forced: spaces and
digits are disjoint character classes). -/
def phCompany (l : List Char) : Bool :=
  match dropLit "company".data l with
  | some rest => ((sp0 rest).dropWhile Char.isDigit).isEmpty
  | none => false

/-- `no\s*company$`. -/
def phNoCompany (l : List Char) : Bool :=
  match dropLit "no".data l with
  | some rest => dropLit "company".data (sp0 rest) = some []
  | none => false

/-- `not\s*applicable$`. -/
def phNotApplicable (l : List Char) : Bool :=
  match dropLit "not".data l with
  | some rest => dropLit "applicable".data (sp0 rest) = some []
  | none => false

/-- `do\s*not\s*use$`. -/
def phDoNotUse (l : List Char) : Bool :=
  match dropLit "do".data l with
  | some r1 =>
    match dropLit "not".data (sp0 r1) with
    | some r2 => dropLit "use".data (sp0 r2) = some []
    | none => false
  | none => false

/-- `same\s+as\s+above$`. -/
def phSameAsAbove (l : List Char) : Bool :=
  match wordSp1 "same" l with
  | some r1 =>
    match wordSp1 "as" r1 with
    | some r2 => r2 = "above".data
    | none => false
  | none => false

/-- `as\s+above$`. -/
def phAsAbove (l : List Char) : Bool :=
  match wordSp1 "as" l with
  | some r1 => r1 = "above".data
  | none => false

/-- `_PLACEHOLDER_RE.match` (anchored alternation; the whole subject must
be one of the alternatives). -/
def placeholderMatch (s : String) : Bool :=
  let l := s.data.map Char.toLower
  PLACEHOLDER_WORDS.any (fun w => l = w.data) ||
  l = "n/a".data ||
  phCompany l || phNoCompany l || phNotApplicable l || phDoNotUse l ||
  phSameAsAbove l || phAsAbove l

/-- Plain single-word alternatives of `_JOB_TITLE_RE` (the combined
`co-?\s*founder` alternative is handled by `phCoFounder`). -/
def JOB_TITLE_WORDS : List String :=
  ["consultant", "advisor", "manager", "director", "engineer", "analyst",
   "developer", "designer", "architect", "teacher", "professor", "lecturer",
   "doctor", "lawyer", "advocate", "attorney", "accountant", "auditor",
   "trainer", "coach", "mentor", "tutor", "instructor",
   "volunteer", "intern", "trainee", "apprentice",
   "partner", "founder", "entrepreneur",
   "ceo", "cto", "cfo", "coo", "cio", "cmo", "vp", "svp", "evp", "md", "gm"]

/-- `co-?\s*founder` followed by the group-level `s?$`.  The optional `-`
is forced: when the next character is `-` the only way to continue is to
consume it (`\s*` cannot eat `-` and `founder` does not start with it). -/
def phCoFounder (l : List Char) : Bool :=
  match dropLit "co".data l with
  | some rest =>
    let rest1 := match rest with
      | '-' :: cs => cs
      | _ => rest
    match dropLit "founder".data (sp0 rest1) with
    | some tail => optS tail
    | none => false
  | none => false

/-- `_JOB_TITLE_RE.match`. -/
def jobTitleMatch (s : String) : Bool :=
  let l := s.data.map Char.toLower
  JOB_TITLE_WORDS.any (fun w =>
    match dropLit w.data l with
    | some tail => optS tail
    | none => false) || phCoFounder l

/-- First-group alternatives of `_ROLE_PATTERN_RE` (the two-word
`key\s+account` alternative is handled inside `roleAUnit`). -/
def ROLE_A_WORDS : List String :=
  ["regional", "branch", "area", "district", "territory", "zone", "zonal",
   "national", "global", "category", "channel", "senior", "junior",
   "assistant", "deputy", "chief", "associate", "executive", "general",
   "central"]

/-- Middle-group alternatives of `_ROLE_PATTERN_RE`. -/
def ROLE_B_WORDS : List String :=
  ["sales", "marketing", "business", "service", "product", "project",
   "operations", "hr", "human", "resource", "finance", "technical",
   "commercial", "customer", "legal", "supply", "procurement", "logistics",
   "it", "digital"]

/-- Final-group alternatives of `_ROLE_PATTERN_RE`. -/
def ROLE_C_WORDS : List String :=
  ["manager", "director", "head", "leader", "officer", "supervisor",
   "coordinator", "executive", "president", "counsel"]

/-- The closing `(?:\s*[\-–—]\s*\w+)*$` of `_ROLE_PATTERN_RE`.
Greediness is forced throughout (spaces, dashes and word characters are
disjoint classes), so the starred loop is deterministic; the fuel only
bounds the number of iterations, each of which consumes at least one
character, so any fuel above the list length is exact. -/
def roleTail : Nat → List Char → Bool
  | _, [] => true
  | 0, _ :: _ => false
  | fuel + 1, c :: cs =>
    match (c :: cs).dropWhile isSp with
    | d :: cs2 =>
      if d = '-' || d = '–' || d = '—' then
        let cs3 := cs2.dropWhile isSp
        !(cs3.takeWhile isWordChar).isEmpty &&
          roleTail fuel (cs3.dropWhile isWordChar)
      else false
    | [] => false

/-- One final-group word, its optional `s` (both readings tried), then the
dash tail. -/
def roleCS (cs : List Char) : Bool :=
  ROLE_C_WORDS.any (fun w =>
    match dropLit w.data cs with
    | some rest =>
      roleTail (rest.length + 1) rest ||
      (match rest with
       | 's' :: rest2 => roleTail (rest2.length + 1) rest2
       | _ => false)
    | none => false)

/-- `(?:B\s+)*` then the final group: either match the final group here,
or consume one middle-group word plus `\s+` and recurse.  Each iteration
consumes at least two characters, so fuel `length + 1` never runs out on
a successful parse. -/
def roleBC : Nat → List Char → Bool
  | 0, _ => false
  | fuel + 1, cs =>
    roleCS cs ||
    ROLE_B_WORDS.any (fun w =>
      match wordSp1 w cs with
      | some rest => roleBC fuel rest
      | none => false)

/-- All remainders after consuming one first-group alternative plus its
`\s+` (every alternative is tried, giving full backtracking). -/
def roleAUnit (cs : List Char) : List (List Char) :=
  ROLE_A_WORDS.filterMap (fun w => wordSp1 w cs) ++
  (match wordSp1 "key" cs with
   | some r1 =>
     match wordSp1 "account" r1 with
     | some r2 => [r2]
     | none => []
   | none => [])

/-- `(?:A\s+)+` then the rest of `_ROLE_PATTERN_RE`: at least one
first-group unit, then either more of them or the middle/final part. -/
def roleA : Nat → List Char → Bool
  | 0, _ => false
  | fuel + 1, cs =>
    (roleAUnit cs).any (fun rest => roleBC (rest.length + 1) rest || roleA fuel rest)

/-- `_ROLE_PATTERN_RE.match`. -/
def rolePatternMatch (s : String) : Bool :=
  let l := s.data.map Char.toLower
  roleA (l.length + 1) l

/-- Alternatives of `_INDEPENDENT_RE`. -/
def INDEPENDENT_WORDS : List String :=
  ["consultant", "contractor", "advisor", "professional", "practitioner",
   "researcher", "developer", "designer", "engineer"]

/-- `_INDEPENDENT_RE.match`: `^independent\s+(?:...)s?$`. -/
def independentMatch (s : String) : Bool :=
  let l := s.data.map Char.toLower
  match wordSp1 "independent" l with
  | some rest => INDEPENDENT_WORDS.any (fun w =>
      match dropLit w.data rest with
      | some tail => optS tail
      | none => false)
  | none => false

/-- Is the literal `w` a prefix of `cs`?  The unanchored bodies of
`_NON_COMPANY_RE` (`re.search`, no `$`) only need their literal part to
occur; a trailing `\w*` or nothing at all both accept any continuation. -/
def isPre (w : String) (cs : List Char) : Bool := (dropLit w.data cs).isSome

/-- `self[\s-]?employ\w*`: the class `[\s-]?` is zero or one character. -/
def ncSelfEmploy (cs : List Char) : Bool :=
  match dropLit "self".data cs with
  | some rest =>
    isPre "employ" rest ||
    (match rest with
     | c :: rest2 => (isSp c || c = '-') && isPre "employ" rest2
     | [] => false)
  | none => false

/-- Two literal words joined by `\s+`, as a search body. -/
def ncPair (w1 w2 : String) (cs : List Char) : Bool :=
  match wordSp1 w1 cs with
  | some r => isPre w2 r
  | none => false

/-- `looking\s+for\s+(?:job|work|opportunit|a\s+job)`. -/
def ncLooking (cs : List Char) : Bool :=
  match wordSp1 "looking" cs with
  | some r1 =>
    match wordSp1 "for" r1 with
    | some r2 =>
      isPre "job" r2 || isPre "work" r2 || isPre "opportunit" r2 ||
      (match wordSp1 "a" r2 with
       | some r3 => isPre "job" r3
       | none => false)
    | none => false
  | none => false

/-- `open\s+to\s+work`. -/
def ncOpenToWork (cs : List Char) : Bool :=
  match wordSp1 "open" cs with
  | some r1 => ncPair "to" "work" r1
  | none => false

/-- The alternation body of `_NON_COMPANY_RE`, tried at one position. -/
def ncAt (cs : List Char) : Bool :=
  isPre "freelanc" cs || ncSelfEmploy cs || isPre "unemploy" cs ||
  isPre "retired" cs || isPre "retirement" cs || isPre "student" cs ||
  isPre "homemaker" cs || isPre "housewife" cs ||
  ncLooking cs || ncPair "job" "seek" cs || ncPair "between" "jobs" cs ||
  ncPair "career" "break" cs || ncOpenToWork cs || ncPair "actively" "seeking" cs

/-- Scan for `_NON_COMPANY_RE.search`: the body may start at the string
start, after a whitespace character, or after `·` (the `·\s*` alternative
with further spaces is subsumed: the character just before the body is
then itself a space). -/
def ncScan : List Char → Bool → Bool
  | [], _ => false
  | c :: rest, atB =>
    (atB && ncAt (c :: rest)) || ncScan rest (isSp c || c = '·')

/-- `_NON_COMPANY_RE.search`. -/
def nonCompanySearch (s : String) : Bool :=
  ncScan (s.data.map Char.toLower) true

/-- `classify_garbage` (lines 180–199). -/
def classify_garbage (cleaned : String) : Option String :=
  if cleaned = "" then some "empty"
  else if cleaned.length ≤ 2 then
    some ("too_short (" ++ toString cleaned.length ++ " chars)")
  else if specialOnlyMatch cleaned then some "special_chars_only"
  else if numericOnlyMatch cleaned then some "numeric_only"
  else if placeholderMatch cleaned then some "placeholder"
  else if jobTitleMatch cleaned then some "job_title_not_company"
  else if rolePatternMatch cleaned then some "job_role_not_company"
  else if independentMatch cleaned then some "independent_not_company"
  else if nonCompanySearch cleaned then
    some "non_company (freelance/self-employed/student/etc)"
  else none

/-!
## rapidfuzz composite pieces (`composite_score`, lines 519–530)

`fuzz.ratio` is the indel-normalized similarity (`fratio` above).  The
remaining three scorers follow rapidfuzz's reference implementation:

* `token_sort_ratio(a, b) = ratio(" ".join(sorted(a.split())),
  " ".join(sorted(b.split())))`;
* `token_set_ratio` splits both strings into token *sets*; if the sets
  intersect and one is a subset of the other it returns 100; otherwise it
  returns the maximum of the three ratios `ratio(t0, t1)`, `ratio(t0, t2)`
  and `ratio(t1, t2)` where `t0` is the sorted intersection joined by
  spaces and `t1`/`t2` append the sorted set differences — rapidfuzz
  computes these three values arithmetically from the joined lengths and
  one indel distance (a common prefix contributes its length to the LCS),
  which is the form used below; if either token set is empty it returns 0;
* `partial_ratio` returns the best `ratio` between the shorter string and
  a window of the longer one: all windows of the shorter string's length,
  plus the shorter prefixes and suffixes of the longer string (the
  alignments hanging off either edge); for equal-length inputs both
  directions are tried.  rapidfuzz skips windows whose boundary character
  does not occur in the needle as an optimization that does not change
  the maximum; the model simply scores every window.

Python set iteration order is unspecified, but `token_set_ratio` only
uses the sets through their sorted joins and total lengths, so the model
is order-insensitive.  Scores are exact rationals; the source uses IEEE
floats (noted in the module docstring).
-/

/-- Lexicographic comparison of char lists — Python string `<=`
(code-point order). -/
def lexLe : List Char → List Char → Bool
  | [], _ => true
  | _ :: _, [] => false
  | c :: cs, d :: ds => if c = d then lexLe cs ds else decide (c < d)

def strLe (a b : String) : Bool := lexLe a.data b.data

/-- Stable insertion: the new element goes after any element `y` with
`le y x`, so equal elements keep their original relative order. -/
def insOrd (le : α → α → Bool) (x : α) : List α → List α
  | [] => [x]
  | y :: ys => if le y x then y :: insOrd le x ys else x :: y :: ys

/-- Python `sorted(...)`: stable insertion sort under `le`. -/
def pySorted (le : α → α → Bool) (l : List α) : List α :=
  l.foldl (fun acc x => insOrd le x acc) []

def sortNat (l : List Nat) : List Nat := pySorted (fun a b => decide (a ≤ b)) l

/-- `" ".join(ws)`. -/
def joinWords : List String → String
  | [] => ""
  | [w] => w
  | w :: ws => w ++ " " ++ joinWords ws

/-- `max` on ℚ written as an `if` so that the kernel can evaluate it. -/
def qmax (a b : ℚ) : ℚ := if a ≤ b then b else a

/-- `" ".join(sorted(s.split()))`. -/
def sortedJoin (s : String) : String := joinWords (pySorted strLe (splitWs s))

/-- `fuzz.token_sort_ratio`. -/
def token_sort_ratio (a b : String) : ℚ := fratio (sortedJoin a) (sortedJoin b)

/-- `fuzz.token_set_ratio` (see the section comment for the formula). -/
def token_set_ratio (a b : String) : ℚ :=
  let tokens_a := dedupFirst (splitWs a)
  let tokens_b := dedupFirst (splitWs b)
  if tokens_a.isEmpty || tokens_b.isEmpty then 0
  else
    let intersect := tokens_a.filter (fun t => tokens_b.contains t)
    let diff_ab := tokens_a.filter (fun t => !tokens_b.contains t)
    let diff_ba := tokens_b.filter (fun t => !tokens_a.contains t)
    if !intersect.isEmpty && (diff_ab.isEmpty || diff_ba.isEmpty) then 100
    else
      let diff_ab_joined := joinWords (pySorted strLe diff_ab)
      let diff_ba_joined := joinWords (pySorted strLe diff_ba)
      let ab_len := diff_ab_joined.length
      let ba_len := diff_ba_joined.length
      let sect_len := (joinWords intersect).length
      let bonus : Nat := if sect_len = 0 then 0 else 1
      let sect_ab_len := sect_len + bonus + ab_len
      let sect_ba_len := sect_len + bonus + ba_len
      let dist : Int :=
        (ab_len : Int) + ba_len - 2 * lcsLen diff_ab_joined.data diff_ba_joined.data
      let result :=
        mkRat (100 * (((sect_ab_len + sect_ba_len : Nat) : Int) - dist))
          (sect_ab_len + sect_ba_len)
      let sect_ab_ratio := mkRat (200 * (sect_len : Int)) (sect_len + sect_ab_len)
      let sect_ba_ratio := mkRat (200 * (sect_len : Int)) (sect_len + sect_ba_len)
      qmax result (qmax sect_ab_ratio sect_ba_ratio)

/-- The candidate windows of `partial_ratio` for a needle of length `n`
inside `b`: proper prefixes of length `1..n-1`, every full window of
length `n`, and the proper suffixes shorter than `n`. -/
def pwindows (n : Nat) (b : List Char) : List (List Char) :=
  ((List.range n).drop 1).map (fun i => b.take i) ++
  (List.range (b.length - n + 1)).map (fun i => (b.drop i).take n) ++
  ((List.range b.length).drop (b.length - n + 1)).map (fun i => b.drop i)

/-- Best window ratio of needle `a` inside haystack `b` (`a` no longer
than `b`). -/
def prImpl (a b : List Char) : ℚ :=
  (pwindows a.length b).foldl (fun best w => qmax best (fratio ⟨a⟩ ⟨w⟩)) 0

/-- `fuzz.partial_ratio`: the shorter string is slid over the longer one;
for equal lengths the swapped direction is also tried unless the first
already scored 100. -/
def pratio (a b : String) : ℚ :=
  if a.length = b.length then
    let r1 := prImpl a.data b.data
    if r1 = 100 then r1 else qmax r1 (prImpl b.data a.data)
  else if a.length < b.length then prImpl a.data b.data
  else prImpl b.data a.data

/-- `composite_score` (lines 519–530):
`0.30*tsr + 0.25*tse + 0.30*rat + 0.15*par`, all ratios divided by 100;
0.0 when either input is empty. -/
def composite_score (a b : String) : ℚ :=
  if a = "" || b = "" then 0
  else
    qadd (qadd (qmul (mkRat 30 100) (qdiv100 (token_sort_ratio a b)))
               (qmul (mkRat 25 100) (qdiv100 (token_set_ratio a b))))
         (qadd (qmul (mkRat 30 100) (qdiv100 (fratio a b)))
               (qmul (mkRat 15 100) (qdiv100 (pratio a b))))

/-!
## Name cleaning (`clean_name`, lines 72–123)

All the substitution regexes are deterministic once greediness is taken
into account (their character classes are disjoint from what follows),
so each is modelled by a direct scanner.  `re.IGNORECASE` is modelled by
lowercasing with `Char.toLower` before comparing against the lowercase
literals (ASCII, as throughout this file).  Fuel arguments are set to
`length + 1`; every scanner step consumes at least one character, so the
fuel is never exhausted.
-/

/-- The junk character class shared by `_LEADING_JUNK_RE` and
`_TRAILING_JUNK_RE` (the two classes list the same characters):
whitespace plus `• · - – — , . ' " “ ” [ ] ( ) { } * / \ # ` = : ; ! ? | @ & +`,
here by code point. -/
def JUNK_CODES : List Nat :=
  [0x2022, 0xB7, 45, 0x2013, 0x2014, 44, 46, 39, 34, 0x201C, 0x201D,
   91, 93, 40, 41, 0x7b, 0x7d, 42, 47, 92, 35, 96, 61, 58, 59, 33, 63,
   124, 64, 38, 43]

def isJunk (c : Char) : Bool := isSp c || JUNK_CODES.contains c.toNat

/-- `_TRAILING_JUNK_RE.sub("")`: drop the maximal junk suffix. -/
def trailJunk (cs : List Char) : List Char :=
  (cs.reverse.dropWhile isJunk).reverse

/-- The optional employment words of `_LINKEDIN_SUFFIX_RE`, lowercase. -/
def LI_WORDS : List String :=
  ["full-time", "part-time", "contract", "internship", "seasonal",
   "temporary", "freelance", "self-employed", "apprenticeship"]

/-- Does `cs` match `\s*·\s*(?:WORD)?\s*$` in its entirety? -/
def liMatch (cs : List Char) : Bool :=
  match cs.dropWhile isSp with
  | '·' :: cs2 =>
    let l := (cs2.dropWhile isSp).map Char.toLower
    l.isEmpty ||
      LI_WORDS.any (fun w =>
        match dropLit w.data l with
        | some rest => rest.all isSp
        | none => false)
  | _ => false

/-- `_LINKEDIN_SUFFIX_RE.sub("")`: the pattern is anchored at `$`, so the
single leftmost match is the earliest position from which the rest of the
string matches; everything from there on is removed. -/
def liStrip : List Char → List Char
  | [] => []
  | c :: rest => if liMatch (c :: rest) then [] else c :: liStrip rest

/-- One match of `_PAREN_RE = \s*\([^)]*\)?\s*` starting at this position:
returns the remainder after the match.  `[^)]*` greedily eats to the first
`)` (or to the end when there is none), then the optional `)` and trailing
spaces. -/
def parenMatch (cs : List Char) : Option (List Char) :=
  match cs.dropWhile isSp with
  | '(' :: cs2 =>
    match cs2.dropWhile (fun c => !(c = ')')) with
    | ')' :: cs4 => some (cs4.dropWhile isSp)
    | _ => some []
  | _ => none

/-- `_PAREN_RE.sub(" ")`: replace every match by one space, resuming the
scan after the replaced region. -/
def parenSub : Nat → List Char → List Char
  | 0, cs => cs
  | _ + 1, [] => []
  | fuel + 1, c :: rest =>
    match parenMatch (c :: rest) with
    | some rem => ' ' :: parenSub fuel rem
    | none => c :: parenSub fuel rest

/-- `_LOCATIONS`, lowercased and in the alternation order of
`_LOCATION_PATTERN`: sorted by length, longest first, stable (Python
`sorted(key=len, reverse=True)` on the source tuple). -/
def LOCATIONS_SORTED : List String :=
  ["thiruvananthapuram", "corporate office", "visakhapatnam", "bhubaneswar",
   "navi mumbai", "head office", "chandigarh", "coimbatore", "aurangabad",
   "singapore", "australia", "new delhi", "delhi/ncr", "bangalore",
   "bengaluru", "hyderabad", "ahmedabad", "ghaziabad", "jalandhar",
   "faridabad", "mangalore", "corporate", "gurugram", "vadodara", "jamnagar",
   "guwahati", "dehradun", "amritsar", "ludhiana", "siliguri", "varanasi",
   "jabalpur", "germany", "chennai", "kolkata", "gurgaon", "lucknow",
   "jodhpur", "udaipur", "gwalior", "london", "canada", "africa", "europe",
   "mumbai", "jaipur", "indore", "bhopal", "nagpur", "cochin", "mysore",
   "mysuru", "rajkot", "ranchi", "shimla", "kanpur", "meerut", "nashik",
   "india", "dubai", "japan", "china", "delhi", "noida", "surat", "kochi",
   "patna", "thane", "asia", "pune", "agra", "usa", "uae", "ncr", "uk", "hq"]

/-- Does `[,\s]+(?:LOCATION)\s*$` match from this position to the end?
The `[,\s]+` run is maximal (no location starts with a comma or space),
then the first alternative in pattern order that is a literal prefix with
only whitespace after it. -/
def locMatch (cs : List Char) : Bool :=
  match cs with
  | c :: _ =>
    if c = ',' || isSp c then
      let rest := cs.dropWhile (fun d => d = ',' || isSp d)
      let l := rest.map Char.toLower
      LOCATIONS_SORTED.any (fun w =>
        match dropLit w.data l with
        | some tail => tail.all isSp
        | none => false)
    else false
  | [] => false

/-- `_TRAILING_LOCATION_RE.sub("")` (anchored at `$`: the leftmost match
runs to the end of the string). -/
def locStrip : List Char → List Char
  | [] => []
  | c :: rest => if locMatch (c :: rest) then [] else c :: locStrip rest

/-- The `for _ in range(3)` loop: location strip then junk strip, stopping
early when a round changes nothing. -/
def locationJunkLoop : Nat → List Char → List Char
  | 0, s => s
  | n + 1, s =>
    let s1 := trailJunk (locStrip s)
    if s1 = s then s else locationJunkLoop n s1

/-- `re.sub(r"\s+", " ", s)`: collapse every whitespace run to a single
space (without trimming the ends). -/
def squeezeSp : List Char → List Char
  | [] => []
  | [c] => [if isSp c then ' ' else c]
  | c1 :: c2 :: rest =>
    if isSp c1 && isSp c2 then squeezeSp (c2 :: rest)
    else (if isSp c1 then ' ' else c1) :: squeezeSp (c2 :: rest)

/-- `re.sub(r"(\w)\s+&(\w)", r"\1&\2", s)`: global scan; on a match the
second word character is part of the match, so the scan resumes after
it. -/
def ampFuse : Nat → List Char → List Char
  | 0, cs => cs
  | _ + 1, [] => []
  | fuel + 1, c :: rest =>
    if isWordChar c then
      match sp1 rest with
      | some r1 =>
        match r1 with
        | '&' :: w :: r2 =>
          if isWordChar w then c :: '&' :: w :: ampFuse fuel r2
          else c :: ampFuse fuel rest
        | _ => c :: ampFuse fuel rest
      | none => c :: ampFuse fuel rest
    else c :: ampFuse fuel rest

/-- `clean_name` (lines 107–123). -/
def clean_name (label : String) : String :=
  if label = "" then ""
  else
    let s0 := stripEnds label.data
    let s1 := liStrip s0
    let s2 := parenSub (s1.length + 1) s1
    let s3 := s2.dropWhile isJunk
    let s4 := trailJunk s3
    let s5 := locationJunkLoop 3 s4
    let s6 := squeezeSp s5
    let s7 := ampFuse (s6.length + 1) s6
    ⟨stripEnds s7⟩

/-!
## Primary selection score (`primary_score`, lines 676–697)

`str.upper` / `str.lower` / `str.isupper` are modelled with the ASCII
`Char.toUpper` / `Char.toLower` / `Char.isUpper`, consistent with the
ASCII conventions of this file.
-/

/-- The alternatives of `_LEGAL_SIMPLE`. -/
def LEGAL_SIMPLE_WORDS : List String :=
  ["inc", "ltd", "llc", "corp", "plc", "gmbh", "pvt", "limited",
   "corporation", "incorporated"]

/-- One `\b(?:...)\b` alternative starting at this position (the leading
boundary is checked by the caller): a literal word followed by a non-word
character or the end. -/
def legalWordAt (l : List Char) : Bool :=
  LEGAL_SIMPLE_WORDS.any (fun w =>
    match dropLit w.data l with
    | some [] => true
    | some (c :: _) => !isWordChar c
    | none => false)

/-- `_LEGAL_SIMPLE.search`: scan positions, a match may start at the
string start or after a non-word character. -/
def legalScan : List Char → Bool → Bool
  | [], _ => false
  | c :: rest, atB =>
    (atB && legalWordAt (c :: rest)) || legalScan rest (!isWordChar c)

def legalSimpleSearch (s : String) : Bool :=
  legalScan (s.data.map Char.toLower) true

/-- Python `"  " in label` (two spaces as a substring). -/
def hasDoubleSpace : List Char → Bool
  | c1 :: c2 :: rest => (c1 = ' ' && c2 = ' ') || hasDoubleSpace (c2 :: rest)
  | _ => false

/-- The `type_bonus` dict lookup with default 0 (the `"Companny"` typo is
the source's). -/
def typeBonus (t : String) : ℚ :=
  if t = "Company" then 100
  else if t = "Companny" then 90
  else if t = "Group" then 50
  else if t = "Archived" then 10
  else 0

/-- `primary_score` (lines 676–697). -/
def primary_score (label : String) (source_type : String) : ℚ :=
  if label = "" || (stripEnds label.data).length < 2 then mkRat (-10) 1
  else
    let s1 := typeBonus source_type
    let s2 :=
      if label.data.map Char.toUpper = label.data then qadd s1 (mkRat (-1) 1)
      else if label.data.map Char.toLower = label.data then qadd s1 (mkRat (-1) 1)
      else if (match label.data with | c :: _ => c.isUpper | [] => false) then
        qadd s1 (mkRat 2 1)
      else s1
    let s3 := if legalSimpleSearch label then qadd s2 (mkRat 1 1) else s2
    let length := (stripEnds label.data).length
    let s4 :=
      if 5 ≤ length then
        qadd s3 (if mkRat (length : Int) 30 ≤ 1 then mkRat (length : Int) 30 else 1)
      else s3
    if hasDoubleSpace label.data || !(stripEnds label.data == label.data) then
      qadd s4 (mkRat (-1) 1)
    else s4

/-!
## Union-Find (lines 640–672)

The model keeps the key-insertion order in `dom` and the parent/rank maps
as total functions that default to `parent x = x`, `rank x = 0` — exactly
the values `find` initializes missing keys with.  Path compression is not
modelled: it rewires parents onto the root that `find` returns, so it
changes neither any node's root, nor the ranks, nor the key set, and
`groups()` — which only reads roots — is unaffected.  `findRoot` follows
parent links with fuel `|dom| + 1`; parent chains produced by `union` are
acyclic and stay within `dom`, so the fuel is never exhausted (and the
partition facts proved below hold for any root map regardless).
-/

structure UF where
  dom : List Nat
  parent : Nat → Nat
  rank : Nat → Nat

def UF.empty : UF := ⟨[], fun x => x, fun _ => 0⟩

/-- The key-initialization part of `find`. -/
def UF.add (u : UF) (x : Nat) : UF :=
  if u.dom.contains x then u else ⟨u.dom ++ [x], u.parent, u.rank⟩

def UF.findRoot (u : UF) : Nat → Nat → Nat
  | 0, x => x
  | fuel + 1, x => if u.parent x = x then x else u.findRoot fuel (u.parent x)

def UF.rootOf (u : UF) (x : Nat) : Nat := u.findRoot (u.dom.length + 1) x

/-- `find`: initialize the key, then follow parents to the root. -/
def UF.find (u : UF) (x : Nat) : UF × Nat :=
  let u' := u.add x
  (u', u'.rootOf x)

/-- `union` by rank (lines 655–663). -/
def UF.union (u : UF) (x y : Nat) : UF :=
  let p1 := u.find x
  let p2 := p1.1.find y
  let u2 := p2.1
  let rx := p1.2
  let ry := p2.2
  if rx = ry then u2
  else
    let rx' := if u2.rank rx < u2.rank ry then ry else rx
    let ry' := if u2.rank rx < u2.rank ry then rx else ry
    let u3 : UF := ⟨u2.dom, fun z => if z = ry' then rx' else u2.parent z, u2.rank⟩
    if u3.rank rx' = u3.rank ry' then
      ⟨u3.dom, u3.parent,
       fun z => if z = rx' then u3.rank rx' + 1 else u3.rank z⟩
    else u3

/-- Deduplicate a `Nat` list keeping first occurrences. -/
def dedupNatAux : List Nat → List Nat → List Nat
  | [], _ => []
  | x :: xs, seen =>
    if seen.contains x then dedupNatAux xs seen
    else x :: dedupNatAux xs (x :: seen)

def dedupNat (l : List Nat) : List Nat := dedupNatAux l []

/-- `groups()` (lines 667–672): key every initialized id by its root; the
result lists each root (in first-encounter order over `dom`) with the ids
that resolve to it. -/
def UF.groups (u : UF) : List (Nat × List Nat) :=
  (dedupNat (u.dom.map u.rootOf)).map
    (fun r => (r, u.dom.filter (fun x => u.rootOf x = r)))

/-!
## The main pipeline (`main`, lines 762–1011)

The database I/O around the algorithm is not modelled: the input is the
list of `(id, label, type)` rows that the `masters` query returns (with
nullable columns as `Option String`), the output is the list of tuples
the insert loop appends to `batch_data`, in order.  Python dicts are
modelled as association lists with insert-or-replace (`dinsert`), so
later bindings win and iteration order is insertion order, as in Python.
Python iterates `candidate_pairs` (a set) in an unspecified order; the
model fixes the order block-dict by block-dict with first occurrences
kept.  The accept/reject decision for a pair does not depend on the
iteration order, so the connected components — and with them everything
the claims below speak about — are the same for every order; only which
member of a component ends up as its root may differ, and no claim
mentions roots.  Likewise a group's member set is iterated in `dom`
order rather than Python's set order; the primary selection sorts by
score with ties broken by iteration order, so the choice among
equal-scored members is implementation-defined in the source and fixed
to `dom` order here.
-/

/-- Insert-or-replace into an association list (Python `d[k] = v`): an
existing binding keeps its position, so keys occur at most once and in
first-insertion order. -/
def dinsert (m : List (Nat × α)) (k : Nat) (v : α) : List (Nat × α) :=
  match m with
  | [] => [(k, v)]
  | (k', v') :: rest =>
    if k' = k then (k, v) :: rest else (k', v') :: dinsert rest k v

/-- Python `d.get(k)`. -/
def dget (m : List (Nat × α)) (k : Nat) : Option α :=
  (m.find? (fun p => p.1 = k)).map (fun p => p.2)

/-- One entry of `all_records`:
`(rid, cleaned, original, rtype, is_valid, reason)` (line 772). -/
structure ARec where
  rid : Nat
  cleaned : String
  original : String
  rtype : String
  is_valid : Nat
  reason : Option String

/-- One tuple appended to `batch_data` (line 1002):
`(company_name, original_name, master_id, source_type, group_id,
is_primary, is_valid, filter_reason)`. -/
structure OutRow where
  company_name : String
  original_name : String
  master_id : Nat
  source_type : String
  group_id : Nat
  is_primary : Nat
  is_valid : Nat
  filter_reason : Option String
  deriving DecidableEq

/-- The clean-and-classify loop (lines 765–772). -/
def mkARec (row : Nat × Option String × Option String) : ARec :=
  let original := row.2.1.getD ""
  let cleaned := clean_name original
  let reason := classify_garbage cleaned
  { rid := row.1
    cleaned := cleaned
    original := original
    rtype := row.2.2.getD "Unknown"
    is_valid := if reason.isSome then 0 else 1
    reason := reason }

/-- `token_signature` (lines 533–535). -/
def token_signature (normalized : String) : String :=
  joinWords (pySorted strLe
    ((splitWs normalized).filter (fun t => !STOPWORDS.contains t && t.length > 1)))

/-- `defaultdict(set)` insertion `bd[key].add(rid)`: sets of ids are kept
as duplicate-free lists in insertion order. -/
def blockInsert (m : List (String × List Nat)) (k : String) (rid : Nat) :
    List (String × List Nat) :=
  match m with
  | [] => [(k, [rid])]
  | (k', mem) :: rest =>
    if k' = k then
      (k', if mem.contains rid then mem else mem ++ [rid]) :: rest
    else (k', mem) :: blockInsert rest k rid

/-- The per-record updates of the six blocking dicts (lines 790–806),
folded over `id_to_norm.items()`.  The state is the six dicts in source
order: prefix3, prefix4, token, first_word, word_prefix, compound. -/
def blockStep (st : List (List (String × List Nat))) (rid : Nat) (norm : String) :
    List (List (String × List Nat)) :=
  match st with
  | [b3, b4, btok, bfw, bwp, bcomp] =>
    let b3 := if 3 ≤ norm.length then blockInsert b3 (⟨norm.data.take 3⟩) rid else b3
    let b4 := if 4 ≤ norm.length then blockInsert b4 (⟨norm.data.take 4⟩) rid else b4
    let tsig := token_signature norm
    let btok :=
      if tsig ≠ "" ∧ 1 < (splitWs tsig).length then blockInsert btok tsig rid
      else btok
    let words := (splitWs norm).filter (fun w => !STOPWORDS.contains w && 2 < w.length)
    let bfw :=
      match words with
      | w0 :: _ => blockInsert bfw w0 rid
      | [] => bfw
    let bwp := words.foldl
      (fun b w => if 4 < w.length then blockInsert b (⟨w.data.take 5⟩) rid else b) bwp
    let bcomp :=
      match words with
      | w0 :: w1 :: _ => blockInsert bcomp (w0 ++ "_" ++ ⟨w1.data.take 3⟩) rid
      | _ => bcomp
    [b3, b4, btok, bfw, bwp, bcomp]
  | other => other

/-- All ordered pairs `(ml[i], ml[j])`, `i < j`, of a sorted member
list. -/
def allPairs : List Nat → List (Nat × Nat)
  | [] => []
  | x :: xs => xs.map (fun y => (x, y)) ++ allPairs xs

/-- Candidate pairs contributed by one block dict (lines 808–816): blocks
of size `2..MAX_BLOCK`, members sorted ascending. -/
def blockPairs (m : List (String × List Nat)) : List (Nat × Nat) :=
  m.flatMap (fun kv =>
    if kv.2.length < 2 || MAX_BLOCK < kv.2.length then []
    else allPairs (sortNat kv.2))

/-- Deduplicate id pairs keeping first occurrences (`candidate_pairs` is
a Python set). -/
def dedupPairsAux : List (Nat × Nat) → List (Nat × Nat) → List (Nat × Nat)
  | [], _ => []
  | p :: ps, seen =>
    if seen.contains p then dedupPairsAux ps seen
    else p :: dedupPairsAux ps (p :: seen)

def dedupPairs (l : List (Nat × Nat)) : List (Nat × Nat) := dedupPairsAux l []

/-- The scoring loop body (lines 825–843): skip empty norms, union exact
normalized matches unconditionally, otherwise union when `should_merge`
accepts the composite score. -/
def scoreStep (normOf : Nat → String) (u : UF) (p : Nat × Nat) : UF :=
  let na := normOf p.1
  let nb := normOf p.2
  if na = "" || nb = "" then u
  else if na = nb then u.union p.1 p.2
  else if should_merge na nb (composite_score na nb) then u.union p.1 p.2
  else u

def MAX_GROUP_SIZE : Nat := 50

def TIGHT_THRESHOLD : ℚ := mkRat 90 100

/-- The per-group sub-Union-Find of the splitter (lines 863–881 and again
893–920): initialize every member, then union the pairs that are exact
normalized matches or score at least `TIGHT_THRESHOLD` *and* pass
`should_merge`. -/
def subUF (member_list : List Nat) (normOf : Nat → String) : UF :=
  let u0 := member_list.foldl (fun u mid => (u.find mid).1) UF.empty
  (allPairs member_list).foldl
    (fun u p =>
      let na := normOf p.1
      let nb := normOf p.2
      if na = "" || nb = "" then u
      else if na = nb then u.union p.1 p.2
      else
        let sc := composite_score na nb
        if TIGHT_THRESHOLD ≤ sc ∧ should_merge na nb sc then u.union p.1 p.2
        else u)
    u0

/-- The splitting pass (lines 850–931).  In the rebuild, the source
recreates each oversized group's `sub_uf` alongside `uf2`, but only ever
writes to it (the accept tests do not read `sub_uf`), so the model tracks
only `uf2`. -/
def splitPhase (u : UF) (normOf : Nat → String) : UF :=
  let raw_groups := u.groups
  let oversized := raw_groups.filter (fun g => MAX_GROUP_SIZE < g.2.length)
  if oversized.isEmpty then u
  else
    let split_count :=
      (oversized.filter (fun g =>
        1 < ((subUF (sortNat g.2) normOf).groups).length)).length
    if split_count = 0 then u
    else
      let u1 := raw_groups.foldl
        (fun acc g =>
          if (oversized.map (fun o => o.1)).contains g.1 then acc
          else
            match sortNat g.2 with
            | [] => acc
            | m0 :: rest => rest.foldl (fun a mk => a.union m0 mk) acc)
        UF.empty
      oversized.foldl
        (fun acc g =>
          (allPairs (sortNat g.2)).foldl
            (fun a p =>
              let na := normOf p.1
              let nb := normOf p.2
              if na = "" || nb = "" then a
              else if na = nb then a.union p.1 p.2
              else
                let sc := composite_score na nb
                if TIGHT_THRESHOLD ≤ sc ∧ should_merge na nb sc then
                  a.union p.1 p.2
                else a)
            acc)
        u1

/-- Descending-by-score comparison for the stable member sort:
`le a b` keeps `a` in front of a newly inserted `b`. -/
def descByScore (a b : Nat × String × ℚ) : Bool := decide (b.2.2 ≤ a.2.2)

/-- `scored_members` after `.sort(key=..., reverse=True)` (lines 941–954):
each member with its cleaned name and `primary_score`, stably sorted by
score descending. -/
def sortedScored (cleanedOf typeOf : Nat → String) (members : List Nat) :
    List (Nat × String × ℚ) :=
  pySorted descByScore (members.map (fun mid =>
    (mid, cleanedOf mid, primary_score (cleanedOf mid) (typeOf mid))))

/-- `best_id = scored_members[0][0]` (line 955). -/
def bestOf (cleanedOf typeOf : Nat → String) (members : List Nat) : Nat :=
  match sortedScored cleanedOf typeOf members with
  | [] => 0
  | best :: _ => best.1

/-- The selection loop body for one group (lines 940–956): every member
is mapped to `best_id` and flagged primary iff it is `best_id`.  The
state is `(id_to_group, id_is_primary)`. -/
def selectGroup (cleanedOf typeOf : Nat → String)
    (st : List (Nat × Nat) × List (Nat × Nat)) (members : List Nat) :
    List (Nat × Nat) × List (Nat × Nat) :=
  match sortedScored cleanedOf typeOf members with
  | [] => st
  | best :: rest =>
    ((best :: rest).foldl (fun m2 m => dinsert m2 m.1 best.1) st.1,
     (best :: rest).foldl
       (fun m2 m => dinsert m2 m.1 (if m.1 = best.1 then 1 else 0)) st.2)

/-- The singleton loop (lines 958–962): every id with a cleaned name that
was never grouped becomes its own group and primary. -/
def addSingletons (cleanedIds : List Nat)
    (st : List (Nat × Nat) × List (Nat × Nat)) :
    List (Nat × Nat) × List (Nat × Nat) :=
  cleanedIds.foldl
    (fun st2 rid =>
      if (dget st2.1 rid).isSome then st2
      else (dinsert st2.1 rid rid, dinsert st2.2 rid 1))
    st

/-- One output tuple of the insert loop (lines 994–1002). -/
def rowOf (id_to_group id_is_primary : List (Nat × Nat)) (r : ARec) : OutRow :=
  if r.is_valid = 1 then
    { company_name := r.cleaned
      original_name := r.original
      master_id := r.rid
      source_type := r.rtype
      group_id := (dget id_to_group r.rid).getD r.rid
      is_primary := (dget id_is_primary r.rid).getD 1
      is_valid := r.is_valid
      filter_reason := r.reason }
  else
    { company_name := r.cleaned
      original_name := r.original
      master_id := r.rid
      source_type := r.rtype
      group_id := r.rid
      is_primary := 0
      is_valid := r.is_valid
      filter_reason := r.reason }

/-- `all_records` (lines 765–772). -/
def allRecords (rows : List (Nat × Option String × Option String)) : List ARec :=
  rows.map mkARec

/-- `valid_records` (line 778). -/
def validRecords (ars : List ARec) : List (Nat × String) :=
  (ars.filter (fun r => r.is_valid = 1 && r.cleaned ≠ "")).map
    (fun r => (r.rid, r.cleaned))

/-- `id_to_cleaned` (line 779). -/
def idToCleaned (vr : List (Nat × String)) : List (Nat × String) :=
  vr.foldl (fun m p => dinsert m p.1 p.2) []

/-- `id_to_norm` (line 780). -/
def idToNorm (vr : List (Nat × String)) : List (Nat × String) :=
  vr.foldl (fun m p => dinsert m p.1 (normalize p.2)) []

/-- `id_to_type` (line 781). -/
def idToType (ars : List ARec) : List (Nat × String) :=
  ars.foldl (fun m r => dinsert m r.rid r.rtype) []

/-- The six blocking dicts (lines 786–806). -/
def blocksOf (n : List (Nat × String)) : List (List (String × List Nat)) :=
  n.foldl (fun st p => blockStep st p.1 p.2) [[], [], [], [], [], []]

/-- `candidate_pairs` (lines 808–816). -/
def candidatePairs (n : List (Nat × String)) : List (Nat × Nat) :=
  dedupPairs ((blocksOf n).flatMap blockPairs)

/-- `id_to_norm.get(rid, "")`. -/
def normOfD (n : List (Nat × String)) : Nat → String :=
  fun rid => (dget n rid).getD ""

/-- The scored-and-split Union-Find (lines 822–931). -/
def mainUF (n : List (Nat × String)) : UF :=
  splitPhase ((candidatePairs n).foldl (scoreStep (normOfD n)) UF.empty) (normOfD n)

/-- `id_to_group` and `id_is_primary` (lines 937–962). -/
def selectionState (groups : List (Nat × List Nat)) (singletonIds : List Nat)
    (cleanedOf typeOf : Nat → String) :
    List (Nat × Nat) × List (Nat × Nat) :=
  addSingletons singletonIds
    (groups.foldl (fun st g => selectGroup cleanedOf typeOf st g.2) ([], []))

/-- The whole of `main` after the load (lines 762–1011), from the input
rows to the inserted tuples in order. -/
def balancedResult (rows : List (Nat × Option String × Option String)) :
    List OutRow :=
  let all_records := allRecords rows
  let id_to_cleaned := idToCleaned (validRecords all_records)
  let id_to_norm := idToNorm (validRecords all_records)
  let st := selectionState (mainUF id_to_norm).groups
    (id_to_cleaned.map (fun p => p.1))
    (fun rid => (dget id_to_cleaned rid).getD "")
    (fun rid => (dget (idToType all_records) rid).getD "Company")
  all_records.map (rowOf st.1 st.2)

/-- C5 (counterexample): not every all-digit string classifies as
`numeric_only` — the length test comes first, so the all-digit string
`"12"` is classified `too_short`, not `numeric_only`. -/
theorem c5_digits_classified_too_short :
    classify_garbage "12" = some "too_short (2 chars)" ∧
    classify_garbage "12" ≠ some "numeric_only" := by decide

/-- C5 (amended): `classify_garbage` applies its reasons in priority
order: any nonempty string of at most 2 characters is `too_short` (with
the length interpolated into the reason, even when it is all digits);
any all-digit string of length at least 3 is `numeric_only`; and the
strings `"test"`, `"n/a"`, `"tbd"` are `placeholder`. -/
theorem c5_classify_priority (s : String) :
    (s ≠ "" → s.length ≤ 2 →
      classify_garbage s = some ("too_short (" ++ toString s.length ++ " chars)")) ∧
    (s.data.all Char.isDigit = true → 3 ≤ s.length →
      classify_garbage s = some "numeric_only") ∧
    (classify_garbage "test" = some "placeholder" ∧
     classify_garbage "n/a" = some "placeholder" ∧
     classify_garbage "tbd" = some "placeholder") := by
  refine ⟨fun hne hle => ?_, fun hdig hlen => ?_, by decide⟩
  · simp only [classify_garbage]
    rw [if_neg hne, if_pos hle]
  · have hlen' : 3 ≤ s.data.length := hlen
    obtain ⟨c, cs, hcs⟩ : ∃ c cs, s.data = c :: cs := by
      cases h : s.data with
      | nil => rw [h] at hlen'; simp at hlen'
      | cons c cs => exact ⟨c, cs, rfl⟩
    have hne : s ≠ "" := by
      intro h
      rw [h] at hcs
      exact absurd hcs (by simp)
    have hcdig : c.isDigit = true :=
      List.all_eq_true.mp hdig c (by rw [hcs]; exact List.mem_cons_self c cs)
    have hspec : specialOnlyMatch s = false := by
      have hall : s.data.all specialOnlyChar = false :=
        List.all_eq_false.mpr
          ⟨c, by rw [hcs]; exact List.mem_cons_self c cs,
           by simp [specialOnlyChar, Char.isAlphanum, hcdig]⟩
      simp [specialOnlyMatch, hall]
    have hnum : numericOnlyMatch s = true := by
      unfold numericOnlyMatch
      rw [hcs] at hdig ⊢
      simp [hdig]
    simp only [classify_garbage]
    rw [if_neg hne, if_neg (by omega), if_neg (by simp [hspec]), if_pos hnum]

/-- C5 witness: the amended priority theorem applied at the concrete
inputs `"ab"` (too short) and `"1234"` (numeric only). -/
theorem c5_classify_priority_witness :
    classify_garbage "ab" = some ("too_short (" ++ toString "ab".length ++ " chars)") ∧
    classify_garbage "1234" = some "numeric_only" :=
  ⟨(c5_classify_priority "ab").1 (by decide) (by decide),
   (c5_classify_priority "1234").2.1 (by decide) (by decide)⟩

/-! ## Association-list dictionary lemmas -/

theorem dget_cons {α : Type} (p : Nat × α) (m : List (Nat × α)) (k : Nat) :
    dget (p :: m) k = if p.1 = k then some p.2 else dget m k := by
  by_cases h : p.1 = k
  · simp [dget, List.find?_cons_of_pos, h]
  · simp [dget, List.find?_cons_of_neg, h]

theorem dget_dinsert {α : Type} (m : List (Nat × α)) (k k' : Nat) (v : α) :
    dget (dinsert m k v) k' = if k' = k then some v else dget m k' := by
  induction m with
  | nil =>
    show dget [(k, v)] k' = _
    rw [dget_cons]
    by_cases h : k' = k
    · rw [if_pos h, if_pos (Eq.symm h)]
    · rw [if_neg h, if_neg (fun hh => h (Eq.symm hh))]
  | cons p rest ih =>
    obtain ⟨pk, pv⟩ := p
    by_cases hpk : pk = k
    · subst hpk
      rw [dinsert, if_pos rfl, dget_cons, dget_cons]
      by_cases h : k' = pk
      · rw [if_pos h, if_pos (Eq.symm h)]
      · rw [if_neg h, if_neg (fun hh => h (Eq.symm hh)),
          if_neg (fun hh => h (Eq.symm hh))]
    · rw [dinsert, if_neg hpk, dget_cons, dget_cons, ih]
      by_cases h1 : pk = k'
      · have hne : ¬ k' = k := fun hh => hpk (h1.trans hh)
        rw [if_pos h1, if_neg hne, if_pos h1]
      · rw [if_neg h1, if_neg h1]

/-- A key is bound iff it occurs among the keys. -/
theorem dget_isSome_iff {α : Type} (m : List (Nat × α)) (k : Nat) :
    (dget m k).isSome ↔ k ∈ m.map (fun p => p.1) := by
  induction m with
  | nil => simp [dget]
  | cons p rest ih =>
    rw [dget_cons]
    by_cases h : p.1 = k
    · simp [h]
    · rw [if_neg h]
      simp only [List.map_cons, List.mem_cons]
      rw [ih]
      constructor
      · exact Or.inr
      · rintro (hh | hh)
        · exact absurd (Eq.symm hh) h
        · exact hh

/-- `dinsert` keeps existing keys in place and appends a new key. -/
theorem dinsert_keys {α : Type} (m : List (Nat × α)) (k : Nat) (v : α) :
    (dinsert m k v).map (fun p => p.1) =
      if k ∈ m.map (fun p => p.1) then m.map (fun p => p.1)
      else m.map (fun p => p.1) ++ [k] := by
  induction m with
  | nil => simp [dinsert]
  | cons p rest ih =>
    obtain ⟨pk, pv⟩ := p
    by_cases hpk : pk = k
    · subst hpk
      simp [dinsert]
    · rw [dinsert, if_neg hpk]
      have hne : ¬ k = pk := fun hh => hpk (Eq.symm hh)
      by_cases hk : k ∈ rest.map (fun p => p.1)
      · simp [hk, ih, hne]
      · simp [hk, ih, hne]

theorem dinsert_keys_nodup {α : Type} (m : List (Nat × α)) (k : Nat) (v : α)
    (h : (m.map (fun p => p.1)).Nodup) :
    ((dinsert m k v).map (fun p => p.1)).Nodup := by
  rw [dinsert_keys]
  by_cases hk : k ∈ m.map (fun p => p.1)
  · simpa [hk] using h
  · rw [if_neg hk]
    refine List.Nodup.append h (List.nodup_singleton k) ?_
    intro a ha hb
    rw [List.mem_singleton] at hb
    exact hk (hb ▸ ha)

section DictFold

variable {α : Type} {β : Type} (key : β → Nat) (val : β → α)

theorem dget_dfold_notmem (l : List β) (m0 : List (Nat × α)) (k : Nat)
    (h : ∀ b ∈ l, key b ≠ k) :
    dget (l.foldl (fun m b => dinsert m (key b) (val b)) m0) k = dget m0 k := by
  induction l generalizing m0 with
  | nil => rfl
  | cons b rest ih =>
    rw [List.foldl_cons, ih _ (fun c hc => h c (List.mem_cons_of_mem b hc)),
      dget_dinsert, if_neg (fun hh => h b (List.mem_cons_self b rest) (Eq.symm hh))]

theorem dget_dfold_isSome (l : List β) (m0 : List (Nat × α)) (k : Nat) :
    (dget (l.foldl (fun m b => dinsert m (key b) (val b)) m0) k).isSome ↔
      k ∈ l.map key ∨ (dget m0 k).isSome := by
  induction l generalizing m0 with
  | nil => simp
  | cons b rest ih =>
    rw [List.foldl_cons, ih]
    rw [dget_dinsert]
    by_cases h : k = key b
    · simp [h]
    · rw [if_neg h]
      simp only [List.map_cons, List.mem_cons]
      constructor
      · rintro (hh | hh)
        · exact Or.inl (Or.inr hh)
        · exact Or.inr hh
      · rintro ((hh | hh) | hh)
        · exact absurd hh h
        · exact Or.inl hh
        · exact Or.inr hh

theorem dget_dfold_mem (l : List β) (m0 : List (Nat × α)) (b : β)
    (hb : b ∈ l) (hnd : (l.map key).Nodup) :
    dget (l.foldl (fun m c => dinsert m (key c) (val c)) m0) (key b) =
      some (val b) := by
  induction l generalizing m0 with
  | nil => exact absurd hb (List.not_mem_nil b)
  | cons c rest ih =>
    rw [List.foldl_cons]
    rcases List.mem_cons.mp hb with hbc | hbr
    · subst hbc
      have hnot : ∀ d ∈ rest, key d ≠ key b := by
        intro d hd he
        have : key b ∈ rest.map key := he ▸ List.mem_map_of_mem key hd
        exact (List.nodup_cons.mp hnd).1 this
      rw [dget_dfold_notmem key val rest _ _ hnot, dget_dinsert, if_pos rfl]
    · exact ih _ hbr (List.nodup_cons.mp hnd).2

theorem dfold_keys_nodup (l : List β) (m0 : List (Nat × α))
    (h : (m0.map (fun p => p.1)).Nodup) :
    (((l.foldl (fun m b => dinsert m (key b) (val b)) m0)).map
      (fun p => p.1)).Nodup := by
  induction l generalizing m0 with
  | nil => exact h
  | cons b rest ih => exact ih _ (dinsert_keys_nodup _ _ _ h)

end DictFold

/-! ## Union-Find structure lemmas -/

theorem UF.add_dom (u : UF) (x : Nat) :
    (u.add x).dom = if u.dom.contains x then u.dom else u.dom ++ [x] := by
  rw [UF.add]
  by_cases h : u.dom.contains x = true
  · rw [if_pos h, if_pos h]
  · rw [if_neg h, if_neg h]

theorem UF.mem_add_dom (u : UF) (x y : Nat) (h : y ∈ (u.add x).dom) :
    y ∈ u.dom ∨ y = x := by
  rw [UF.add_dom] at h
  by_cases hc : u.dom.contains x = true
  · rw [if_pos hc] at h; exact Or.inl h
  · rw [if_neg hc] at h
    rcases List.mem_append.mp h with h1 | h1
    · exact Or.inl h1
    · exact Or.inr (List.mem_singleton.mp h1)

theorem UF.add_dom_nodup (u : UF) (x : Nat) (h : u.dom.Nodup) :
    (u.add x).dom.Nodup := by
  rw [UF.add_dom]
  by_cases hc : u.dom.contains x = true
  · rw [if_pos hc]; exact h
  · rw [if_neg hc]
    refine List.Nodup.append h (List.nodup_singleton x) ?_
    intro a ha hb
    rw [List.mem_singleton] at hb
    exact hc (hb ▸ List.elem_eq_true_of_mem ha)

theorem UF.add_dom_mem (u : UF) (x : Nat) : x ∈ (u.add x).dom := by
  rw [UF.add_dom]
  by_cases hc : u.dom.contains x = true
  · rw [if_pos hc]
    exact List.mem_of_elem_eq_true hc
  · rw [if_neg hc]
    exact List.mem_append.mpr (Or.inr (List.mem_singleton_self x))

theorem UF.add_dom_grows (u : UF) (x y : Nat) (h : y ∈ u.dom) :
    y ∈ (u.add x).dom := by
  rw [UF.add_dom]
  by_cases hc : u.dom.contains x = true
  · rw [if_pos hc]; exact h
  · rw [if_neg hc]; exact List.mem_append.mpr (Or.inl h)

/-- `union` initializes its two arguments and changes nothing else about
the key set. -/
theorem UF.union_dom (u : UF) (x y : Nat) :
    (u.union x y).dom = ((u.add x).add y).dom := by
  rw [UF.union]
  dsimp only
  split
  · rfl
  · split <;> split <;> rfl

theorem UF.mem_union_dom (u : UF) (x y z : Nat)
    (h : z ∈ (u.union x y).dom) : z ∈ u.dom ∨ z = x ∨ z = y := by
  rw [UF.union_dom] at h
  rcases UF.mem_add_dom _ _ _ h with h1 | h1
  · rcases UF.mem_add_dom _ _ _ h1 with h2 | h2
    · exact Or.inl h2
    · exact Or.inr (Or.inl h2)
  · exact Or.inr (Or.inr h1)

theorem UF.union_dom_nodup (u : UF) (x y : Nat) (h : u.dom.Nodup) :
    (u.union x y).dom.Nodup := by
  rw [UF.union_dom]
  exact UF.add_dom_nodup _ _ (UF.add_dom_nodup _ _ h)

theorem UF.union_dom_grows (u : UF) (x y z : Nat) (h : z ∈ u.dom) :
    z ∈ (u.union x y).dom := by
  rw [UF.union_dom]
  exact UF.add_dom_grows _ _ _ (UF.add_dom_grows _ _ _ h)

/-! ## `dedupNat` and `groups` partition facts -/

theorem mem_dedupNatAux (l seen : List Nat) (x : Nat) :
    x ∈ dedupNatAux l seen ↔ x ∈ l ∧ x ∉ seen := by
  induction l generalizing seen with
  | nil => simp [dedupNatAux]
  | cons a rest ih =>
    rw [dedupNatAux]
    by_cases ha : seen.contains a = true
    · rw [if_pos ha, ih]
      constructor
      · rintro ⟨h1, h2⟩
        exact ⟨List.mem_cons_of_mem a h1, h2⟩
      · rintro ⟨h1, h2⟩
        rcases List.mem_cons.mp h1 with h3 | h3
        · exact absurd (h3 ▸ List.mem_of_elem_eq_true ha) h2
        · exact ⟨h3, h2⟩
    · rw [if_neg ha]
      rw [List.mem_cons, ih]
      constructor
      · rintro (h1 | ⟨h1, h2⟩)
        · subst h1
          exact ⟨List.mem_cons_self x rest,
            fun hs => ha (List.elem_eq_true_of_mem hs)⟩
        · exact ⟨List.mem_cons_of_mem a h1,
            fun hs => h2 (List.mem_cons_of_mem a hs)⟩
      · rintro ⟨h1, h2⟩
        rcases List.mem_cons.mp h1 with h3 | h3
        · exact Or.inl h3
        · by_cases hxa : x = a
          · exact Or.inl hxa
          · exact Or.inr ⟨h3, fun hs => by
              rcases List.mem_cons.mp hs with h4 | h4
              · exact hxa h4
              · exact h2 h4⟩

theorem mem_dedupNat (l : List Nat) (x : Nat) : x ∈ dedupNat l ↔ x ∈ l := by
  rw [dedupNat, mem_dedupNatAux]
  simp

theorem dedupNatAux_nodup (l seen : List Nat) : (dedupNatAux l seen).Nodup := by
  induction l generalizing seen with
  | nil => exact List.nodup_nil
  | cons a rest ih =>
    rw [dedupNatAux]
    by_cases ha : seen.contains a = true
    · rw [if_pos ha]; exact ih _
    · rw [if_neg ha]
      refine List.nodup_cons.mpr ⟨?_, ih _⟩
      intro hmem
      exact ((mem_dedupNatAux _ _ _).mp hmem).2 (List.mem_cons_self a seen)

theorem dedupNat_nodup (l : List Nat) : (dedupNat l).Nodup :=
  dedupNatAux_nodup l []

/-- Every group entry is keyed by a reachable root and lists exactly the
ids resolving to it. -/
theorem UF.mem_groups (u : UF) (g : Nat × List Nat) (hg : g ∈ u.groups) :
    g.1 ∈ u.dom.map u.rootOf ∧
      g.2 = u.dom.filter (fun x => u.rootOf x = g.1) := by
  rw [UF.groups] at hg
  rcases List.mem_map.mp hg with ⟨r, hr, hre⟩
  refine ⟨?_, ?_⟩
  · rw [← hre]
    exact (mem_dedupNat _ _).mp hr
  · rw [← hre]

/-- A member of a group is an initialized id whose root is the group
key. -/
theorem UF.groups_member (u : UF) (g : Nat × List Nat) (hg : g ∈ u.groups)
    (x : Nat) (hx : x ∈ g.2) : x ∈ u.dom ∧ u.rootOf x = g.1 := by
  have h2 := (UF.mem_groups u g hg).2
  rw [h2] at hx
  exact ⟨List.mem_of_mem_filter hx, by simpa using List.of_mem_filter hx⟩

/-- Every initialized id lies in the group keyed by its root. -/
theorem UF.groups_cover (u : UF) (x : Nat) (hx : x ∈ u.dom) :
    ∃ g ∈ u.groups, x ∈ g.2 := by
  refine ⟨(u.rootOf x, u.dom.filter (fun y => u.rootOf y = u.rootOf x)), ?_, ?_⟩
  · rw [UF.groups]
    refine List.mem_map.mpr ⟨u.rootOf x, ?_, rfl⟩
    exact (mem_dedupNat _ _).mpr (List.mem_map_of_mem u.rootOf hx)
  · exact List.mem_filter.mpr ⟨hx, by simp⟩

/-- Two group entries with the same key are the same entry. -/
theorem UF.groups_key_inj (u : UF) (g g' : Nat × List Nat)
    (hg : g ∈ u.groups) (hg' : g' ∈ u.groups) (hk : g.1 = g'.1) : g = g' := by
  have h2 := (UF.mem_groups u g hg).2
  have h2' := (UF.mem_groups u g' hg').2
  obtain ⟨gk, gm⟩ := g
  obtain ⟨gk', gm'⟩ := g'
  simp only at h2 h2' hk
  subst hk
  rw [h2, h2']

/-- Groups are disjoint: a shared member forces the same entry. -/
theorem UF.groups_disjoint (u : UF) (g g' : Nat × List Nat)
    (hg : g ∈ u.groups) (hg' : g' ∈ u.groups) (x : Nat)
    (hx : x ∈ g.2) (hx' : x ∈ g'.2) : g = g' := by
  have h1 := (UF.groups_member u g hg x hx).2
  have h2 := (UF.groups_member u g' hg' x hx').2
  exact UF.groups_key_inj u g g' hg hg' (h1 ▸ h2)

/-- Group member lists are never empty. -/
theorem UF.groups_nonempty (u : UF) (g : Nat × List Nat) (hg : g ∈ u.groups) :
    g.2 ≠ [] := by
  have h1 := (UF.mem_groups u g hg).1
  have h2 := (UF.mem_groups u g hg).2
  rcases List.mem_map.mp h1 with ⟨x, hx, hre⟩
  intro hnil
  have : x ∈ g.2 := by
    rw [h2]
    exact List.mem_filter.mpr ⟨hx, by simp [hre]⟩
  rw [hnil] at this
  exact List.not_mem_nil x this

/-- Group members are drawn from `dom`, without duplicates. -/
theorem UF.groups_member_nodup (u : UF) (hnd : u.dom.Nodup)
    (g : Nat × List Nat) (hg : g ∈ u.groups) : g.2.Nodup := by
  rw [(UF.mem_groups u g hg).2]
  exact List.Nodup.filter _ hnd

/-! ## Selection-phase lemmas -/

theorem insOrd_perm {α : Type} (le : α → α → Bool) (x : α) (l : List α) :
    List.Perm (insOrd le x l) (x :: l) := by
  induction l with
  | nil => exact List.Perm.refl _
  | cons y ys ih =>
    rw [insOrd]
    by_cases h : le y x = true
    · rw [if_pos h]
      exact (ih.cons y).trans (List.Perm.swap x y ys)
    · rw [if_neg h]

theorem pySorted_perm {α : Type} (le : α → α → Bool) (l : List α) :
    List.Perm (pySorted le l) l := by
  suffices h : ∀ acc : List α,
      List.Perm (l.foldl (fun a x => insOrd le x a) acc) (acc ++ l) by
    simpa using h []
  induction l with
  | nil => intro acc; simp [List.Perm.refl]
  | cons b rest ih =>
    intro acc
    rw [List.foldl_cons]
    refine (ih _).trans ?_
    refine (List.Perm.append_right rest (insOrd_perm le b acc)).trans ?_
    have h2 : List.Perm (b :: (acc ++ rest)) (acc ++ b :: rest) :=
      List.perm_middle.symm
    simpa using h2

theorem sortedScored_perm (c t : Nat → String) (ms : List Nat) :
    List.Perm (sortedScored c t ms)
      (ms.map (fun mid => (mid, c mid, primary_score (c mid) (t mid)))) :=
  pySorted_perm _ _

/-- The ids occurring in `sortedScored` are exactly the members. -/
theorem sortedScored_fst (c t : Nat → String) (ms : List Nat) :
    List.Perm ((sortedScored c t ms).map (fun e => e.1)) ms := by
  refine ((sortedScored_perm c t ms).map _).trans ?_
  rw [List.map_map]
  show List.Perm (ms.map (fun mid => mid)) ms
  rw [List.map_id']

theorem sortedScored_mem_fst (c t : Nat → String) (ms : List Nat)
    (e : Nat × String × ℚ) (he : e ∈ sortedScored c t ms) : e.1 ∈ ms := by
  have h1 := (sortedScored_perm c t ms).mem_iff.mp he
  rcases List.mem_map.mp h1 with ⟨mid, hm, hre⟩
  rw [← hre]
  exact hm

theorem bestOf_mem (c t : Nat → String) (ms : List Nat) (h : ms ≠ []) :
    bestOf c t ms ∈ ms := by
  rw [bestOf]
  cases hs : sortedScored c t ms with
  | nil =>
    have hp := sortedScored_perm c t ms
    rw [hs] at hp
    have hnil : ms.map (fun mid => (mid, c mid, primary_score (c mid) (t mid))) = [] :=
      hp.symm.eq_nil
    exact absurd (List.map_eq_nil_iff.mp hnil) h
  | cons b rest =>
    exact sortedScored_mem_fst c t ms b (hs ▸ List.mem_cons_self b rest)

/-- What `selectGroup` writes for the members of one group (members are
assumed duplicate-free, which `groups` guarantees). -/
theorem selectGroup_dget (c t : Nat → String)
    (st : List (Nat × Nat) × List (Nat × Nat)) (ms : List Nat)
    (hnd : ms.Nodup) (x : Nat) (hx : x ∈ ms) :
    dget (selectGroup c t st ms).1 x = some (bestOf c t ms) ∧
    dget (selectGroup c t st ms).2 x =
      some (if x = bestOf c t ms then 1 else 0) := by
  cases hs : sortedScored c t ms with
  | nil =>
    have hp := sortedScored_perm c t ms
    rw [hs] at hp
    have hnil : ms.map (fun mid => (mid, c mid, primary_score (c mid) (t mid))) = [] :=
      hp.symm.eq_nil
    rw [List.map_eq_nil_iff.mp hnil] at hx
    exact absurd hx (List.not_mem_nil x)
  | cons best rest =>
    have hpf : List.Perm ((best :: rest).map (fun e => e.1)) ms := by
      rw [← hs]
      exact sortedScored_fst c t ms
    have hfst : ((best :: rest).map (fun e => e.1)).Nodup := hpf.nodup_iff.mpr hnd
    have hxm : x ∈ (best :: rest).map (fun e => e.1) := hpf.mem_iff.mpr hx
    rcases List.mem_map.mp hxm with ⟨e, he, hee⟩
    rw [selectGroup, bestOf, hs]
    dsimp only
    constructor
    · rw [← hee]
      exact dget_dfold_mem (fun e : Nat × String × ℚ => e.1)
        (fun _ => best.1) (best :: rest) st.1 e he hfst
    · rw [← hee]
      exact dget_dfold_mem (fun e : Nat × String × ℚ => e.1)
        (fun e => if e.1 = best.1 then 1 else 0) (best :: rest) st.2 e he hfst

/-- `selectGroup` leaves non-members untouched. -/
theorem selectGroup_dget_other (c t : Nat → String)
    (st : List (Nat × Nat) × List (Nat × Nat)) (ms : List Nat)
    (x : Nat) (hx : x ∉ ms) :
    dget (selectGroup c t st ms).1 x = dget st.1 x ∧
    dget (selectGroup c t st ms).2 x = dget st.2 x := by
  cases hs : sortedScored c t ms with
  | nil =>
    rw [selectGroup, hs]
    exact ⟨rfl, rfl⟩
  | cons best rest =>
    have hne : ∀ e ∈ best :: rest, (fun e : Nat × String × ℚ => e.1) e ≠ x := by
      intro e he hee
      exact hx (hee ▸ sortedScored_mem_fst c t ms e (hs ▸ he))
    rw [selectGroup, hs]
    dsimp only
    exact ⟨dget_dfold_notmem _ _ _ _ _ hne, dget_dfold_notmem _ _ _ _ _ hne⟩

/-- Selection over a list of disjoint groups: every member of every group
gets its group's `best_id` and primary flag; ids outside all groups are
untouched. -/
theorem selFold_dget (c t : Nat → String) (G : List (Nat × List Nat))
    (st0 : List (Nat × Nat) × List (Nat × Nat))
    (hndG : G.Nodup) (hndm : ∀ g ∈ G, g.2.Nodup)
    (hdisj : ∀ g ∈ G, ∀ g' ∈ G, g ≠ g' → ∀ x, x ∈ g.2 → x ∉ g'.2) :
    (∀ g ∈ G, ∀ x ∈ g.2,
      dget (G.foldl (fun st h => selectGroup c t st h.2) st0).1 x =
        some (bestOf c t g.2) ∧
      dget (G.foldl (fun st h => selectGroup c t st h.2) st0).2 x =
        some (if x = bestOf c t g.2 then 1 else 0)) ∧
    (∀ x, (∀ g ∈ G, x ∉ g.2) →
      dget (G.foldl (fun st h => selectGroup c t st h.2) st0).1 x =
        dget st0.1 x ∧
      dget (G.foldl (fun st h => selectGroup c t st h.2) st0).2 x =
        dget st0.2 x) := by
  induction G generalizing st0 with
  | nil =>
    exact ⟨fun g hg => absurd hg (List.not_mem_nil g),
      fun x _ => ⟨rfl, rfl⟩⟩
  | cons g G' ih =>
    have hndG' : G'.Nodup := (List.nodup_cons.mp hndG).2
    have hgG' : g ∉ G' := (List.nodup_cons.mp hndG).1
    have hndm' : ∀ h ∈ G', h.2.Nodup :=
      fun h hh => hndm h (List.mem_cons_of_mem g hh)
    have hdisj' : ∀ h ∈ G', ∀ h' ∈ G', h ≠ h' → ∀ x, x ∈ h.2 → x ∉ h'.2 :=
      fun h hh h' hh' hne => hdisj h (List.mem_cons_of_mem g hh) h'
        (List.mem_cons_of_mem g hh') hne
    have ihs := ih (selectGroup c t st0 g.2) hndG' hndm' hdisj'
    rw [List.foldl_cons]
    constructor
    · intro h hh x hx
      rcases List.mem_cons.mp hh with hhg | hhG'
      · subst hhg
        have hsel := selectGroup_dget c t st0 h.2
          (hndm h (List.mem_cons_self h G')) x hx
        have hxout : ∀ g' ∈ G', x ∉ g'.2 := by
          intro g' hg' hxg'
          have hne : h ≠ g' := fun he => hgG' (he ▸ hg')
          exact hdisj h (List.mem_cons_self h G') g'
            (List.mem_cons_of_mem h hg') hne x hx hxg'
        have hpres := ihs.2 x hxout
        exact ⟨hpres.1.trans hsel.1, hpres.2.trans hsel.2⟩
      · exact ihs.1 h hhG' x hx
    · intro x hxout
      have h1 := ihs.2 x (fun h hh => hxout h (List.mem_cons_of_mem g hh))
      have h2 := selectGroup_dget_other c t st0 g.2 x
        (hxout g (List.mem_cons_self g G'))
      exact ⟨h1.1.trans h2.1, h1.2.trans h2.2⟩

/-! ## Singleton-phase lemmas -/

theorem addSingletons_preserve (ids : List Nat)
    (st : List (Nat × Nat) × List (Nat × Nat)) (x v1 v2 : Nat)
    (h1 : dget st.1 x = some v1) (h2 : dget st.2 x = some v2) :
    dget (addSingletons ids st).1 x = some v1 ∧
    dget (addSingletons ids st).2 x = some v2 := by
  induction ids generalizing st with
  | nil => exact ⟨h1, h2⟩
  | cons rid rest ih =>
    rw [addSingletons] at *
    rw [List.foldl_cons]
    by_cases hs : (dget st.1 rid).isSome = true
    · rw [if_pos hs]
      exact ih st h1 h2
    · rw [if_neg hs]
      have hne : x ≠ rid := by
        intro he
        rw [he] at h1
        rw [h1] at hs
        exact hs rfl
      refine ih _ ?_ ?_
      · show dget (dinsert st.1 rid rid) x = some v1
        rw [dget_dinsert, if_neg hne]; exact h1
      · show dget (dinsert st.2 rid 1) x = some v2
        rw [dget_dinsert, if_neg hne]; exact h2

theorem addSingletons_other (ids : List Nat)
    (st : List (Nat × Nat) × List (Nat × Nat)) (x : Nat) (hx : x ∉ ids) :
    dget (addSingletons ids st).1 x = dget st.1 x ∧
    dget (addSingletons ids st).2 x = dget st.2 x := by
  induction ids generalizing st with
  | nil => exact ⟨rfl, rfl⟩
  | cons rid rest ih =>
    have hxr : x ∉ rest := fun h => hx (List.mem_cons_of_mem rid h)
    have hne : x ≠ rid := fun h => hx (h ▸ List.mem_cons_self rid rest)
    rw [addSingletons] at *
    rw [List.foldl_cons]
    by_cases hs : (dget st.1 rid).isSome = true
    · rw [if_pos hs]
      exact ih st hxr
    · rw [if_neg hs]
      have h3 := ih (dinsert st.1 rid rid, dinsert st.2 rid 1) hxr
      refine ⟨h3.1.trans ?_, h3.2.trans ?_⟩
      · show dget (dinsert st.1 rid rid) x = dget st.1 x
        rw [dget_dinsert, if_neg hne]
      · show dget (dinsert st.2 rid 1) x = dget st.2 x
        rw [dget_dinsert, if_neg hne]

theorem addSingletons_new (ids : List Nat)
    (st : List (Nat × Nat) × List (Nat × Nat)) (x : Nat) (hx : x ∈ ids)
    (h1 : dget st.1 x = none) :
    dget (addSingletons ids st).1 x = some x ∧
    dget (addSingletons ids st).2 x = some 1 := by
  induction ids generalizing st with
  | nil => exact absurd hx (List.not_mem_nil x)
  | cons rid rest ih =>
    rw [addSingletons] at *
    rw [List.foldl_cons]
    by_cases hs : (dget st.1 rid).isSome = true
    · rw [if_pos hs]
      have hne : x ≠ rid := by
        intro he
        rw [← he] at hs
        rw [h1] at hs
        exact absurd hs (by decide)
      have hxr : x ∈ rest := by
        rcases List.mem_cons.mp hx with h | h
        · exact absurd h hne
        · exact h
      exact ih st hxr h1
    · rw [if_neg hs]
      by_cases hxe : x = rid
      · subst hxe
        refine addSingletons_preserve rest _ x x 1 ?_ ?_
        · show dget (dinsert st.1 x x) x = some x
          rw [dget_dinsert, if_pos rfl]
        · show dget (dinsert st.2 x 1) x = some 1
          rw [dget_dinsert, if_pos rfl]
      · have hxr : x ∈ rest := by
          rcases List.mem_cons.mp hx with h | h
          · exact absurd h hxe
          · exact h
        refine ih _ hxr ?_
        show dget (dinsert st.1 rid rid) x = none
        rw [dget_dinsert, if_neg hxe]
        exact h1

/-! ## Blocking and Union-Find domain invariants -/

theorem blockInsert_mem (m : List (String × List Nat)) (k : String)
    (rid : Nat) (kv : String × List Nat) (hkv : kv ∈ blockInsert m k rid)
    (x : Nat) (hx : x ∈ kv.2) :
    (∃ kv2 ∈ m, x ∈ kv2.2) ∨ x = rid := by
  induction m with
  | nil =>
    rw [blockInsert] at hkv
    rcases List.mem_cons.mp hkv with h | h
    · rw [h] at hx
      exact Or.inr (List.mem_singleton.mp hx)
    · exact absurd h (List.not_mem_nil kv)
  | cons p rest ih =>
    rw [blockInsert] at hkv
    by_cases hk : p.1 = k
    · rw [if_pos hk] at hkv
      rcases List.mem_cons.mp hkv with h | h
      · rw [h] at hx
        dsimp only at hx
        by_cases hc : p.2.contains rid = true
        · rw [if_pos hc] at hx
          exact Or.inl ⟨p, List.mem_cons_self p rest, hx⟩
        · rw [if_neg hc] at hx
          rcases List.mem_append.mp hx with h2 | h2
          · exact Or.inl ⟨p, List.mem_cons_self p rest, h2⟩
          · exact Or.inr (List.mem_singleton.mp h2)
      · exact Or.inl ⟨kv, List.mem_cons_of_mem p h, hx⟩
    · rw [if_neg hk] at hkv
      rcases List.mem_cons.mp hkv with h | h
      · rw [h] at hx
        exact Or.inl ⟨p, List.mem_cons_self p rest, hx⟩
      · rcases ih h with h2 | h2
        · rcases h2 with ⟨kv2, hkv2, hx2⟩
          exact Or.inl ⟨kv2, List.mem_cons_of_mem p hkv2, hx2⟩
        · exact Or.inr h2

/-- Ids in the word-prefix fold come from the accumulator or are the
inserted id. -/
theorem blockInsertFold_mem (ws : List String) (b0 : List (String × List Nat))
    (rid : Nat) (f : String → List (String × List Nat) → List (String × List Nat))
    (hf : ∀ w b kv, kv ∈ f w b → ∀ x ∈ kv.2, (∃ kv2 ∈ b, x ∈ kv2.2) ∨ x = rid)
    (kv : String × List Nat) (hkv : kv ∈ ws.foldl (fun b w => f w b) b0)
    (x : Nat) (hx : x ∈ kv.2) :
    (∃ kv2 ∈ b0, x ∈ kv2.2) ∨ x = rid := by
  induction ws generalizing b0 with
  | nil => exact Or.inl ⟨kv, hkv, hx⟩
  | cons w rest ih =>
    rw [List.foldl_cons] at hkv
    rcases ih (f w b0) hkv with h | h
    · rcases h with ⟨kv2, hkv2, hx2⟩
      exact hf w b0 kv2 hkv2 x hx2
    · exact Or.inr h

/-- One `blockStep` only adds the processed id to the dicts. -/
theorem blockStep_mem (st : List (List (String × List Nat))) (rid : Nat)
    (norm : String) (d : List (String × List Nat))
    (hd : d ∈ blockStep st rid norm) (kv : String × List Nat)
    (hkv : kv ∈ d) (x : Nat) (hx : x ∈ kv.2) :
    (∃ d2 ∈ st, ∃ kv2 ∈ d2, x ∈ kv2.2) ∨ x = rid := by
  match st with
  | [b3, b4, btok, bfw, bwp, bcomp] =>
    rw [blockStep] at hd
    have insOr : ∀ (b : List (String × List Nat)) (k : String)
        (hb : b ∈ [b3, b4, btok, bfw, bwp, bcomp])
        (hkv2 : kv ∈ blockInsert b k rid),
        (∃ d2 ∈ [b3, b4, btok, bfw, bwp, bcomp], ∃ kv2 ∈ d2, x ∈ kv2.2)
          ∨ x = rid := by
      intro b k hb hkv2
      rcases blockInsert_mem b k rid kv hkv2 x hx with h | h
      · rcases h with ⟨kv2, hkv2m, hx2⟩
        exact Or.inl ⟨b, hb, kv2, hkv2m, hx2⟩
      · exact Or.inr h
    have keep : ∀ (b : List (String × List Nat))
        (hb : b ∈ [b3, b4, btok, bfw, bwp, bcomp]) (hkv2 : kv ∈ b),
        (∃ d2 ∈ [b3, b4, btok, bfw, bwp, bcomp], ∃ kv2 ∈ d2, x ∈ kv2.2)
          ∨ x = rid :=
      fun b hb hkv2 => Or.inl ⟨b, hb, kv, hkv2, hx⟩
    have hb3 : b3 ∈ [b3, b4, btok, bfw, bwp, bcomp] := by simp
    have hb4 : b4 ∈ [b3, b4, btok, bfw, bwp, bcomp] := by simp
    have hbtok : btok ∈ [b3, b4, btok, bfw, bwp, bcomp] := by simp
    have hbfw : bfw ∈ [b3, b4, btok, bfw, bwp, bcomp] := by simp
    have hbwp : bwp ∈ [b3, b4, btok, bfw, bwp, bcomp] := by simp
    have hbcomp : bcomp ∈ [b3, b4, btok, bfw, bwp, bcomp] := by simp
    rcases List.mem_cons.mp hd with h | hd
    · subst h
      split at hkv
      · exact insOr b3 _ hb3 hkv
      · exact keep b3 hb3 hkv
    rcases List.mem_cons.mp hd with h | hd
    · subst h
      split at hkv
      · exact insOr b4 _ hb4 hkv
      · exact keep b4 hb4 hkv
    rcases List.mem_cons.mp hd with h | hd
    · subst h
      split at hkv
      · exact insOr btok _ hbtok hkv
      · exact keep btok hbtok hkv
    rcases List.mem_cons.mp hd with h | hd
    · subst h
      split at hkv
      · next words w0 ws heq => exact insOr bfw _ hbfw hkv
      · exact keep bfw hbfw hkv
    rcases List.mem_cons.mp hd with h | hd
    · subst h
      have hf : ∀ (w : String) (b : List (String × List Nat))
          (kv2 : String × List Nat),
          kv2 ∈ (if 4 < w.length then blockInsert b ⟨w.data.take 5⟩ rid else b) →
          ∀ y ∈ kv2.2, (∃ kv3 ∈ b, y ∈ kv3.2) ∨ y = rid := by
        intro w b kv2 hkv2 y hy
        split at hkv2
        · rcases blockInsert_mem b _ rid kv2 hkv2 y hy with h2 | h2
          · exact Or.inl h2
          · exact Or.inr h2
        · exact Or.inl ⟨kv2, hkv2, hy⟩
      rcases blockInsertFold_mem _ bwp rid _ hf kv hkv x hx with h2 | h2
      · rcases h2 with ⟨kv2, hkv2, hx2⟩
        exact Or.inl ⟨bwp, hbwp, kv2, hkv2, hx2⟩
      · exact Or.inr h2
    rcases List.mem_cons.mp hd with h | hd
    · subst h
      split at hkv
      · next w0 w1 ws heq => exact insOr bcomp _ hbcomp hkv
      · exact keep bcomp hbcomp hkv
    · exact absurd hd (List.not_mem_nil d)
  | [] => exact Or.inl ⟨d, hd, kv, hkv, hx⟩
  | [a] => exact Or.inl ⟨d, hd, kv, hkv, hx⟩
  | [a, b] => exact Or.inl ⟨d, hd, kv, hkv, hx⟩
  | [a, b, c] => exact Or.inl ⟨d, hd, kv, hkv, hx⟩
  | [a, b, c, e] => exact Or.inl ⟨d, hd, kv, hkv, hx⟩
  | [a, b, c, e, f] => exact Or.inl ⟨d, hd, kv, hkv, hx⟩
  | a :: b :: c :: e :: f :: g :: h :: rest =>
    exact Or.inl ⟨d, hd, kv, hkv, hx⟩

/-- Every id in any block dict is a key of `id_to_norm`. -/
theorem blocksOf_mem (n : List (Nat × String)) (d : List (String × List Nat))
    (hd : d ∈ blocksOf n) (kv : String × List Nat) (hkv : kv ∈ d)
    (x : Nat) (hx : x ∈ kv.2) : x ∈ n.map (fun p => p.1) := by
  suffices hgen : ∀ (l : List (Nat × String)) (st0 : List (List (String × List Nat)))
      (P : Nat → Prop),
      (∀ d2 ∈ st0, ∀ kv2 ∈ d2, ∀ y ∈ kv2.2, P y) →
      (∀ p ∈ l, P p.1) →
      ∀ d2 ∈ l.foldl (fun st p => blockStep st p.1 p.2) st0,
        ∀ kv2 ∈ d2, ∀ y ∈ kv2.2, P y by
    refine hgen n [[], [], [], [], [], []] (fun y => y ∈ n.map (fun p => p.1))
      ?_ ?_ d hd kv hkv x hx
    · intro d2 hd2 kv2 hkv2 y hy
      fin_cases hd2 <;> exact absurd hkv2 (List.not_mem_nil kv2)
    · intro p hp
      exact List.mem_map_of_mem (fun q => q.1) hp
  intro l
  induction l with
  | nil => intro st0 P h0 _ d2 hd2 kv2 hkv2 y hy; exact h0 d2 hd2 kv2 hkv2 y hy
  | cons p rest ih =>
    intro st0 P h0 hl d2 hd2 kv2 hkv2 y hy
    rw [List.foldl_cons] at hd2
    refine ih (blockStep st0 p.1 p.2) P ?_
      (fun q hq => hl q (List.mem_cons_of_mem p hq)) d2 hd2 kv2 hkv2 y hy
    intro d3 hd3 kv3 hkv3 z hz
    rcases blockStep_mem st0 p.1 p.2 d3 hd3 kv3 hkv3 z hz with h | h
    · rcases h with ⟨d4, hd4, kv4, hkv4, hz4⟩
      exact h0 d4 hd4 kv4 hkv4 z hz4
    · exact h ▸ hl p (List.mem_cons_self p rest)

theorem allPairs_mem (l : List Nat) (p : Nat × Nat) (hp : p ∈ allPairs l) :
    p.1 ∈ l ∧ p.2 ∈ l := by
  induction l with
  | nil => exact absurd hp (List.not_mem_nil p)
  | cons a rest ih =>
    rw [allPairs] at hp
    rcases List.mem_append.mp hp with h | h
    · rcases List.mem_map.mp h with ⟨y, hy, hre⟩
      rw [← hre]
      exact ⟨List.mem_cons_self a rest, List.mem_cons_of_mem a hy⟩
    · have := ih h
      exact ⟨List.mem_cons_of_mem a this.1, List.mem_cons_of_mem a this.2⟩

theorem sortNat_mem (l : List Nat) (x : Nat) : x ∈ sortNat l ↔ x ∈ l :=
  (pySorted_perm _ l).mem_iff

theorem dedupPairsAux_mem (l seen : List (Nat × Nat)) (p : Nat × Nat)
    (hp : p ∈ dedupPairsAux l seen) : p ∈ l := by
  induction l generalizing seen with
  | nil => exact absurd hp (List.not_mem_nil p)
  | cons q rest ih =>
    rw [dedupPairsAux] at hp
    by_cases hq : seen.contains q = true
    · rw [if_pos hq] at hp
      exact List.mem_cons_of_mem q (ih _ hp)
    · rw [if_neg hq] at hp
      rcases List.mem_cons.mp hp with h | h
      · exact h ▸ List.mem_cons_self q rest
      · exact List.mem_cons_of_mem q (ih _ h)

/-- Candidate pair components are `id_to_norm` keys. -/
theorem candidatePairs_mem (n : List (Nat × String)) (p : Nat × Nat)
    (hp : p ∈ candidatePairs n) :
    p.1 ∈ n.map (fun q => q.1) ∧ p.2 ∈ n.map (fun q => q.1) := by
  rw [candidatePairs] at hp
  have hp2 := dedupPairsAux_mem _ _ _ hp
  rcases List.mem_flatMap.mp hp2 with ⟨d, hd, hpd⟩
  rw [blockPairs] at hpd
  rcases List.mem_flatMap.mp hpd with ⟨kv, hkv, hpkv⟩
  by_cases hsz : (kv.2.length < 2 || 350 < kv.2.length) = true
  · rw [if_pos ?_] at hpkv
    · exact absurd hpkv (List.not_mem_nil p)
    · exact hsz
  · rw [if_neg ?_] at hpkv
    · have hmem := allPairs_mem _ _ hpkv
      have h1 := (sortNat_mem kv.2 p.1).mp hmem.1
      have h2 := (sortNat_mem kv.2 p.2).mp hmem.2
      exact ⟨blocksOf_mem n d hd kv hkv p.1 h1,
        blocksOf_mem n d hd kv hkv p.2 h2⟩
    · exact hsz

/-- The scoring fold initializes only candidate-pair ids. -/
theorem scoreFold_dom (normOf : Nat → String) (cands : List (Nat × Nat))
    (u0 : UF) (P : Nat → Prop) (h0 : ∀ x ∈ u0.dom, P x)
    (hc : ∀ p ∈ cands, P p.1 ∧ P p.2) :
    ∀ x ∈ (cands.foldl (scoreStep normOf) u0).dom, P x := by
  induction cands generalizing u0 with
  | nil => exact h0
  | cons p rest ih =>
    rw [List.foldl_cons]
    refine ih (scoreStep normOf u0 p) ?_
      (fun q hq => hc q (List.mem_cons_of_mem p hq))
    intro x hx
    have hp := hc p (List.mem_cons_self p rest)
    rw [scoreStep] at hx
    split at hx
    · exact h0 x hx
    · split at hx
      · rcases UF.mem_union_dom _ _ _ _ hx with h | h | h
        · exact h0 x h
        · exact h ▸ hp.1
        · exact h ▸ hp.2
      · split at hx
        · rcases UF.mem_union_dom _ _ _ _ hx with h | h | h
          · exact h0 x h
          · exact h ▸ hp.1
          · exact h ▸ hp.2
        · exact h0 x hx

theorem scoreFold_nodup (normOf : Nat → String) (cands : List (Nat × Nat))
    (u0 : UF) (h0 : u0.dom.Nodup) :
    (cands.foldl (scoreStep normOf) u0).dom.Nodup := by
  induction cands generalizing u0 with
  | nil => exact h0
  | cons p rest ih =>
    rw [List.foldl_cons]
    refine ih (scoreStep normOf u0 p) ?_
    rw [scoreStep]
    split
    · exact h0
    · split
      · exact UF.union_dom_nodup _ _ _ h0
      · split
        · exact UF.union_dom_nodup _ _ _ h0
        · exact h0

/-- A fold of unions keeps the domain inside `P` when all unioned ids
satisfy `P`. -/
theorem unionFold_dom (l : List Nat) (m0 : Nat) (u0 : UF) (P : Nat → Prop)
    (h0 : ∀ x ∈ u0.dom, P x) (hm : P m0) (hl : ∀ x ∈ l, P x) :
    ∀ x ∈ (l.foldl (fun a mk => a.union m0 mk) u0).dom, P x := by
  induction l generalizing u0 with
  | nil => exact h0
  | cons mk rest ih =>
    rw [List.foldl_cons]
    refine ih (u0.union m0 mk) ?_ (fun y hy => hl y (List.mem_cons_of_mem mk hy))
    intro x hx
    rcases UF.mem_union_dom _ _ _ _ hx with h | h | h
    · exact h0 x h
    · exact h ▸ hm
    · exact h ▸ hl mk (List.mem_cons_self mk rest)

theorem unionFold_nodup (l : List Nat) (m0 : Nat) (u0 : UF)
    (h0 : u0.dom.Nodup) :
    (l.foldl (fun a mk => a.union m0 mk) u0).dom.Nodup := by
  induction l generalizing u0 with
  | nil => exact h0
  | cons mk rest ih =>
    rw [List.foldl_cons]
    exact ih _ (UF.union_dom_nodup _ _ _ h0)

/-- The pairwise accept-and-union fold of the splitter rebuild. -/
theorem pairFold_dom (normOf : Nat → String) (ps : List (Nat × Nat))
    (u0 : UF) (P : Nat → Prop) (h0 : ∀ x ∈ u0.dom, P x)
    (hps : ∀ p ∈ ps, P p.1 ∧ P p.2) :
    ∀ x ∈ (ps.foldl
      (fun a p =>
        let na := normOf p.1
        let nb := normOf p.2
        if na = "" || nb = "" then a
        else if na = nb then a.union p.1 p.2
        else
          let sc := composite_score na nb
          if TIGHT_THRESHOLD ≤ sc ∧ should_merge na nb sc then a.union p.1 p.2
          else a) u0).dom, P x := by
  induction ps generalizing u0 with
  | nil => exact h0
  | cons p rest ih =>
    rw [List.foldl_cons]
    have hp := hps p (List.mem_cons_self p rest)
    refine ih _ ?_ (fun q hq => hps q (List.mem_cons_of_mem p hq))
    intro x hx
    dsimp only at hx
    split at hx
    · exact h0 x hx
    · split at hx
      · rcases UF.mem_union_dom _ _ _ _ hx with h | h | h
        · exact h0 x h
        · exact h ▸ hp.1
        · exact h ▸ hp.2
      · split at hx
        · rcases UF.mem_union_dom _ _ _ _ hx with h | h | h
          · exact h0 x h
          · exact h ▸ hp.1
          · exact h ▸ hp.2
        · exact h0 x hx

theorem pairFold_nodup (normOf : Nat → String) (ps : List (Nat × Nat))
    (u0 : UF) (h0 : u0.dom.Nodup) :
    (ps.foldl
      (fun a p =>
        let na := normOf p.1
        let nb := normOf p.2
        if na = "" || nb = "" then a
        else if na = nb then a.union p.1 p.2
        else
          let sc := composite_score na nb
          if TIGHT_THRESHOLD ≤ sc ∧ should_merge na nb sc then a.union p.1 p.2
          else a) u0).dom.Nodup := by
  induction ps generalizing u0 with
  | nil => exact h0
  | cons p rest ih =>
    rw [List.foldl_cons]
    refine ih _ ?_
    dsimp only
    split
    · exact h0
    · split
      · exact UF.union_dom_nodup _ _ _ h0
      · split
        · exact UF.union_dom_nodup _ _ _ h0
        · exact h0

/-- The non-oversized re-union fold of the splitter rebuild. -/
theorem groupFold_dom (Gs : List (Nat × List Nat)) (keys : List Nat)
    (u0 : UF) (P : Nat → Prop) (h0 : ∀ x ∈ u0.dom, P x)
    (hg : ∀ g ∈ Gs, ∀ x ∈ g.2, P x) :
    ∀ x ∈ (Gs.foldl
      (fun acc g =>
        if keys.contains g.1 then acc
        else
          match sortNat g.2 with
          | [] => acc
          | m0 :: rest => rest.foldl (fun a mk => a.union m0 mk) acc)
      u0).dom, P x := by
  induction Gs generalizing u0 with
  | nil => exact h0
  | cons g Gs' ih =>
    rw [List.foldl_cons]
    refine ih _ ?_ (fun h hh => hg h (List.mem_cons_of_mem g hh))
    have hgm : ∀ x ∈ g.2, P x := hg g (List.mem_cons_self g Gs')
    by_cases hk : keys.contains g.1 = true
    · rw [if_pos hk]; exact h0
    · rw [if_neg hk]
      cases hms : sortNat g.2 with
      | nil => exact h0
      | cons m0 rest =>
        refine unionFold_dom rest m0 u0 P h0 ?_ ?_
        · exact hgm m0 ((sortNat_mem g.2 m0).mp (hms ▸ List.mem_cons_self m0 rest))
        · intro y hy
          exact hgm y ((sortNat_mem g.2 y).mp
            (hms ▸ List.mem_cons_of_mem m0 hy))

theorem groupFold_nodup (Gs : List (Nat × List Nat)) (keys : List Nat)
    (u0 : UF) (h0 : u0.dom.Nodup) :
    (Gs.foldl
      (fun acc g =>
        if keys.contains g.1 then acc
        else
          match sortNat g.2 with
          | [] => acc
          | m0 :: rest => rest.foldl (fun a mk => a.union m0 mk) acc)
      u0).dom.Nodup := by
  induction Gs generalizing u0 with
  | nil => exact h0
  | cons g Gs' ih =>
    rw [List.foldl_cons]
    refine ih _ ?_
    by_cases hk : keys.contains g.1 = true
    · rw [if_pos hk]; exact h0
    · rw [if_neg hk]
      cases hms : sortNat g.2 with
      | nil => exact h0
      | cons m0 rest => exact unionFold_nodup rest m0 u0 h0

/-- The oversized re-union fold of the splitter rebuild. -/
theorem overFold_dom (Gs : List (Nat × List Nat)) (normOf : Nat → String)
    (u0 : UF) (P : Nat → Prop) (h0 : ∀ x ∈ u0.dom, P x)
    (hg : ∀ g ∈ Gs, ∀ x ∈ g.2, P x) :
    ∀ x ∈ (Gs.foldl
      (fun acc g =>
        (allPairs (sortNat g.2)).foldl
          (fun a p =>
            let na := normOf p.1
            let nb := normOf p.2
            if na = "" || nb = "" then a
            else if na = nb then a.union p.1 p.2
            else
              let sc := composite_score na nb
              if TIGHT_THRESHOLD ≤ sc ∧ should_merge na nb sc then
                a.union p.1 p.2
              else a)
          acc)
      u0).dom, P x := by
  induction Gs generalizing u0 with
  | nil => exact h0
  | cons g Gs' ih =>
    rw [List.foldl_cons]
    refine ih _ ?_ (fun h hh => hg h (List.mem_cons_of_mem g hh))
    refine pairFold_dom normOf _ u0 P h0 ?_
    intro p hp
    have hm := allPairs_mem _ _ hp
    exact ⟨hg g (List.mem_cons_self g Gs') p.1 ((sortNat_mem g.2 p.1).mp hm.1),
      hg g (List.mem_cons_self g Gs') p.2 ((sortNat_mem g.2 p.2).mp hm.2)⟩

theorem overFold_nodup (Gs : List (Nat × List Nat)) (normOf : Nat → String)
    (u0 : UF) (h0 : u0.dom.Nodup) :
    (Gs.foldl
      (fun acc g =>
        (allPairs (sortNat g.2)).foldl
          (fun a p =>
            let na := normOf p.1
            let nb := normOf p.2
            if na = "" || nb = "" then a
            else if na = nb then a.union p.1 p.2
            else
              let sc := composite_score na nb
              if TIGHT_THRESHOLD ≤ sc ∧ should_merge na nb sc then
                a.union p.1 p.2
              else a)
          acc)
      u0).dom.Nodup := by
  induction Gs generalizing u0 with
  | nil => exact h0
  | cons g Gs' ih =>
    rw [List.foldl_cons]
    exact ih _ (pairFold_nodup normOf _ u0 h0)

/-- `splitPhase` never initializes a new id. -/
theorem splitPhase_dom (u : UF) (normOf : Nat → String) (P : Nat → Prop)
    (h0 : ∀ x ∈ u.dom, P x) :
    ∀ x ∈ (splitPhase u normOf).dom, P x := by
  rw [splitPhase]
  split
  · exact h0
  · dsimp only
    split
    · exact h0
    · have hgrp : ∀ g ∈ u.groups, ∀ x ∈ g.2, P x :=
        fun g hg x hx => h0 x (UF.groups_member u g hg x hx).1
      refine overFold_dom _ normOf _ P ?_ ?_
      · refine groupFold_dom _ _ UF.empty P ?_ hgrp
        intro x hx
        exact absurd hx (List.not_mem_nil x)
      · intro g hg x hx
        exact hgrp g (List.mem_of_mem_filter hg) x hx

theorem splitPhase_nodup (u : UF) (normOf : Nat → String)
    (h0 : u.dom.Nodup) : (splitPhase u normOf).dom.Nodup := by
  rw [splitPhase]
  split
  · exact h0
  · dsimp only
    split
    · exact h0
    · exact overFold_nodup _ normOf _
        (groupFold_nodup _ _ UF.empty List.nodup_nil)

/-! ## Output-row and record lemmas for C1 -/

theorem rowOf_is_valid (m1 m2 : List (Nat × Nat)) (b : ARec) :
    (rowOf m1 m2 b).is_valid = b.is_valid := by
  unfold rowOf; split <;> rfl

theorem rowOf_valid_gid (m1 m2 : List (Nat × Nat)) (b : ARec)
    (h : b.is_valid = 1) :
    (rowOf m1 m2 b).group_id = (dget m1 b.rid).getD b.rid := by
  unfold rowOf; rw [if_pos h]

theorem rowOf_valid_pri (m1 m2 : List (Nat × Nat)) (b : ARec)
    (h : b.is_valid = 1) :
    (rowOf m1 m2 b).is_primary = (dget m2 b.rid).getD 1 := by
  unfold rowOf; rw [if_pos h]

theorem rowOf_invalid_gid (m1 m2 : List (Nat × Nat)) (b : ARec)
    (h : ¬ b.is_valid = 1) : (rowOf m1 m2 b).group_id = b.rid := by
  unfold rowOf; rw [if_neg h]

theorem rowOf_invalid_pri (m1 m2 : List (Nat × Nat)) (b : ARec)
    (h : ¬ b.is_valid = 1) : (rowOf m1 m2 b).is_primary = 0 := by
  unfold rowOf; rw [if_neg h]

theorem allRecords_rid_map (rows : List (Nat × Option String × Option String)) :
    (allRecords rows).map (fun b => b.rid) = rows.map (fun r => r.1) := by
  rw [allRecords, List.map_map]
  exact List.map_congr_left (fun a _ => rfl)

/-- A valid record has a nonempty cleaned name: `classify_garbage ""`
returns `"empty"`, which would have flagged it invalid. -/
theorem valid_cleaned_ne (b : ARec) (rows : List (Nat × Option String × Option String))
    (hb : b ∈ allRecords rows) (hv : b.is_valid = 1) : b.cleaned ≠ "" := by
  rcases List.mem_map.mp hb with ⟨row, _, hre⟩
  intro hc
  rw [← hre] at hv hc
  rw [mkARec] at hv hc
  dsimp only at hv hc
  rw [hc] at hv
  simp [classify_garbage] at hv

/-- A valid record's id is a `valid_records` key. -/
theorem valid_rid_mem (A : List ARec) (b : ARec) (hb : b ∈ A)
    (hv : b.is_valid = 1) (hc : b.cleaned ≠ "") :
    b.rid ∈ (validRecords A).map (fun p => p.1) := by
  rw [validRecords, List.map_map]
  refine List.mem_map.mpr ⟨b, ?_, rfl⟩
  refine List.mem_filter.mpr ⟨hb, ?_⟩
  rw [Bool.and_eq_true]
  exact ⟨by simpa using hv, by simpa using hc⟩

/-- Conversely a `valid_records` key is the id of some valid record. -/
theorem mem_VR_elim (A : List ARec) (x : Nat)
    (hx : x ∈ (validRecords A).map (fun p => p.1)) :
    ∃ b ∈ A, b.is_valid = 1 ∧ b.cleaned ≠ "" ∧ b.rid = x := by
  rw [validRecords, List.map_map] at hx
  rcases List.mem_map.mp hx with ⟨b, hb, hre⟩
  have hf := List.mem_filter.mp hb
  rw [Bool.and_eq_true] at hf
  exact ⟨b, hf.1, by simpa using hf.2.1, by simpa using hf.2.2, hre⟩

theorem validRecords_keys_nodup (rows : List (Nat × Option String × Option String))
    (hnd : (rows.map (fun r => r.1)).Nodup) :
    ((validRecords (allRecords rows)).map (fun p => p.1)).Nodup := by
  rw [validRecords, List.map_map]
  have hsub : List.Sublist
      (((allRecords rows).filter
        (fun r => r.is_valid = 1 && r.cleaned ≠ "")).map (fun b => b.rid))
      ((allRecords rows).map (fun b => b.rid)) :=
    (List.filter_sublist _).map _
  rw [allRecords_rid_map] at hsub
  exact List.Nodup.sublist hsub hnd

/-- Counting lemma: a filter keeps exactly one element when some element
passes and every passing element agrees on an injective key. -/
theorem filter_length_one {α : Type} (l : List α) (p : α → Bool) (f : α → Nat)
    (hnd : (l.map f).Nodup) (a : α) (ha : a ∈ l) (hpa : p a = true)
    (huniq : ∀ b ∈ l, p b = true → f b = f a) :
    (l.filter p).length = 1 := by
  induction l with
  | nil => exact absurd ha (List.not_mem_nil a)
  | cons x xs ih =>
    rw [List.map_cons, List.nodup_cons] at hnd
    rw [List.filter_cons]
    by_cases hpx : p x = true
    · rw [if_pos hpx]
      rw [List.length_cons]
      have hfx : f x = f a := huniq x (List.mem_cons_self x xs) hpx
      have hz : xs.filter p = [] := by
        rw [List.filter_eq_nil_iff]
        intro b hb hpb
        have hfb : f b = f a := huniq b (List.mem_cons_of_mem x hb) hpb
        exact hnd.1 (hfb.trans hfx.symm ▸ List.mem_map_of_mem f hb)
      rw [hz]
      rfl
    · rw [if_neg hpx]
      have hax : a ≠ x := fun he => hpx (he ▸ hpa)
      have ha' : a ∈ xs := by
        rcases List.mem_cons.mp ha with h | h
        · exact absurd h hax
        · exact h
      exact ih hnd.2 ha' (fun b hb hpb => huniq b (List.mem_cons_of_mem x hb) hpb)

theorem filter_length_zero {α : Type} (l : List α) (p : α → Bool)
    (hall : ∀ b ∈ l, p b = false) : (l.filter p).length = 0 := by
  rw [List.filter_eq_nil_iff.mpr (fun b hb => by rw [hall b hb]; exact fun h => by cases h)]
  rfl

/-- All main Union-Find keys are `id_to_norm` keys. -/
theorem mainUF_dom (N : List (Nat × String)) :
    ∀ x ∈ (mainUF N).dom, x ∈ N.map (fun p => p.1) := by
  rw [mainUF]
  refine splitPhase_dom _ _ _ ?_
  refine scoreFold_dom _ _ _ _ ?_ ?_
  · intro x hx
    exact absurd hx (List.not_mem_nil x)
  · intro p hp
    exact candidatePairs_mem N p hp

theorem mainUF_nodup (N : List (Nat × String)) : (mainUF N).dom.Nodup := by
  rw [mainUF]
  exact splitPhase_nodup _ _ (scoreFold_nodup _ _ _ List.nodup_nil)

/-- `groups` entries are pairwise distinct. -/
theorem UF.groups_nodup (u : UF) : u.groups.Nodup := by
  rw [UF.groups]
  refine List.Nodup.map ?_ (dedupNat_nodup _)
  intro r r' h
  exact congrArg Prod.fst h

/-- Keys of the `id_to_norm` dict are the `valid_records` ids. -/
theorem idToNorm_keys (VR : List (Nat × String)) (x : Nat) :
    x ∈ (idToNorm VR).map (fun p => p.1) ↔ x ∈ VR.map (fun p => p.1) := by
  rw [← dget_isSome_iff, idToNorm]
  rw [dget_dfold_isSome (fun p : Nat × String => p.1)
    (fun p => normalize p.2) VR [] x]
  simp [dget]

theorem idToCleaned_keys (VR : List (Nat × String)) (x : Nat) :
    x ∈ (idToCleaned VR).map (fun p => p.1) ↔ x ∈ VR.map (fun p => p.1) := by
  rw [← dget_isSome_iff, idToCleaned]
  rw [dget_dfold_isSome (fun p : Nat × String => p.1) (fun p => p.2) VR [] x]
  simp [dget]

/-- Counting primaries over the insert-phase output, abstracted over the
stage results: given the Union-Find partition facts and the contents the
selection phase wrote into `id_to_group` (`m1`) and `id_is_primary`
(`m2`), every valid row's group id marks exactly one primary row and
every invalid row's group id marks none. -/
theorem primary_count_master (AR : List ARec) (U : UF)
    (m1 m2 : List (Nat × Nat)) (cFn tFn : Nat → String)
    (hARnd : (AR.map (fun b => b.rid)).Nodup)
    (hdom : ∀ x ∈ U.dom, x ∈ (validRecords AR).map (fun p => p.1))
    (hvne : ∀ b ∈ AR, b.is_valid = 1 → b.cleaned ≠ "")
    (h1 : ∀ g ∈ U.groups, ∀ x ∈ g.2,
      dget m1 x = some (bestOf cFn tFn g.2) ∧
      dget m2 x = some (if x = bestOf cFn tFn g.2 then 1 else 0))
    (h2 : ∀ x, x ∈ (validRecords AR).map (fun p => p.1) → x ∉ U.dom →
      dget m1 x = some x ∧ dget m2 x = some 1) :
    (∀ r ∈ AR.map (rowOf m1 m2), r.is_valid = 1 →
      ((AR.map (rowOf m1 m2)).filter
        (fun r2 => r2.group_id = r.group_id && r2.is_primary = 1)).length = 1) ∧
    (∀ r ∈ AR.map (rowOf m1 m2), r.is_valid ≠ 1 →
      ((AR.map (rowOf m1 m2)).filter
        (fun r2 => r2.group_id = r.group_id && r2.is_primary = 1)).length = 0) := by
  have hvgid : ∀ b ∈ AR, b.is_valid = 1 → b.rid ∈ U.dom →
      ∃ g ∈ U.groups, b.rid ∈ g.2 ∧
        (rowOf m1 m2 b).group_id = bestOf cFn tFn g.2 ∧
        (rowOf m1 m2 b).is_primary =
          (if b.rid = bestOf cFn tFn g.2 then 1 else 0) := by
    intro b hb hv hd
    obtain ⟨g, hg, hxg⟩ := UF.groups_cover U b.rid hd
    have hst := h1 g hg b.rid hxg
    refine ⟨g, hg, hxg, ?_, ?_⟩
    · rw [rowOf_valid_gid _ _ _ hv, hst.1]
      rfl
    · rw [rowOf_valid_pri _ _ _ hv, hst.2]
      rfl
  have hvsing : ∀ b ∈ AR, b.is_valid = 1 → b.rid ∉ U.dom →
      (rowOf m1 m2 b).group_id = b.rid ∧ (rowOf m1 m2 b).is_primary = 1 := by
    intro b hb hv hd
    have hk := valid_rid_mem AR b hb hv (hvne b hb hv)
    have hst := h2 b.rid hk hd
    constructor
    · rw [rowOf_valid_gid _ _ _ hv, hst.1]
      rfl
    · rw [rowOf_valid_pri _ _ _ hv, hst.2]
      rfl
  constructor
  · intro r hr hv
    rcases List.mem_map.mp hr with ⟨b0, hb0, rfl⟩
    rw [rowOf_is_valid] at hv
    rw [List.filter_map, List.length_map]
    by_cases hd0 : b0.rid ∈ U.dom
    · obtain ⟨g0, hg0, hxg0, hgid0, hpri0⟩ := hvgid b0 hb0 hv hd0
      have hg0ne := UF.groups_nonempty U g0 hg0
      have hBmem : bestOf cFn tFn g0.2 ∈ g0.2 := bestOf_mem cFn tFn g0.2 hg0ne
      have hBdom : bestOf cFn tFn g0.2 ∈ U.dom :=
        (UF.groups_member U g0 hg0 _ hBmem).1
      obtain ⟨b1, hb1, hb1v, hb1c, hb1rid⟩ := mem_VR_elim AR _ (hdom _ hBdom)
      have hst1 := h1 g0 hg0 _ hBmem
      have hb1gid : (rowOf m1 m2 b1).group_id = bestOf cFn tFn g0.2 := by
        rw [rowOf_valid_gid _ _ _ hb1v, hb1rid, hst1.1]
        rfl
      have hb1pri : (rowOf m1 m2 b1).is_primary = 1 := by
        rw [rowOf_valid_pri _ _ _ hb1v, hb1rid, hst1.2, if_pos rfl]
        rfl
      refine filter_length_one AR _ (fun b => b.rid) hARnd b1 hb1 ?_ ?_
      · simp [Function.comp, hb1gid, hb1pri, hgid0]
      · intro b hb hpb
        have hpb' : (rowOf m1 m2 b).group_id = (rowOf m1 m2 b0).group_id ∧
            (rowOf m1 m2 b).is_primary = 1 := by
          simpa [Function.comp] using hpb
        by_cases hbv : b.is_valid = 1
        · by_cases hbd : b.rid ∈ U.dom
          · obtain ⟨g1, hg1, hxg1, hgid1, hpri1⟩ := hvgid b hb hbv hbd
            have hbB : b.rid = bestOf cFn tFn g1.2 := by
              by_cases h : b.rid = bestOf cFn tFn g1.2
              · exact h
              · have hc := hpb'.2
                rw [hpri1, if_neg h] at hc
                exact absurd hc (by decide)
            have hgeq : bestOf cFn tFn g1.2 = bestOf cFn tFn g0.2 := by
              have hc := hpb'.1
              rw [hgid1, hgid0] at hc
              exact hc
            have hBg1mem : bestOf cFn tFn g1.2 ∈ g1.2 :=
              bestOf_mem cFn tFn g1.2 (UF.groups_nonempty U g1 hg1)
            have hBg1mem0 : bestOf cFn tFn g1.2 ∈ g0.2 := by
              rw [hgeq]
              exact hBmem
            have hsame : g1 = g0 :=
              UF.groups_disjoint U g1 g0 hg1 hg0 _ hBg1mem hBg1mem0
            show b.rid = b1.rid
            rw [hb1rid, hbB, hsame]
          · have hs := hvsing b hb hbv hbd
            have hc : b.rid = bestOf cFn tFn g0.2 := by
              have h := hpb'.1
              rw [hs.1, hgid0] at h
              exact h
            exact absurd (hc ▸ hBdom) hbd
        · have hp := rowOf_invalid_pri m1 m2 b hbv
          have hc := hpb'.2
          rw [hp] at hc
          exact absurd hc (by decide)
    · have hs0 := hvsing b0 hb0 hv hd0
      refine filter_length_one AR _ (fun b => b.rid) hARnd b0 hb0 ?_ ?_
      · simp [Function.comp, hs0.2]
      · intro b hb hpb
        have hpb' : (rowOf m1 m2 b).group_id = (rowOf m1 m2 b0).group_id ∧
            (rowOf m1 m2 b).is_primary = 1 := by
          simpa [Function.comp] using hpb
        by_cases hbv : b.is_valid = 1
        · by_cases hbd : b.rid ∈ U.dom
          · obtain ⟨g1, hg1, hxg1, hgid1, hpri1⟩ := hvgid b hb hbv hbd
            have hBg1dom : bestOf cFn tFn g1.2 ∈ U.dom :=
              (UF.groups_member U g1 hg1 _
                (bestOf_mem cFn tFn g1.2 (UF.groups_nonempty U g1 hg1))).1
            have hc : bestOf cFn tFn g1.2 = b0.rid := by
              have h := hpb'.1
              rw [hgid1, hs0.1] at h
              exact h
            exact absurd (hc ▸ hBg1dom) hd0
          · have hs := hvsing b hb hbv hbd
            have h := hpb'.1
            rw [hs.1, hs0.1] at h
            show b.rid = b0.rid
            exact h
        · have hp := rowOf_invalid_pri m1 m2 b hbv
          have hc := hpb'.2
          rw [hp] at hc
          exact absurd hc (by decide)
  · intro r hr hv
    rcases List.mem_map.mp hr with ⟨b0, hb0, rfl⟩
    rw [rowOf_is_valid] at hv
    rw [List.filter_map, List.length_map]
    have hgid0 : (rowOf m1 m2 b0).group_id = b0.rid :=
      rowOf_invalid_gid m1 m2 b0 hv
    have hnk : b0.rid ∉ (validRecords AR).map (fun p => p.1) := by
      intro hk
      obtain ⟨b1, hb1, hb1v, _, hb1rid⟩ := mem_VR_elim AR _ hk
      have hbb : b1 = b0 :=
        List.inj_on_of_nodup_map hARnd hb1 hb0 (by rw [hb1rid])
      exact hv (hbb ▸ hb1v)
    refine filter_length_zero AR _ ?_
    intro b hb
    by_cases hbv : b.is_valid = 1
    · by_cases hbd : b.rid ∈ U.dom
      · obtain ⟨g1, hg1, hxg1, hgid1, hpri1⟩ := hvgid b hb hbv hbd
        have hBk : bestOf cFn tFn g1.2 ∈ (validRecords AR).map (fun p => p.1) :=
          hdom _ (UF.groups_member U g1 hg1 _
            (bestOf_mem cFn tFn g1.2 (UF.groups_nonempty U g1 hg1))).1
        have hne : ¬ (rowOf m1 m2 b).group_id = (rowOf m1 m2 b0).group_id := by
          rw [hgid1, hgid0]
          intro he
          exact hnk (he ▸ hBk)
        simp [Function.comp, hne]
      · have hs := hvsing b hb hbv hbd
        have hbk : b.rid ∈ (validRecords AR).map (fun p => p.1) :=
          valid_rid_mem AR b hb hbv (hvne b hb hbv)
        have hne : ¬ (rowOf m1 m2 b).group_id = (rowOf m1 m2 b0).group_id := by
          rw [hs.1, hgid0]
          intro he
          exact hnk (he ▸ hbk)
        simp [Function.comp, hne]
    · have hp := rowOf_invalid_pri m1 m2 b hbv
      simp [Function.comp, hp]

/-- C1 (counterexample): not every group id in the output has a primary
row — an invalid record is emitted with its own id as a self-referential
group id and `is_primary = 0`, so that group has no primary at all. -/
theorem c1_invalid_group_without_primary :
    3 ∈ (balancedResult [(3, some "xx", some "Company")]).map
      (fun r => r.group_id) ∧
    ((balancedResult [(3, some "xx", some "Company")]).filter
      (fun r2 => r2.group_id = 3 && r2.is_primary = 1)).length = 0 := by
  decide

set_option maxHeartbeats 2000000 in
/-- C1 (amended): for distinct input ids, every group id carried by a
*valid* output row marks exactly one primary row, and the self-referential
group id of every invalid output row marks none. -/
theorem c1_exactly_one_primary (rows : List (Nat × Option String × Option String))
    (hnd : (rows.map (fun r => r.1)).Nodup) :
    (∀ r ∈ balancedResult rows, r.is_valid = 1 →
      ((balancedResult rows).filter
        (fun r2 => r2.group_id = r.group_id && r2.is_primary = 1)).length = 1) ∧
    (∀ r ∈ balancedResult rows, r.is_valid ≠ 1 →
      ((balancedResult rows).filter
        (fun r2 => r2.group_id = r.group_id && r2.is_primary = 1)).length = 0) := by
  have hARnd : ((allRecords rows).map (fun b => b.rid)).Nodup := by
    rw [allRecords_rid_map]
    exact hnd
  have hvne : ∀ b ∈ allRecords rows, b.is_valid = 1 → b.cleaned ≠ "" :=
    fun b hb hv => valid_cleaned_ne b rows hb hv
  have hUnd := mainUF_nodup (idToNorm (validRecords (allRecords rows)))
  have hdom : ∀ x ∈ (mainUF (idToNorm (validRecords (allRecords rows)))).dom,
      x ∈ (validRecords (allRecords rows)).map (fun p => p.1) :=
    fun x hx => (idToNorm_keys _ x).mp (mainUF_dom _ x hx)
  have hsel := selFold_dget (fun rid => (dget (idToCleaned (validRecords (allRecords rows))) rid).getD "") (fun rid => (dget (idToType (allRecords rows)) rid).getD "Company") (mainUF (idToNorm (validRecords (allRecords rows)))).groups ([], [])
    (UF.groups_nodup _)
    (fun g hg => UF.groups_member_nodup _ hUnd g hg)
    (fun g hg g' hg' hne x hx hx' =>
      hne (UF.groups_disjoint _ g g' hg hg' x hx hx'))
  have h1 : ∀ g ∈ (mainUF (idToNorm (validRecords (allRecords rows)))).groups, ∀ x ∈ g.2,
      dget (selectionState (mainUF (idToNorm (validRecords (allRecords rows)))).groups ((idToCleaned (validRecords (allRecords rows))).map (fun p => p.1)) (fun rid => (dget (idToCleaned (validRecords (allRecords rows))) rid).getD "") (fun rid => (dget (idToType (allRecords rows)) rid).getD "Company")).1 x = some (bestOf (fun rid => (dget (idToCleaned (validRecords (allRecords rows))) rid).getD "") (fun rid => (dget (idToType (allRecords rows)) rid).getD "Company") g.2) ∧
      dget (selectionState (mainUF (idToNorm (validRecords (allRecords rows)))).groups ((idToCleaned (validRecords (allRecords rows))).map (fun p => p.1)) (fun rid => (dget (idToCleaned (validRecords (allRecords rows))) rid).getD "") (fun rid => (dget (idToType (allRecords rows)) rid).getD "Company")).2 x =
        some (if x = bestOf (fun rid => (dget (idToCleaned (validRecords (allRecords rows))) rid).getD "") (fun rid => (dget (idToType (allRecords rows)) rid).getD "Company") g.2 then 1 else 0) := by
    intro g hg x hx
    have hp := hsel.1 g hg x hx
    rw [selectionState]
    exact addSingletons_preserve _ _ x _ _ hp.1 hp.2
  have h2 : ∀ x, x ∈ (validRecords (allRecords rows)).map (fun p => p.1) →
      x ∉ (mainUF (idToNorm (validRecords (allRecords rows)))).dom →
      dget (selectionState (mainUF (idToNorm (validRecords (allRecords rows)))).groups ((idToCleaned (validRecords (allRecords rows))).map (fun p => p.1)) (fun rid => (dget (idToCleaned (validRecords (allRecords rows))) rid).getD "") (fun rid => (dget (idToType (allRecords rows)) rid).getD "Company")).1 x = some x ∧ dget (selectionState (mainUF (idToNorm (validRecords (allRecords rows)))).groups ((idToCleaned (validRecords (allRecords rows))).map (fun p => p.1)) (fun rid => (dget (idToCleaned (validRecords (allRecords rows))) rid).getD "") (fun rid => (dget (idToType (allRecords rows)) rid).getD "Company")).2 x = some 1 := by
    intro x hk hd
    have hnog : ∀ g ∈ (mainUF (idToNorm (validRecords (allRecords rows)))).groups, x ∉ g.2 :=
      fun g hg hx => hd (UF.groups_member _ g hg x hx).1
    have hp := hsel.2 x hnog
    rw [selectionState]
    refine addSingletons_new _ _ x ?_ (hp.1.trans rfl)
    exact (idToCleaned_keys _ x).mpr hk
  exact primary_count_master (allRecords rows) (mainUF (idToNorm (validRecords (allRecords rows))))
    (selectionState (mainUF (idToNorm (validRecords (allRecords rows)))).groups ((idToCleaned (validRecords (allRecords rows))).map (fun p => p.1)) (fun rid => (dget (idToCleaned (validRecords (allRecords rows))) rid).getD "") (fun rid => (dget (idToType (allRecords rows)) rid).getD "Company")).1 (selectionState (mainUF (idToNorm (validRecords (allRecords rows)))).groups ((idToCleaned (validRecords (allRecords rows))).map (fun p => p.1)) (fun rid => (dget (idToCleaned (validRecords (allRecords rows))) rid).getD "") (fun rid => (dget (idToType (allRecords rows)) rid).getD "Company")).2 (fun rid => (dget (idToCleaned (validRecords (allRecords rows))) rid).getD "") (fun rid => (dget (idToType (allRecords rows)) rid).getD "Company") hARnd hdom hvne h1 h2

/-- C1 witness: the amended theorem at a concrete two-record input whose
records merge into one group with record 1 as primary. -/
theorem c1_exactly_one_primary_witness :
    ((balancedResult [(1, some "Alpha Finance Ltd", some "Company"),
                      (2, some "Alpha Finance Limited", none)]).filter
      (fun r2 => r2.group_id =
          (OutRow.mk "Alpha Finance Ltd" "Alpha Finance Ltd" 1 "Company"
            1 1 1 none).group_id
        && r2.is_primary = 1)).length = 1 :=
  (c1_exactly_one_primary
    [(1, some "Alpha Finance Ltd", some "Company"),
     (2, some "Alpha Finance Limited", none)] (by decide)).1
    (OutRow.mk "Alpha Finance Ltd" "Alpha Finance Ltd" 1 "Company" 1 1 1 none)
    (by decide) (by decide)

/-! ## C2: row conservation -/

/-- `rowOf` always copies the record id into `master_id`. -/
theorem rowOf_master_id (a b : List (Nat × Nat)) (r : ARec) :
    (rowOf a b r).master_id = r.rid := by
  unfold rowOf; split <;> rfl

/-- The output's `master_id` column is the input's id column. -/
theorem balancedResult_master_ids (rows : List (Nat × Option String × Option String)) :
    (balancedResult rows).map (fun r => r.master_id) = rows.map (fun r => r.1) := by
  unfold balancedResult allRecords
  simp only [List.map_map]
  exact List.map_congr_left (fun a _ => rowOf_master_id _ _ _)

/-- C2 (counterexample): the claim quantifies over *every* input
collection, but when an id repeats in the input it also repeats in the
output — the pipeline never deduplicates ids. -/
theorem c2_duplicate_id_counterexample :
    let rows : List (Nat × Option String × Option String) :=
      [(1, some "Tata Motors", some "Company"), (1, some "Tata Motors", some "Company")]
    1 ∈ rows.map (fun r => r.1) ∧
    ((balancedResult rows).map (fun r => r.master_id)).count 1 = 2 := by
  constructor
  · decide
  · rw [balancedResult_master_ids]; decide

/-- C2 (amended): the output has exactly one row per input row, in input
order by id; and when the input ids are distinct (as they are for the
`masters` primary key), every input id appears exactly once as an output
`master_id`. -/
theorem c2_row_conservation (rows : List (Nat × Option String × Option String)) :
    (balancedResult rows).length = rows.length ∧
    ((rows.map (fun r => r.1)).Nodup →
      ∀ i ∈ rows.map (fun r => r.1),
        ((balancedResult rows).map (fun r => r.master_id)).count i = 1) := by
  constructor
  · unfold balancedResult allRecords
    simp only [List.length_map]
  · intro hnd i hi
    rw [balancedResult_master_ids]
    exact List.count_eq_one_of_mem hnd hi

/-- C2 witness: the conservation theorem at a concrete two-record input
with distinct ids. -/
theorem c2_row_conservation_witness :
    (balancedResult [(1, some "Alpha Finance Ltd", some "Company"),
                     (2, some "Alpha Finance Limited", none)]).length = 2 ∧
    ((balancedResult [(1, some "Alpha Finance Ltd", some "Company"),
                      (2, some "Alpha Finance Limited", none)]).map
        (fun r => r.master_id)).count 2 = 1 :=
  ⟨(c2_row_conservation _).1,
   (c2_row_conservation _).2 (by decide) 2 (by decide)⟩

/-!
## C10: the splitter postcondition

`subUF` is the splitting pass run on one oversized cluster (lines
863–881).  The claim asserts a *pairwise* postcondition on its
sub-clusters; what the union-find construction actually guarantees is
*chain* connectivity through accepted links, proved below via an
invariant: every parent link stays inside the equivalence closure of the
accepted-link relation.
-/

/-- One accepted link of the splitter between members of the cluster:
both norms nonempty and either an exact normalized match or a composite
score at the tight threshold that also passes `should_merge`. -/
def splitEdge (ms : List Nat) (normOf : Nat → String) (a b : Nat) : Prop :=
  a ∈ ms ∧ b ∈ ms ∧ normOf a ≠ "" ∧ normOf b ≠ "" ∧
    (normOf a = normOf b ∨
      (TIGHT_THRESHOLD ≤ composite_score (normOf a) (normOf b) ∧
        should_merge (normOf a) (normOf b)
          (composite_score (normOf a) (normOf b)) = true))

/-- All parent links lie inside the equivalence closure of `R`. -/
def UFRel (u : UF) (R : Nat → Nat → Prop) : Prop :=
  ∀ z, u.parent z = z ∨ Relation.EqvGen R z (u.parent z)

theorem UFRel_empty (R : Nat → Nat → Prop) : UFRel UF.empty R :=
  fun _ => Or.inl rfl

theorem findRoot_rel (u : UF) (R : Nat → Nat → Prop) (h : UFRel u R) :
    ∀ fuel x, Relation.EqvGen R x (u.findRoot fuel x) := by
  intro fuel
  induction fuel with
  | zero => intro x; exact Relation.EqvGen.refl x
  | succ f ih =>
    intro x
    rw [UF.findRoot]
    by_cases hp : u.parent x = x
    · rw [if_pos hp]; exact Relation.EqvGen.refl x
    · rw [if_neg hp]
      rcases h x with h1 | h1
      · exact absurd h1 hp
      · exact Relation.EqvGen.trans _ _ _ h1 (ih (u.parent x))

theorem UF.add_parent (u : UF) (x : Nat) : (u.add x).parent = u.parent := by
  rw [UF.add]; split <;> rfl

theorem UFRel_add (u : UF) (R : Nat → Nat → Prop) (x : Nat)
    (h : UFRel u R) : UFRel (u.add x) R := by
  intro z
  rw [UF.add_parent]
  exact h z

theorem UFRel_union (u : UF) (R : Nat → Nat → Prop) (x y : Nat)
    (hxy : Relation.EqvGen R x y) (h : UFRel u R) : UFRel (u.union x y) R := by
  have h1 : UFRel (u.add x) R := UFRel_add u R x h
  have h2 : UFRel ((u.add x).add y) R := UFRel_add _ R y h1
  have hrx : Relation.EqvGen R x ((u.add x).rootOf x) :=
    findRoot_rel (u.add x) R h1 _ x
  have hry : Relation.EqvGen R y (((u.add x).add y).rootOf y) :=
    findRoot_rel ((u.add x).add y) R h2 _ y
  have hryrx : Relation.EqvGen R (((u.add x).add y).rootOf y)
      ((u.add x).rootOf x) :=
    Relation.EqvGen.trans _ _ _ (Relation.EqvGen.symm _ _ hry)
      (Relation.EqvGen.trans _ _ _ (Relation.EqvGen.symm _ _ hxy) hrx)
  have hside1 : ∀ rk : Nat → Nat,
      UFRel ⟨((u.find x).1.find y).1.dom,
        fun z => if z = (u.find x).2 then ((u.find x).1.find y).2
          else ((u.find x).1.find y).1.parent z, rk⟩ R := by
    intro rk z
    show (if z = (u.find x).2 then ((u.find x).1.find y).2
        else ((u.find x).1.find y).1.parent z) = z ∨
      Relation.EqvGen R z (if z = (u.find x).2 then ((u.find x).1.find y).2
        else ((u.find x).1.find y).1.parent z)
    by_cases hz : z = (u.find x).2
    · rw [if_pos hz]
      refine Or.inr ?_
      rw [hz]
      exact Relation.EqvGen.symm _ _ hryrx
    · rw [if_neg hz]
      show ((u.add x).add y).parent z = z ∨
        Relation.EqvGen R z (((u.add x).add y).parent z)
      rw [UF.add_parent, UF.add_parent]
      exact h z
  have hside2 : ∀ rk : Nat → Nat,
      UFRel ⟨((u.find x).1.find y).1.dom,
        fun z => if z = ((u.find x).1.find y).2 then (u.find x).2
          else ((u.find x).1.find y).1.parent z, rk⟩ R := by
    intro rk z
    show (if z = ((u.find x).1.find y).2 then (u.find x).2
        else ((u.find x).1.find y).1.parent z) = z ∨
      Relation.EqvGen R z (if z = ((u.find x).1.find y).2 then (u.find x).2
        else ((u.find x).1.find y).1.parent z)
    by_cases hz : z = ((u.find x).1.find y).2
    · rw [if_pos hz]
      refine Or.inr ?_
      rw [hz]
      exact hryrx
    · rw [if_neg hz]
      show ((u.add x).add y).parent z = z ∨
        Relation.EqvGen R z (((u.add x).add y).parent z)
      rw [UF.add_parent, UF.add_parent]
      exact h z
  rw [UF.union]
  dsimp only
  split
  · exact h2
  · split
    · split
      · exact hside1 _
      · exact hside1 _
    · split
      · exact hside2 _
      · exact hside2 _

theorem UFRel_initFold (l : List Nat) (u : UF) (R : Nat → Nat → Prop)
    (h : UFRel u R) :
    UFRel (l.foldl (fun u mid => (u.find mid).1) u) R := by
  induction l generalizing u with
  | nil => exact h
  | cons mid rest ih =>
    rw [List.foldl_cons]
    exact ih _ (UFRel_add u R mid h)

theorem UFRel_pairFold (ms : List Nat) (normOf : Nat → String)
    (ps : List (Nat × Nat)) (u : UF)
    (hps : ∀ p ∈ ps, p.1 ∈ ms ∧ p.2 ∈ ms)
    (h : UFRel u (splitEdge ms normOf)) :
    UFRel (ps.foldl
      (fun u p =>
        let na := normOf p.1
        let nb := normOf p.2
        if na = "" || nb = "" then u
        else if na = nb then u.union p.1 p.2
        else
          let sc := composite_score na nb
          if TIGHT_THRESHOLD ≤ sc ∧ should_merge na nb sc then u.union p.1 p.2
          else u) u)
      (splitEdge ms normOf) := by
  induction ps generalizing u with
  | nil => exact h
  | cons p rest ih =>
    rw [List.foldl_cons]
    have hp := hps p (List.mem_cons_self p rest)
    refine ih _ (fun q hq => hps q (List.mem_cons_of_mem p hq)) ?_
    dsimp only
    split
    · exact h
    · next hemp =>
      rw [Bool.or_eq_true] at hemp
      push_neg at hemp
      have hna : normOf p.1 ≠ "" := by
        intro hc
        exact absurd (by simpa using hc) hemp.1
      have hnb : normOf p.2 ≠ "" := by
        intro hc
        exact absurd (by simpa using hc) hemp.2
      split
      · next heq =>
        exact UFRel_union u _ p.1 p.2
          (Relation.EqvGen.rel _ _ ⟨hp.1, hp.2, hna, hnb, Or.inl heq⟩) h
      · split
        · next hacc =>
          exact UFRel_union u _ p.1 p.2
            (Relation.EqvGen.rel _ _ ⟨hp.1, hp.2, hna, hnb, Or.inr hacc⟩) h
        · exact h

theorem subUF_UFRel (ms : List Nat) (normOf : Nat → String) :
    UFRel (subUF ms normOf) (splitEdge ms normOf) := by
  rw [subUF]
  refine UFRel_pairFold ms normOf (allPairs ms) _ ?_ ?_
  · intro p hp
    exact allPairs_mem ms p hp
  · exact UFRel_initFold ms UF.empty _ (UFRel_empty _)

/-!
### Union-Find correctness

To place concrete members in concrete sub-clusters without evaluating
the whole quadratic fold, we prove the classic union-by-rank facts for
the model: ranks strictly increase along nontrivial parent links, so the
chain measure `UF.m` strictly decreases, the fuel `|dom| + 1` always
suffices, and a union joins its arguments' roots while preserving every
existing root equality.
-/

theorem filter_length_le_of_imp {α : Type} (l : List α) (p q : α → Bool)
    (h : ∀ a ∈ l, p a = true → q a = true) :
    (l.filter p).length ≤ (l.filter q).length := by
  induction l with
  | nil => exact Nat.le_refl 0
  | cons x xs ih =>
    have ih' := ih (fun a ha => h a (List.mem_cons_of_mem x ha))
    rw [List.filter_cons, List.filter_cons]
    by_cases hp : p x = true
    · rw [if_pos hp, if_pos (h x (List.mem_cons_self x xs) hp)]
      exact Nat.succ_le_succ ih'
    · rw [if_neg hp]
      by_cases hq : q x = true
      · rw [if_pos hq]
        exact Nat.le_succ_of_le ih'
      · rw [if_neg hq]
        exact ih'

theorem filter_length_lt_of_witness {α : Type} (l : List α) (p q : α → Bool)
    (h : ∀ a ∈ l, p a = true → q a = true) (a : α) (ha : a ∈ l)
    (hqa : q a = true) (hpa : p a = false) :
    (l.filter p).length < (l.filter q).length := by
  induction l with
  | nil => exact absurd ha (List.not_mem_nil a)
  | cons x xs ih =>
    rw [List.filter_cons, List.filter_cons]
    by_cases hp : p x = true
    · have hax : a ≠ x := fun he => by rw [he, hp] at hpa; cases hpa
      have ha' : a ∈ xs := by
        rcases List.mem_cons.mp ha with h1 | h1
        · exact absurd h1 hax
        · exact h1
      rw [if_pos hp, if_pos (h x (List.mem_cons_self x xs) hp)]
      exact Nat.succ_lt_succ (ih (fun b hb => h b (List.mem_cons_of_mem x hb)) ha')
    · rw [if_neg hp]
      by_cases hq : q x = true
      · rw [if_pos hq]
        refine Nat.lt_succ_of_le ?_
        exact filter_length_le_of_imp xs p q
          (fun b hb => h b (List.mem_cons_of_mem x hb))
      · have hax : a ≠ x := fun he => hq (he ▸ hqa)
        have ha' : a ∈ xs := by
          rcases List.mem_cons.mp ha with h1 | h1
          · exact absurd h1 hax
          · exact h1
        rw [if_neg hq]
        exact ih (fun b hb => h b (List.mem_cons_of_mem x hb)) ha'

theorem filter_length_lt_length {α : Type} (l : List α) (p : α → Bool)
    (a : α) (ha : a ∈ l) (hpa : p a = false) :
    (l.filter p).length < l.length := by
  have h := filter_length_lt_of_witness l p (fun _ => true)
    (fun _ _ _ => rfl) a ha rfl hpa
  simpa using h

/-- Union-find structural invariant: ranks strictly increase along
nontrivial parent links and nontrivial links stay inside `dom`. -/
def UFInv (u : UF) : Prop :=
  (∀ z, u.parent z ≠ z → u.rank z < u.rank (u.parent z)) ∧
  (∀ z, u.parent z ≠ z → z ∈ u.dom ∧ u.parent z ∈ u.dom)

/-- Chain measure: the number of `dom` entries ranked above `z`. -/
def UF.m (u : UF) (z : Nat) : Nat :=
  (u.dom.filter (fun w => u.rank z < u.rank w)).length

theorem UF.m_le (u : UF) (z : Nat) : u.m z ≤ u.dom.length :=
  List.length_filter_le _ _

theorem UF.m_parent_lt (u : UF) (hInv : UFInv u) (z : Nat)
    (hz : u.parent z ≠ z) : u.m (u.parent z) < u.m z := by
  refine filter_length_lt_of_witness u.dom _ _ ?_ (u.parent z)
    (hInv.2 z hz).2 ?_ ?_
  · intro a _ hp
    have h1 := hInv.1 z hz
    have h2 := of_decide_eq_true hp
    exact decide_eq_true (Nat.lt_trans h1 h2)
  · exact decide_eq_true (hInv.1 z hz)
  · exact decide_eq_false (Nat.lt_irrefl _)

theorem UF.m_lt_of_nontrivial (u : UF) (hInv : UFInv u) (z : Nat)
    (hz : u.parent z ≠ z) : u.m z < u.dom.length := by
  refine filter_length_lt_length u.dom _ z (hInv.2 z hz).1 ?_
  exact decide_eq_false (Nat.lt_irrefl _)

theorem findRoot_root (u : UF) (hInv : UFInv u) :
    ∀ fuel z, u.m z < fuel →
      u.parent (u.findRoot fuel z) = u.findRoot fuel z := by
  intro fuel
  induction fuel with
  | zero => intro z hz; exact absurd hz (Nat.not_lt_zero _)
  | succ f ih =>
    intro z hz
    rw [UF.findRoot]
    by_cases hp : u.parent z = z
    · rw [if_pos hp]
      exact hp
    · rw [if_neg hp]
      refine ih (u.parent z) ?_
      have h1 := UF.m_parent_lt u hInv z hp
      omega

theorem findRoot_fuel_irrel (u : UF) (hInv : UFInv u) :
    ∀ f f' z, u.m z < f → u.m z < f' →
      u.findRoot f z = u.findRoot f' z := by
  intro f
  induction f with
  | zero => intro f' z hz; exact absurd hz (Nat.not_lt_zero _)
  | succ g ih =>
    intro f' z hz hz'
    cases f' with
    | zero => exact absurd hz' (Nat.not_lt_zero _)
    | succ g' =>
      rw [UF.findRoot, UF.findRoot]
      by_cases hp : u.parent z = z
      · rw [if_pos hp, if_pos hp]
      · rw [if_neg hp, if_neg hp]
        have h1 := UF.m_parent_lt u hInv z hp
        exact ih g' (u.parent z) (by omega) (by omega)

theorem rootOf_of_root (u : UF) (z : Nat) (hz : u.parent z = z) :
    u.rootOf z = z := by
  rw [UF.rootOf, UF.findRoot, if_pos hz]

theorem rootOf_root (u : UF) (hInv : UFInv u) (z : Nat) :
    u.parent (u.rootOf z) = u.rootOf z := by
  rw [UF.rootOf]
  refine findRoot_root u hInv _ z ?_
  have := UF.m_le u z
  omega

theorem rootOf_parent (u : UF) (hInv : UFInv u) (z : Nat)
    (hz : u.parent z ≠ z) : u.rootOf (u.parent z) = u.rootOf z := by
  rw [UF.rootOf, UF.rootOf]
  conv_rhs => rw [UF.findRoot, if_neg hz]
  refine findRoot_fuel_irrel u hInv _ _ (u.parent z) ?_ ?_
  · have := UF.m_le u (u.parent z)
    omega
  · have h1 := UF.m_parent_lt u hInv z hz
    have h2 := UF.m_lt_of_nontrivial u hInv z hz
    omega

/-- Auxiliary strong induction on the chain measure. -/
theorem rootOf_mem_dom_aux (u : UF) (hInv : UFInv u) :
    ∀ n z, u.m z < n → z ∈ u.dom → u.rootOf z ∈ u.dom := by
  intro n
  induction n with
  | zero => intro z hz; exact absurd hz (Nat.not_lt_zero _)
  | succ k ih =>
    intro z hz hzd
    by_cases hp : u.parent z = z
    · rw [rootOf_of_root u z hp]
      exact hzd
    · rw [← rootOf_parent u hInv z hp]
      refine ih (u.parent z) ?_ (hInv.2 z hp).2
      have := UF.m_parent_lt u hInv z hp
      omega

theorem rootOf_mem_dom (u : UF) (hInv : UFInv u) (z : Nat) (hz : z ∈ u.dom) :
    u.rootOf z ∈ u.dom :=
  rootOf_mem_dom_aux u hInv (u.m z + 1) z (Nat.lt_succ_self _) hz

theorem findRoot_congr (u u' : UF) (h : u.parent = u'.parent) :
    ∀ fuel z, u.findRoot fuel z = u'.findRoot fuel z := by
  intro fuel
  induction fuel with
  | zero => intro z; rfl
  | succ f ih =>
    intro z
    rw [UF.findRoot, UF.findRoot, h, ih (u'.parent z)]

theorem UF.add_rank (u : UF) (x : Nat) : (u.add x).rank = u.rank := by
  rw [UF.add]; split <;> rfl

theorem UFInv_add (u : UF) (hInv : UFInv u) (x : Nat) : UFInv (u.add x) := by
  constructor
  · intro z
    rw [UF.add_parent, UF.add_rank]
    exact hInv.1 z
  · intro z
    rw [UF.add_parent]
    intro hz
    exact ⟨UF.add_dom_grows u x z (hInv.2 z hz).1,
      UF.add_dom_grows u x _ (hInv.2 z hz).2⟩

theorem add_rootOf (u : UF) (hInv : UFInv u) (x z : Nat) :
    (u.add x).rootOf z = u.rootOf z := by
  rw [UF.rootOf, UF.rootOf]
  rw [findRoot_congr (u.add x) u (by rw [UF.add_parent]) _ z]
  have hmz : u.m z = (u.add x).m z ∨ u.m z ≤ (u.add x).m z := by
    right
    rw [UF.m, UF.m, UF.add_rank, UF.add_dom]
    by_cases hc : u.dom.contains x = true
    · rw [if_pos hc]
    · rw [if_neg hc, List.filter_append]
      simp
  have hle : u.dom.length ≤ (u.add x).dom.length := by
    rw [UF.add_dom]
    by_cases hc : u.dom.contains x = true
    · rw [if_pos hc]
    · rw [if_neg hc, List.length_append]
      omega
  refine findRoot_fuel_irrel u hInv _ _ z ?_ ?_
  · have := UF.m_le u z
    omega
  · have := UF.m_le u z
    omega

/-- The root-update characterization: redirecting the root `RY` onto the
root `RX` reroutes exactly the ids that resolved to `RY`. -/
theorem rootOf_update_aux (u u' : UF) (hInv : UFInv u) (hInv' : UFInv u')
    (RX RY : Nat) (hRXr : u.parent RX = RX) (hRYr : u.parent RY = RY)
    (hne : RY ≠ RX)
    (hp : ∀ z, u'.parent z = if z = RY then RX else u.parent z) :
    ∀ n z, u.m z < n →
      u'.rootOf z = if u.rootOf z = RY then RX else u.rootOf z := by
  intro n
  induction n with
  | zero => intro z hz; exact absurd hz (Nat.not_lt_zero _)
  | succ k ih =>
    intro z hz
    by_cases hpz : u.parent z = z
    · rw [rootOf_of_root u z hpz]
      by_cases hzRY : z = RY
      · rw [if_pos hzRY]
        subst hzRY
        have hp1 : u'.parent z = RX := by rw [hp, if_pos rfl]
        have hp2 : u'.parent RX = RX := by
          rw [hp, if_neg (fun he => hne (Eq.symm he)), hRXr]
        have hne2 : u'.parent z ≠ z := by
          rw [hp1]
          exact fun he => hne (Eq.symm he)
        rw [← rootOf_parent u' hInv' z hne2, hp1, rootOf_of_root u' RX hp2]
      · rw [if_neg hzRY]
        refine rootOf_of_root u' z ?_
        rw [hp, if_neg hzRY]
        exact hpz
    · have hzRY : z ≠ RY := by
        intro he
        rw [he, hRYr] at hpz
        exact hpz rfl
      have hne2 : u'.parent z ≠ z := by
        rw [hp, if_neg hzRY]
        exact hpz
      have hstep' : u'.rootOf z = u'.rootOf (u.parent z) := by
        rw [← rootOf_parent u' hInv' z hne2, hp, if_neg hzRY]
      have hstep : u.rootOf z = u.rootOf (u.parent z) :=
        (rootOf_parent u hInv z hpz).symm
      rw [hstep', hstep]
      refine ih (u.parent z) ?_
      have := UF.m_parent_lt u hInv z hpz
      omega

theorem UFInv_empty : UFInv UF.empty := by
  constructor
  · intro z hz
    exact absurd rfl hz
  · intro z hz
    exact absurd rfl hz

/-- Case analysis of `union`: either the two roots already agree and the
structure only gains the two key initializations, or the parent map gets
exactly one root-onto-root redirect, with a rank function that at most
bumps the surviving root. -/
theorem union_cases (u : UF) (x y : Nat) :
    (u.union x y = ((u.find x).1.find y).1 ∧
      (u.find x).2 = ((u.find x).1.find y).2) ∨
    (∃ RX RY : Nat, ∃ rk : Nat → Nat,
      ((RX = (u.find x).2 ∧ RY = ((u.find x).1.find y).2) ∨
       (RX = ((u.find x).1.find y).2 ∧ RY = (u.find x).2)) ∧
      (u.find x).2 ≠ ((u.find x).1.find y).2 ∧
      (∀ z, z ≠ RX → rk z = ((u.find x).1.find y).1.rank z) ∧
      ((u.find x).1.find y).1.rank RX ≤ rk RX ∧
      ((u.find x).1.find y).1.rank RY < rk RX ∧
      u.union x y = ⟨((u.find x).1.find y).1.dom,
        fun z => if z = RY then RX else ((u.find x).1.find y).1.parent z,
        rk⟩) := by
  rw [UF.union]
  dsimp only
  split
  · next h1 => exact Or.inl ⟨rfl, h1⟩
  · next h1 =>
    split
    · next h2 =>
      split
      · next h3 =>
        refine Or.inr ⟨((u.find x).1.find y).2, (u.find x).2,
          fun z => if z = ((u.find x).1.find y).2
            then ((u.find x).1.find y).1.rank (((u.find x).1.find y).2) + 1
            else ((u.find x).1.find y).1.rank z,
          Or.inr ⟨rfl, rfl⟩, h1, ?_, ?_, ?_, rfl⟩
        · intro z hz
          dsimp only
          rw [if_neg hz]
        · dsimp only
          rw [if_pos rfl]
          exact Nat.le_succ _
        · dsimp only
          rw [if_pos rfl]
          omega
      · next h3 =>
        exact Or.inr ⟨((u.find x).1.find y).2, (u.find x).2,
          ((u.find x).1.find y).1.rank,
          Or.inr ⟨rfl, rfl⟩, h1, fun z hz => rfl, Nat.le_refl _, h2, rfl⟩
    · next h2 =>
      split
      · next h3 =>
        refine Or.inr ⟨(u.find x).2, ((u.find x).1.find y).2,
          fun z => if z = (u.find x).2
            then ((u.find x).1.find y).1.rank ((u.find x).2) + 1
            else ((u.find x).1.find y).1.rank z,
          Or.inl ⟨rfl, rfl⟩, h1, ?_, ?_, ?_, rfl⟩
        · intro z hz
          dsimp only
          rw [if_neg hz]
        · dsimp only
          rw [if_pos rfl]
          exact Nat.le_succ _
        · dsimp only
          rw [if_pos rfl]
          omega
      · next h3 =>
        refine Or.inr ⟨(u.find x).2, ((u.find x).1.find y).2,
          ((u.find x).1.find y).1.rank,
          Or.inl ⟨rfl, rfl⟩, h1, fun z hz => rfl, Nat.le_refl _, ?_, rfl⟩
        omega

/-- Redirecting the root `RY` onto the root `RX` preserves the invariant
and reroutes exactly the ids that resolved to `RY`, provided the rank
change at most bumps `RX` above `RY`. -/
theorem update_bundle (A : UF) (hInvA : UFInv A) (RX RY : Nat) (rk : Nat → Nat)
    (hRXr : A.parent RX = RX) (hRYr : A.parent RY = RY) (hne : RY ≠ RX)
    (hRXd : RX ∈ A.dom) (hRYd : RY ∈ A.dom)
    (hrk : ∀ z, z ≠ RX → rk z = A.rank z) (hrkRX : A.rank RX ≤ rk RX)
    (hRYRX : A.rank RY < rk RX) :
    UFInv ⟨A.dom, fun z => if z = RY then RX else A.parent z, rk⟩ ∧
    ∀ z, (⟨A.dom, fun z => if z = RY then RX else A.parent z, rk⟩ : UF).rootOf z
      = if A.rootOf z = RY then RX else A.rootOf z := by
  have hInvS : UFInv ⟨A.dom, fun z => if z = RY then RX else A.parent z, rk⟩ := by
    constructor
    · intro z
      show (if z = RY then RX else A.parent z) ≠ z →
        rk z < rk (if z = RY then RX else A.parent z)
      by_cases hzRY : z = RY
      · rw [if_pos hzRY]
        intro hne2
        subst hzRY
        rw [hrk z hne]
        exact hRYRX
      · rw [if_neg hzRY]
        intro hzp
        have hold := hInvA.1 z hzp
        have hzRX : z ≠ RX := by
          intro he
          rw [he, hRXr] at hzp
          exact hzp rfl
        rw [hrk z hzRX]
        by_cases hpRX : A.parent z = RX
        · rw [hpRX] at hold ⊢
          exact Nat.lt_of_lt_of_le hold hrkRX
        · rw [hrk _ hpRX]
          exact hold
    · intro z
      show (if z = RY then RX else A.parent z) ≠ z →
        z ∈ A.dom ∧ (if z = RY then RX else A.parent z) ∈ A.dom
      by_cases hzRY : z = RY
      · rw [if_pos hzRY]
        intro hne2
        subst hzRY
        exact ⟨hRYd, hRXd⟩
      · rw [if_neg hzRY]
        exact hInvA.2 z
  refine ⟨hInvS, fun z => ?_⟩
  exact rootOf_update_aux A _ hInvA hInvS RX RY hRXr hRYr hne
    (fun w => rfl) (A.m z + 1) z (Nat.lt_succ_self _)

/-- `union` keeps the invariant, joins the roots of its arguments, and
preserves every root equality already present. -/
theorem union_facts (u : UF) (hInv : UFInv u) (x y : Nat) :
    UFInv (u.union x y) ∧
    (u.union x y).rootOf x = (u.union x y).rootOf y ∧
    ∀ a b, u.rootOf a = u.rootOf b →
      (u.union x y).rootOf a = (u.union x y).rootOf b := by
  have hInv1 : UFInv (u.add x) := UFInv_add u hInv x
  have hInvA : UFInv ((u.add x).add y) := UFInv_add _ hInv1 y
  have hAx : ∀ z, ((u.add x).add y).rootOf z = u.rootOf z := by
    intro z
    rw [add_rootOf (u.add x) hInv1 y z, add_rootOf u hInv x z]
  have harx : ((u.add x).add y).rootOf x = (u.add x).rootOf x :=
    add_rootOf (u.add x) hInv1 y x
  have hr1root : ((u.add x).add y).parent ((u.add x).rootOf x) =
      (u.add x).rootOf x := by
    rw [UF.add_parent]
    exact rootOf_root (u.add x) hInv1 x
  have hr2root : ((u.add x).add y).parent (((u.add x).add y).rootOf y) =
      ((u.add x).add y).rootOf y :=
    rootOf_root _ hInvA y
  have hr1dom : (u.add x).rootOf x ∈ ((u.add x).add y).dom :=
    UF.add_dom_grows _ y _ (rootOf_mem_dom (u.add x) hInv1 x (UF.add_dom_mem u x))
  have hr2dom : ((u.add x).add y).rootOf y ∈ ((u.add x).add y).dom :=
    rootOf_mem_dom _ hInvA y (UF.add_dom_mem (u.add x) y)
  rcases union_cases u x y with ⟨hu, hreq⟩ |
    ⟨RX, RY, rk, hor, hne', hrk, hrkRX, hRYRX, hu⟩
  · have hreq' : (u.add x).rootOf x = ((u.add x).add y).rootOf y := hreq
    refine ⟨?_, ?_, ?_⟩
    · rw [hu]
      exact hInvA
    · rw [hu]
      show ((u.add x).add y).rootOf x = ((u.add x).add y).rootOf y
      rw [harx, hreq']
    · intro a b hab
      rw [hu]
      show ((u.add x).add y).rootOf a = ((u.add x).add y).rootOf b
      rw [hAx a, hAx b]
      exact hab
  · have hne'' : (u.add x).rootOf x ≠ ((u.add x).add y).rootOf y := hne'
    have hor' : (RX = (u.add x).rootOf x ∧ RY = ((u.add x).add y).rootOf y) ∨
        (RX = ((u.add x).add y).rootOf y ∧ RY = (u.add x).rootOf x) := hor
    have hrk' : ∀ z, z ≠ RX → rk z = ((u.add x).add y).rank z := hrk
    have hrkRX' : ((u.add x).add y).rank RX ≤ rk RX := hrkRX
    have hRYRX' : ((u.add x).add y).rank RY < rk RX := hRYRX
    have hu' : u.union x y = (⟨((u.add x).add y).dom,
        fun z => if z = RY then RX else ((u.add x).add y).parent z, rk⟩ : UF) := hu
    rcases hor' with ⟨hRX, hRY⟩ | ⟨hRX, hRY⟩
    · subst hRX
      subst hRY
      obtain ⟨hSInv, hSroot⟩ := update_bundle ((u.add x).add y) hInvA
        ((u.add x).rootOf x) (((u.add x).add y).rootOf y) rk
        hr1root hr2root (Ne.symm hne'') hr1dom hr2dom hrk' hrkRX' hRYRX'
      refine ⟨?_, ?_, ?_⟩
      · rw [hu']
        exact hSInv
      · rw [hu', hSroot x, hSroot y, harx]
        rw [if_neg hne'', if_pos rfl]
      · intro a b hab
        rw [hu', hSroot a, hSroot b, hAx a, hAx b, hab]
    · subst hRX
      subst hRY
      obtain ⟨hSInv, hSroot⟩ := update_bundle ((u.add x).add y) hInvA
        (((u.add x).add y).rootOf y) ((u.add x).rootOf x) rk
        hr2root hr1root hne'' hr2dom hr1dom hrk' hrkRX' hRYRX'
      refine ⟨?_, ?_, ?_⟩
      · rw [hu']
        exact hSInv
      · rw [hu', hSroot x, hSroot y, harx]
        rw [if_pos rfl, if_neg (Ne.symm hne'')]
      · intro a b hab
        rw [hu', hSroot a, hSroot b, hAx a, hAx b, hab]

theorem union_dom_mem (u : UF) (x y z : Nat) (hz : z ∈ u.dom) :
    z ∈ (u.union x y).dom := by
  have hz2 : z ∈ ((u.add x).add y).dom :=
    UF.add_dom_grows _ y z (UF.add_dom_grows u x z hz)
  rcases union_cases u x y with ⟨hu, h⟩ |
    ⟨RX, RY, rk, hor, hne', hrk, hrkRX, hRYRX, hu⟩
  · rw [hu]
    exact hz2
  · rw [hu]
    exact hz2

/-- The splitter's per-pair fold body (lines 868–881), named so the fold
can be reasoned about step by step. -/
def subStep (normOf : Nat → String) (u : UF) (p : Nat × Nat) : UF :=
  let na := normOf p.1
  let nb := normOf p.2
  if na = "" || nb = "" then u
  else if na = nb then u.union p.1 p.2
  else
    let sc := composite_score na nb
    if TIGHT_THRESHOLD ≤ sc ∧ should_merge na nb sc then u.union p.1 p.2
    else u

theorem subUF_eq (ms : List Nat) (normOf : Nat → String) :
    subUF ms normOf = (allPairs ms).foldl (subStep normOf)
      (ms.foldl (fun u mid => (u.find mid).1) UF.empty) := rfl

theorem subStep_inv (normOf : Nat → String) (u : UF) (hInv : UFInv u)
    (p : Nat × Nat) : UFInv (subStep normOf u p) := by
  rw [subStep]
  dsimp only
  split
  · exact hInv
  · split
    · exact (union_facts u hInv p.1 p.2).1
    · split
      · exact (union_facts u hInv p.1 p.2).1
      · exact hInv

theorem subStep_dom (normOf : Nat → String) (u : UF) (p : Nat × Nat) (z : Nat)
    (hz : z ∈ u.dom) : z ∈ (subStep normOf u p).dom := by
  rw [subStep]
  dsimp only
  split
  · exact hz
  · split
    · exact union_dom_mem u p.1 p.2 z hz
    · split
      · exact union_dom_mem u p.1 p.2 z hz
      · exact hz

theorem subStep_preserve (normOf : Nat → String) (u : UF) (hInv : UFInv u)
    (p : Nat × Nat) (a b : Nat) (hab : u.rootOf a = u.rootOf b) :
    (subStep normOf u p).rootOf a = (subStep normOf u p).rootOf b := by
  rw [subStep]
  dsimp only
  split
  · exact hab
  · split
    · exact (union_facts u hInv p.1 p.2).2.2 a b hab
    · split
      · exact (union_facts u hInv p.1 p.2).2.2 a b hab
      · exact hab

theorem subStep_join (normOf : Nat → String) (u : UF) (hInv : UFInv u)
    (a b : Nat) (hna : normOf a ≠ "") (hnb : normOf b ≠ "")
    (hacc : normOf a = normOf b ∨
      (TIGHT_THRESHOLD ≤ composite_score (normOf a) (normOf b) ∧
        should_merge (normOf a) (normOf b)
          (composite_score (normOf a) (normOf b)) = true)) :
    (subStep normOf u (a, b)).rootOf a = (subStep normOf u (a, b)).rootOf b := by
  rw [subStep]
  dsimp only
  split
  · next hemp =>
    rw [Bool.or_eq_true] at hemp
    rcases hemp with hc | hc
    · exact absurd (of_decide_eq_true hc) hna
    · exact absurd (of_decide_eq_true hc) hnb
  · split
    · next heq => exact (union_facts u hInv a b).2.1
    · next hne =>
      split
      · next hacc2 => exact (union_facts u hInv a b).2.1
      · next hrej =>
        rcases hacc with hc | hc
        · exact absurd hc hne
        · exact absurd hc hrej

theorem subFold_inv (normOf : Nat → String) (ps : List (Nat × Nat)) :
    ∀ u : UF, UFInv u → UFInv (ps.foldl (subStep normOf) u) := by
  induction ps with
  | nil => intro u h; exact h
  | cons p rest ih =>
    intro u h
    rw [List.foldl_cons]
    exact ih _ (subStep_inv normOf u h p)

theorem subFold_dom (normOf : Nat → String) (ps : List (Nat × Nat)) (z : Nat) :
    ∀ u : UF, z ∈ u.dom → z ∈ (ps.foldl (subStep normOf) u).dom := by
  induction ps with
  | nil => intro u h; exact h
  | cons p rest ih =>
    intro u h
    rw [List.foldl_cons]
    exact ih _ (subStep_dom normOf u p z h)

theorem subFold_preserve (normOf : Nat → String) (ps : List (Nat × Nat))
    (a b : Nat) :
    ∀ u : UF, UFInv u → u.rootOf a = u.rootOf b →
      (ps.foldl (subStep normOf) u).rootOf a =
        (ps.foldl (subStep normOf) u).rootOf b := by
  induction ps with
  | nil => intro u h hab; exact hab
  | cons p rest ih =>
    intro u h hab
    rw [List.foldl_cons]
    exact ih _ (subStep_inv normOf u h p) (subStep_preserve normOf u h p a b hab)

theorem subFold_join (normOf : Nat → String) (ps : List (Nat × Nat))
    (a b : Nat) (hna : normOf a ≠ "") (hnb : normOf b ≠ "")
    (hacc : normOf a = normOf b ∨
      (TIGHT_THRESHOLD ≤ composite_score (normOf a) (normOf b) ∧
        should_merge (normOf a) (normOf b)
          (composite_score (normOf a) (normOf b)) = true)) :
    ∀ u : UF, UFInv u → (a, b) ∈ ps →
      (ps.foldl (subStep normOf) u).rootOf a =
        (ps.foldl (subStep normOf) u).rootOf b := by
  induction ps with
  | nil => intro u h hp; exact absurd hp (List.not_mem_nil _)
  | cons q rest ih =>
    intro u h hp
    rw [List.foldl_cons]
    rcases List.mem_cons.mp hp with he | hm
    · rw [← he]
      exact subFold_preserve normOf rest a b _ (subStep_inv normOf u h (a, b))
        (subStep_join normOf u h a b hna hnb hacc)
    · exact ih _ (subStep_inv normOf u h q) hm

theorem initFold_inv (l : List Nat) :
    ∀ u : UF, UFInv u → UFInv (l.foldl (fun u mid => (u.find mid).1) u) := by
  induction l with
  | nil => intro u h; exact h
  | cons m rest ih =>
    intro u h
    rw [List.foldl_cons]
    exact ih _ (UFInv_add u h m)

theorem initFold_dom (l : List Nat) (z : Nat) :
    ∀ u : UF, z ∈ l ∨ z ∈ u.dom →
      z ∈ (l.foldl (fun u mid => (u.find mid).1) u).dom := by
  induction l with
  | nil =>
    intro u hz
    rcases hz with h | h
    · exact absurd h (List.not_mem_nil z)
    · exact h
  | cons m rest ih =>
    intro u hz
    rw [List.foldl_cons]
    refine ih _ ?_
    rcases hz with h | h
    · rcases List.mem_cons.mp h with he | hm
      · right
        subst he
        exact UF.add_dom_mem u z
      · left
        exact hm
    · right
      exact UF.add_dom_grows u m z h

theorem subUF_inv (ms : List Nat) (normOf : Nat → String) :
    UFInv (subUF ms normOf) := by
  rw [subUF_eq]
  exact subFold_inv normOf (allPairs ms) _ (initFold_inv ms UF.empty UFInv_empty)

theorem subUF_mem_dom (ms : List Nat) (normOf : Nat → String) (z : Nat)
    (hz : z ∈ ms) : z ∈ (subUF ms normOf).dom := by
  rw [subUF_eq]
  exact subFold_dom normOf (allPairs ms) z _ (initFold_dom ms z UF.empty (Or.inl hz))

theorem subUF_join (ms : List Nat) (normOf : Nat → String) (a b : Nat)
    (hab : (a, b) ∈ allPairs ms) (hna : normOf a ≠ "") (hnb : normOf b ≠ "")
    (hacc : normOf a = normOf b ∨
      (TIGHT_THRESHOLD ≤ composite_score (normOf a) (normOf b) ∧
        should_merge (normOf a) (normOf b)
          (composite_score (normOf a) (normOf b)) = true)) :
    (subUF ms normOf).rootOf a = (subUF ms normOf).rootOf b := by
  rw [subUF_eq]
  exact subFold_join normOf (allPairs ms) a b hna hnb hacc _
    (initFold_inv ms UF.empty UFInv_empty) hab

/-- Two ids whose final roots agree share a group of the sub-Union-Find. -/
theorem subUF_same_group (ms : List Nat) (normOf : Nat → String) (a b : Nat)
    (ha : a ∈ ms) (hb : b ∈ ms)
    (hr : (subUF ms normOf).rootOf a = (subUF ms normOf).rootOf b) :
    ∃ g ∈ (subUF ms normOf).groups, a ∈ g.2 ∧ b ∈ g.2 := by
  obtain ⟨g, hg, hag⟩ := UF.groups_cover _ a (subUF_mem_dom ms normOf a ha)
  refine ⟨g, hg, hag, ?_⟩
  rw [(UF.mem_groups _ g hg).2]
  refine List.mem_filter.mpr ⟨subUF_mem_dom ms normOf b hb, ?_⟩
  have hroot : (subUF ms normOf).rootOf b = g.1 := by
    rw [← hr]
    exact (UF.groups_member _ g hg a hag).2
  exact decide_eq_true hroot

theorem mem_allPairs_append (l1 l2 : List Nat) (a b : Nat) (hb : b ∈ l2) :
    (a, b) ∈ allPairs (l1 ++ a :: l2) := by
  induction l1 with
  | nil =>
    rw [List.nil_append, allPairs]
    refine List.mem_append.mpr (Or.inl ?_)
    exact List.mem_map.mpr ⟨b, hb, rfl⟩
  | cons x xs ih =>
    rw [List.cons_append, allPairs]
    exact List.mem_append.mpr (Or.inr ih)

/-- C10 (amended): within every sub-cluster the splitter produces, any
two members are connected by a *chain* of accepted links — each link an
exact normalized match or a pair scoring at least the tight threshold
0.90 and passing the full merge-decision policy.  (The pairwise version
of the postcondition is refuted above.) -/
theorem c10_subclusters_chain_connected (ms : List Nat)
    (normOf : Nat → String) (g : Nat × List Nat)
    (hg : g ∈ (subUF ms normOf).groups) (x y : Nat)
    (hx : x ∈ g.2) (hy : y ∈ g.2) :
    Relation.EqvGen (splitEdge ms normOf) x y := by
  have hrel := subUF_UFRel ms normOf
  have hxr := (UF.groups_member _ g hg x hx).2
  have hyr := (UF.groups_member _ g hg y hy).2
  have ex : Relation.EqvGen (splitEdge ms normOf) x ((subUF ms normOf).rootOf x) :=
    findRoot_rel _ _ hrel _ x
  have ey : Relation.EqvGen (splitEdge ms normOf) y ((subUF ms normOf).rootOf y) :=
    findRoot_rel _ _ hrel _ y
  rw [hxr] at ex
  rw [hyr] at ey
  exact Relation.EqvGen.trans _ _ _ ex (Relation.EqvGen.symm _ _ ey)

/-- C10 witness: the chain theorem at a concrete two-member cluster with
identical norms. -/
theorem c10_chain_witness :
    Relation.EqvGen (splitEdge [1, 2] (fun _ => "alpha beta")) 1 2 :=
  c10_subclusters_chain_connected [1, 2] (fun _ => "alpha beta")
    (1, [1, 2]) (by decide) 1 2 (by decide) (by decide)

set_option maxRecDepth 4000 in
set_option maxHeartbeats 1000000 in
/-- C10 (counterexample): a 51-member cluster (exceeding
`MAX_GROUP_SIZE = 50`) whose splitting pass leaves members 49 and 51 in
the same sub-cluster although their norms differ and their pair *fails*
the merge-decision policy (their composite score 183/200 = 0.915 even
meets the 0.90 tight threshold; the short-name guard inside
`should_merge` rejects it, 0.915 < 0.95).  The accepted links 49–50 and
50–51 score 363/380 ≈ 0.9553 and 403/420 ≈ 0.9595 — every comparison
exercised here sits at least 5/1000 away from its threshold, so the
program's double arithmetic makes the same decisions.  The pairwise
postcondition claimed for the splitter is therefore false: union-find
closes accepted links transitively. -/
theorem c10_split_pairwise_counterexample :
    MAX_GROUP_SIZE < ((List.range 51).map (fun i => i + 1)).length ∧
    (∃ g ∈ (subUF ((List.range 51).map (fun i => i + 1))
        (fun rid => if rid = 50 then "abcdefghij"
          else if rid = 51 then "abcdefghijk" else "abcdefghi")).groups,
      49 ∈ g.2 ∧ 51 ∈ g.2) ∧
    (fun rid : Nat => if rid = 50 then "abcdefghij"
      else if rid = 51 then "abcdefghijk" else "abcdefghi") 49 ≠
    (fun rid : Nat => if rid = 50 then "abcdefghij"
      else if rid = 51 then "abcdefghijk" else "abcdefghi") 51 ∧
    TIGHT_THRESHOLD ≤ composite_score "abcdefghi" "abcdefghijk" ∧
    should_merge "abcdefghi" "abcdefghijk"
      (composite_score "abcdefghi" "abcdefghijk") = false := by
  refine ⟨by decide, ?_, by decide, by decide, by decide⟩
  have hdec1 : ((List.range 51).map (fun i => i + 1)) =
      ((List.range 48).map (fun i => i + 1)) ++ 49 :: (50 :: [51]) := by decide
  have hdec2 : ((List.range 51).map (fun i => i + 1)) =
      ((List.range 49).map (fun i => i + 1)) ++ 50 :: [51] := by decide
  have hm1 : ((49 : Nat), (50 : Nat)) ∈
      allPairs ((List.range 51).map (fun i => i + 1)) := by
    rw [hdec1]
    exact mem_allPairs_append _ _ 49 50 (by decide)
  have hm2 : ((50 : Nat), (51 : Nat)) ∈
      allPairs ((List.range 51).map (fun i => i + 1)) := by
    rw [hdec2]
    exact mem_allPairs_append _ _ 50 51 (by decide)
  have hr1 := subUF_join ((List.range 51).map (fun i => i + 1))
    (fun rid => if rid = 50 then "abcdefghij"
      else if rid = 51 then "abcdefghijk" else "abcdefghi") 49 50 hm1
    (by decide) (by decide) (Or.inr ⟨by decide, by decide⟩)
  have hr2 := subUF_join ((List.range 51).map (fun i => i + 1))
    (fun rid => if rid = 50 then "abcdefghij"
      else if rid = 51 then "abcdefghijk" else "abcdefghi") 50 51 hm2
    (by decide) (by decide) (Or.inr ⟨by decide, by decide⟩)
  exact subUF_same_group _ _ 49 51 (by decide) (by decide) (hr1.trans hr2)

end BalancedResult
